import Mathlib

/-!
# NEMU simple debugger: expression evaluator and watchpoint pool

A shallow embedding of `nemu/src/monitor/sdb/expr.c`,
`nemu/src/monitor/sdb/watchpoint.c` and `memset` of
`abstract-machine/klib/src/string.c`, and the properties proved of it.

* C `int` indices are `Int`; the static array `tokens[64]` is a function
  `Int → Token` together with an explicit bounds check at every access; the
  pointers of the watchpoint lists are indices into `wp_pool`.
* A call either returns (`Except.ok`) or leaves defined behaviour
  (`Except.error`): a fired `assert(0)`, an access outside a fixed array, a
  division by zero, a signed overflow.
* Loops carry a fuel argument so that every definition is structurally
  recursive. `expr_total` shows that `expr` never exhausts it, on any input;
  `checkwp_total` and `free_wp_total` show the same for the pool operations
  in every reachable state.
* `word_t` is the 32-bit unsigned word; `atoi` and `strtol` follow the C
  library of an LP64 host.
-/

namespace Nemu

/-! ## Outcomes -/

/-- The ways in which a call does not return to its caller. -/
inductive Fault where
  /-- An `assert(0)` fired: the process aborts. -/
  | assertFail
  /-- A load or store outside one of the fixed arrays. -/
  | outOfBounds
  /-- A load from a local array slot that was never stored. -/
  | uninitRead
  /-- An unsigned division whose divisor is zero. -/
  | divByZero
  /-- A signed integer operation whose result is outside the range of its type. -/
  | intOverflow
  /-- The fuel of a loop of this embedding ran out (the C loop is still running). -/
  | outOfFuel
  deriving DecidableEq

/-- The result of a call: a returned value or a fault. -/
abbrev Res (α : Type) := Except Fault α

/-! ## Machine words and the C library -/

/-- Modelled from the spec: `word_t` is declared outside the sources; the spec
fixes "one fixed-width machine word type" whose memory read is 4 bytes wide,
so a word has 32 bits. This is the modulus `2 ^ 32`. -/
abbrev WORD : Nat := 4294967296

/-- Conversion of a C integer to the unsigned machine word. -/
def toWord (x : Int) : Nat := (x % (WORD : Int)).toNat

/-- Largest value of the host's `long` (LP64). -/
def LONG_MAX : Int := 9223372036854775807

/-- Smallest value of the host's `long` (LP64). -/
def LONG_MIN : Int := -9223372036854775808

/-- Conversion of a `long` to a 32-bit `int` (wrap-around). -/
def toInt32 (x : Int) : Int := (x + 2147483648) % 4294967296 - 2147483648

/-- C `isspace` in the "C" locale. -/
def isspace (c : Char) : Bool :=
  decide (c.toNat = 32 ∨ (9 ≤ c.toNat ∧ c.toNat ≤ 13))

/-- The value of a character as a digit in bases up to 36, as `strtol` reads it. -/
def digitVal (c : Char) : Option Nat :=
  if 48 ≤ c.toNat ∧ c.toNat ≤ 57 then some (c.toNat - 48)
  else if 97 ≤ c.toNat ∧ c.toNat ≤ 122 then some (c.toNat - 97 + 10)
  else if 65 ≤ c.toNat ∧ c.toNat ≤ 90 then some (c.toNat - 65 + 10)
  else none

/-- The digit loop of `strtol`: consume the longest run of digits of the base. -/
def strtol_digits (base : Nat) : List Char → Nat → Nat
  | [], acc => acc
  | c :: cs, acc =>
    match digitVal c with
    | some d => if d < base then strtol_digits base cs (acc * base + d) else acc
    | none => acc

/-- Whether `c` is a digit of the given base. -/
def isDigitOf (base : Nat) (c : Char) : Bool :=
  match digitVal c with
  | some d => decide (d < base)
  | none => false

/-- C library `strtol(s, NULL, base)` for `base` 10 and 16 on an LP64 host:
leading white space, an optional sign, for base 16 an optional `0x`/`0X`
that is followed by a hex digit, then the longest run of digits; the result
saturates at the range of `long`. -/
def strtol (s : List Char) (base : Nat) : Int :=
  let s1 := s.dropWhile isspace
  let neg : Bool := match s1 with
    | c :: _ => decide (c = '-')
    | [] => false
  let s2 := match s1 with
    | c :: r => if c = '-' ∨ c = '+' then r else s1
    | [] => s1
  let s3 := match s2 with
    | z :: x :: h :: r =>
      if base = 16 ∧ z = '0' ∧ (x = 'x' ∨ x = 'X') ∧ isDigitOf 16 h then h :: r else s2
    | _ => s2
  let v : Int := (strtol_digits base s3 0 : Nat)
  if neg then max (-v) LONG_MIN else min v LONG_MAX

/-- C library `atoi(s)`, that is `(int) strtol(s, NULL, 10)`. -/
def atoi (s : List Char) : Int := toInt32 (strtol s 10)

/-! ## The machine the evaluator consults -/

/-- The two capabilities `expr.c` consumes from the rest of NEMU.
`isa_reg_str2val name` is `none` when the lookup stores `false` in its
success flag; `paddr_read addr len` is the memory read. -/
structure Machine where
  isa_reg_str2val : List Char → Option Nat
  paddr_read : Nat → Nat → Nat

/-! ## Tokens and rules -/

abbrev TK_NOTYPE : Int := 256
abbrev TK_EQ : Int := 257
abbrev TK_PLUS : Int := 258
abbrev TK_MINUS : Int := 259
abbrev TK_MUL : Int := 260
abbrev TK_DIV : Int := 261
abbrev TK_LB : Int := 262
abbrev TK_RB : Int := 263
abbrev TK_NUM : Int := 264
abbrev TK_HEX : Int := 265
abbrev TK_REG : Int := 266
abbrev TK_DEREF : Int := 267
abbrev TK_AND : Int := 268
abbrev TK_NEQ : Int := 269

/-- One item of a pattern: a set of characters, taken once or (`+`) one or
more times. Every pattern of the rule table is a sequence of such items. -/
structure Piece where
  accepts : Char → Bool
  many : Bool

/-- A rule of the table: a pattern and the token type it produces. -/
structure Rule where
  regex : List Piece
  token_type : Int

/-- A single literal character. -/
def chr (c : Char) : Piece := ⟨fun d => d == c, false⟩

/-- The class `[0-9]`. -/
def isDec (c : Char) : Bool := decide (48 ≤ c.toNat ∧ c.toNat ≤ 57)

/-- The class `[0-9a-fA-F]`. -/
def isHex (c : Char) : Bool :=
  decide ((48 ≤ c.toNat ∧ c.toNat ≤ 57) ∨ (97 ≤ c.toNat ∧ c.toNat ≤ 102) ∨
    (65 ≤ c.toNat ∧ c.toNat ≤ 70))

/-- The class `[a-z0-9]`. -/
def isLowerAlnum (c : Char) : Bool :=
  decide ((97 ≤ c.toNat ∧ c.toNat ≤ 122) ∨ (48 ≤ c.toNat ∧ c.toNat ≤ 57))

/-- The rule table, in the order of the source. -/
def rules : List Rule :=
  [ ⟨[⟨fun d => d == ' ', true⟩], TK_NOTYPE⟩,                       -- " +"
    ⟨[chr '+'], TK_PLUS⟩,                                           -- "\\+"
    ⟨[chr '-'], TK_MINUS⟩,                                          -- "\\-"
    ⟨[chr '*'], TK_MUL⟩,                                            -- "\\*"
    ⟨[chr '/'], TK_DIV⟩,                                            -- "\\/"
    ⟨[chr '('], TK_LB⟩,                                             -- "\\("
    ⟨[chr ')'], TK_RB⟩,                                             -- "\\)"
    ⟨[chr '0', ⟨fun d => d == 'x' || d == 'X', false⟩, ⟨isHex, true⟩], TK_HEX⟩,  -- "0[xX][0-9a-fA-F]+"
    ⟨[⟨isDec, true⟩], TK_NUM⟩,                                      -- "[0-9]+"
    ⟨[chr '$', ⟨isLowerAlnum, true⟩], TK_REG⟩,                      -- "\\$[a-z0-9]+"
    ⟨[chr '=', chr '='], TK_EQ⟩,                                    -- "=="
    ⟨[chr '&', chr '&'], TK_AND⟩,                                   -- "&&"
    ⟨[chr '!', chr '='], TK_NEQ⟩ ]                                  -- "!="

/-- The test `regexec(&re, s, 1, &pmatch, 0) == 0 && pmatch.rm_so == 0`: the
result is `pmatch.rm_eo` when the pattern matches a prefix of `s`. A `+` item
takes the longest run; in this table every `+` item ends its pattern, so
this is the leftmost-longest match of POSIX. -/
def regexec : List Piece → List Char → Option Nat
  | [], _ => some 0
  | pc :: ps, s =>
    if pc.many then
      let run := (s.takeWhile pc.accepts).length
      if run = 0 then none
      else (regexec ps (s.drop run)).map (fun n => n + run)
    else
      match s with
      | c :: cs => if pc.accepts c then (regexec ps cs).map (fun n => n + 1) else none
      | [] => none

/-- The inner `for` loop of `make_token`: the first rule, in table order, that
matches at the start of `s`, with the length of its match. -/
def first_match : List Rule → List Char → Option (Rule × Nat)
  | [], _ => none
  | r :: rs, s =>
    match regexec r.regex s with
    | some n => some (r, n)
    | none => first_match rs s

/-- An entry of the token array: `int type; char str[32]`. The field `str` is
the C string held in the array (the characters before its terminator). -/
structure Token where
  type : Int
  str : List Char
  deriving DecidableEq

/-- The static state of `expr.c`: `tokens[64]` and `nr_token`. -/
structure ExprState where
  tokens : Int → Token
  nr_token : Int

/-- The state at program start: static storage is zero-initialised. -/
def ExprState.init : ExprState := ⟨fun _ => ⟨0, []⟩, 0⟩

/-- Index `i` lies inside `tokens[64]`. -/
def inTokens (i : Int) : Prop := 0 ≤ i ∧ i < 64

instance (i : Int) : Decidable (inTokens i) := by unfold inTokens; infer_instance

/-- The `switch` of `make_token`: record the token matched by a rule of type
`token_type` whose match is the first `substr_len` characters of
`substr_start`. Operator tokens store the type only; literals also copy the
match into `str` (`strncpy` and a terminator at `str[substr_len]`); register
names drop the leading sigil; any other type (white space) records nothing. -/
def record_token (st : ExprState) (token_type : Int) (substr_start : List Char)
    (substr_len : Nat) : Res ExprState :=
  if token_type = TK_PLUS ∨ token_type = TK_MINUS ∨ token_type = TK_MUL ∨
      token_type = TK_DIV ∨ token_type = TK_LB ∨ token_type = TK_RB ∨
      token_type = TK_EQ ∨ token_type = TK_NEQ ∨ token_type = TK_AND then
    if inTokens st.nr_token then
      .ok ⟨Function.update st.tokens st.nr_token ⟨token_type, (st.tokens st.nr_token).str⟩,
        st.nr_token + 1⟩
    else .error .outOfBounds
  else if token_type = TK_NUM ∨ token_type = TK_HEX then
    if inTokens st.nr_token ∧ substr_len < 32 then
      .ok ⟨Function.update st.tokens st.nr_token ⟨token_type, substr_start.take substr_len⟩,
        st.nr_token + 1⟩
    else .error .outOfBounds
  else if token_type = TK_REG then
    if inTokens st.nr_token ∧ substr_len - 1 < 32 then
      .ok ⟨Function.update st.tokens st.nr_token
          ⟨token_type, (substr_start.drop 1).take (substr_len - 1)⟩,
        st.nr_token + 1⟩
    else .error .outOfBounds
  else .ok st

/-- What a call of `make_token` leaves behind: its return value, the final
value of the local `position` (the offset it prints when it returns
`false`), and the static state. -/
structure Lexed where
  ret : Bool
  position : Int
  st : ExprState

/-- The `while` loop of `make_token`; `rest` is the text from `e + position`
on. The C string ends at the first NUL. -/
def make_token_loop : Nat → List Char → Int → ExprState → Res Lexed
  | 0, _, _, _ => .error .outOfFuel
  | fuel + 1, rest, position, st =>
    match rest with
    | [] => .ok ⟨true, position, st⟩
    | c :: _ =>
      if c.toNat = 0 then .ok ⟨true, position, st⟩
      else
        match first_match rules rest with
        | none => .ok ⟨false, position, st⟩
        | some (r, substr_len) =>
          match record_token st r.token_type rest substr_len with
          | .error f => .error f
          | .ok st1 => make_token_loop fuel (rest.drop substr_len) (position + substr_len) st1

/-- The function `make_token`: reset `nr_token`, then scan the text. -/
def make_token (st : ExprState) (e : List Char) : Res Lexed :=
  make_token_loop (e.length + 1) e 0 ⟨st.tokens, 0⟩

/-! ## Bracket matcher and operator locator -/

/-- A checked load of `tokens[i]`. -/
def tokenAt (tokens : Int → Token) (i : Int) : Res Token :=
  if inTokens i then .ok (tokens i) else .error .outOfBounds

/-- The `for` loop of `check_parentheses`. `mtch` is the local array
`match[16]` (`none` for a slot never stored) and `len_idx` its fill level. -/
def check_parentheses_loop (tokens : Int → Token) (q : Int) :
    Nat → Int → (Int → Option Int) → Int → Res Bool
  | 0, _, _, _ => .error .outOfFuel
  | fuel + 1, i, mtch, len_idx =>
    if i ≤ q then
      match tokenAt tokens i with
      | .error f => .error f
      | .ok t =>
        if t.type = TK_LB then
          if 0 ≤ len_idx ∧ len_idx < 16 then
            check_parentheses_loop tokens q fuel (i + 1)
              (Function.update mtch len_idx (some 1)) (len_idx + 1)
          else .error .outOfBounds
        else if t.type = TK_RB then
          if 0 ≤ len_idx - 1 ∧ len_idx - 1 < 16 then
            match mtch (len_idx - 1) with
            | none => .error .uninitRead
            | some v =>
              if v = 1 then
                if len_idx - 1 = 0 ∧ i = q then .ok true
                else if len_idx - 1 = 0 ∧ i ≠ q then .ok false
                else check_parentheses_loop tokens q fuel (i + 1) mtch (len_idx - 1)
              else check_parentheses_loop tokens q fuel (i + 1) mtch len_idx
          else .error .outOfBounds
        else check_parentheses_loop tokens q fuel (i + 1) mtch len_idx
    else .ok false

/-- The function `check_parentheses`. -/
def check_parentheses (tokens : Int → Token) (p q : Int) : Res Bool :=
  match tokenAt tokens p with
  | .error f => .error f
  | .ok tp =>
    if tp.type = TK_LB then
      match tokenAt tokens q with
      | .error f => .error f
      | .ok tq =>
        if tq.type = TK_RB then
          check_parentheses_loop tokens q ((q + 1 - p).toNat + 1) p (fun _ => none) 0
        else .ok false
    else .ok false

/-- The `while` loop of `op_idx` that looks for the bracket closing the one
at `i`: the first `tmp_RB` for which `check_parentheses(i, tmp_RB)` holds. -/
def find_RB (tokens : Int → Token) (i : Int) : Nat → Int → Res Int
  | 0, _ => .error .outOfFuel
  | fuel + 1, tmp_RB =>
    match check_parentheses tokens i tmp_RB with
    | .error f => .error f
    | .ok true => .ok tmp_RB
    | .ok false => find_RB tokens i fuel (tmp_RB + 1)

/-- The `for` loop of `op_idx`; `idx0` and `idx1` are `idx[0]` and `idx[1]`. -/
def op_idx_loop (tokens : Int → Token) (q : Int) : Nat → Int → Int → Int → Res Int
  | 0, _, _, _ => .error .outOfFuel
  | fuel + 1, i, idx0, idx1 =>
    if i ≤ q then
      match tokenAt tokens i with
      | .error f => .error f
      | .ok t =>
        if t.type = TK_LB then
          match find_RB tokens i 65 (i + 1) with
          | .error f => .error f
          | .ok tmp_RB => op_idx_loop tokens q fuel (tmp_RB + 1) idx0 idx1
        else if t.type = TK_PLUS ∨ t.type = TK_MINUS then
          if idx1 ≥ 1 then op_idx_loop tokens q fuel (i + 1) i 1
          else op_idx_loop tokens q fuel (i + 1) idx0 idx1
        else if t.type = TK_MUL ∨ t.type = TK_DIV then
          if idx1 = 2 then op_idx_loop tokens q fuel (i + 1) i 2
          else op_idx_loop tokens q fuel (i + 1) idx0 idx1
        else op_idx_loop tokens q fuel (i + 1) idx0 idx1
    else .ok idx0

/-- The function `op_idx`. -/
def op_idx (tokens : Int → Token) (p q : Int) : Res Int :=
  op_idx_loop tokens q ((q + 1 - p).toNat + 1) p p 2

/-! ## Evaluator -/

/-- The function `eval` on the token range `p..q`. Each recursive call is on
a strictly shorter range, so fuel above `q - p` is never exhausted. -/
def eval (m : Machine) (tokens : Int → Token) : Nat → Int → Int → Res Nat
  | 0, _, _ => .error .outOfFuel
  | fuel + 1, p, q =>
    if p > q then .error .assertFail
    else if p = q then
      match tokenAt tokens p with
      | .error f => .error f
      | .ok t =>
        if t.type = TK_NUM then .ok (toWord (atoi t.str))
        else if t.type = TK_REG then
          match m.isa_reg_str2val t.str with
          | none => .error .assertFail
          | some ret => .ok (ret % WORD)
        else if t.type = TK_HEX then .ok (toWord (strtol t.str 16))
        else .error .assertFail
    else
      match check_parentheses tokens p q with
      | .error f => .error f
      | .ok true => eval m tokens fuel (p + 1) (q - 1)
      | .ok false =>
        match tokenAt tokens p with
        | .error f => .error f
        | .ok tp =>
          if tp.type = TK_DEREF ∧ p + 1 = q then
            match tokenAt tokens (p + 1) with
            | .error f => .error f
            | .ok t1 => .ok (m.paddr_read (toWord (strtol t1.str 16)) 4 % WORD)
          else
            match op_idx tokens p q with
            | .error f => .error f
            | .ok op =>
              match eval m tokens fuel p (op - 1) with
              | .error f => .error f
              | .ok val1 =>
                match eval m tokens fuel (op + 1) q with
                | .error f => .error f
                | .ok val2 =>
                  match tokenAt tokens op with
                  | .error f => .error f
                  | .ok top =>
                    if top.type = TK_PLUS then .ok ((val1 + val2) % WORD)
                    else if top.type = TK_MINUS then .ok ((val1 + (WORD - val2 % WORD)) % WORD)
                    else if top.type = TK_MUL then .ok ((val1 * val2) % WORD)
                    else if top.type = TK_DIV then
                      if val2 = 0 then .error .divByZero else .ok (val1 / val2)
                    else .error .assertFail

/-- The first loop of `expr`: a `*` at position 0 or right after `+`, `-`,
`*`, `/` or `(` becomes a dereference. The array is updated in place, so
the test on `tokens[i - 1]` sees the types already rewritten. -/
def mark_deref (nr_token : Int) : Nat → Int → (Int → Token) → Res (Int → Token)
  | 0, _, _ => .error .outOfFuel
  | fuel + 1, i, tokens =>
    if i < nr_token then
      match tokenAt tokens i with
      | .error f => .error f
      | .ok t =>
        if t.type = TK_MUL then
          if i = 0 then
            mark_deref nr_token fuel (i + 1) (Function.update tokens i ⟨TK_DEREF, t.str⟩)
          else
            match tokenAt tokens (i - 1) with
            | .error f => .error f
            | .ok t0 =>
              if t0.type = TK_PLUS ∨ t0.type = TK_MINUS ∨ t0.type = TK_MUL ∨
                  t0.type = TK_DIV ∨ t0.type = TK_LB then
                mark_deref nr_token fuel (i + 1) (Function.update tokens i ⟨TK_DEREF, t.str⟩)
              else mark_deref nr_token fuel (i + 1) tokens
        else mark_deref nr_token fuel (i + 1) tokens
    else .ok tokens

/-- The second loop of `expr` and the final `eval`: split at the first `==`,
`!=` or `&&` token, evaluating both sides, or evaluate the whole range. -/
def expr_split (m : Machine) (tokens : Int → Token) (nr_token : Int) : Nat → Int → Res Nat
  | 0, _ => .error .outOfFuel
  | fuel + 1, i =>
    if i < nr_token then
      match tokenAt tokens i with
      | .error f => .error f
      | .ok t =>
        if t.type = TK_EQ ∨ t.type = TK_NEQ ∨ t.type = TK_AND then
          match eval m tokens (nr_token.toNat + 1) 0 (i - 1) with
          | .error f => .error f
          | .ok e1_val =>
            match eval m tokens (nr_token.toNat + 1) (i + 1) (nr_token - 1) with
            | .error f => .error f
            | .ok e2_val =>
              if t.type = TK_EQ then .ok (if e1_val = e2_val then 1 else 0)
              else if t.type = TK_NEQ then .ok (if e1_val ≠ e2_val then 1 else 0)
              else .ok (if e1_val ≠ 0 ∧ e2_val ≠ 0 then 1 else 0)
        else expr_split m tokens nr_token fuel (i + 1)
    else eval m tokens (nr_token.toNat + 1) 0 (nr_token - 1)

/-- What a call of `expr` leaves behind: the returned word, the caller's
success flag, and the static state. -/
structure ExprOut where
  value : Nat
  success : Bool
  st : ExprState

/-- The function `expr(e, success)`; `success` is the flag the caller passes in. -/
def expr (m : Machine) (st : ExprState) (e : List Char) (success : Bool) : Res ExprOut :=
  match make_token st e with
  | .error f => .error f
  | .ok lx =>
    if lx.ret = false then .ok ⟨0, false, lx.st⟩
    else
      match mark_deref lx.st.nr_token (lx.st.nr_token.toNat + 1) 0 lx.st.tokens with
      | .error f => .error f
      | .ok tokens =>
        match expr_split m tokens lx.st.nr_token (lx.st.nr_token.toNat + 1) 0 with
        | .error f => .error f
        | .ok v => .ok ⟨v, success, ⟨tokens, lx.st.nr_token⟩⟩

/-- A machine for examples: no register is known, and memory holds 42 in the
word at address 0x100 and 0 elsewhere. -/
def demoMachine : Machine :=
  ⟨fun _ => none, fun addr _ => if addr = 256 then 42 else 0⟩

/-- The value a call returns, when it returns. -/
def valueOf (r : Res ExprOut) : Option Nat :=
  match r with
  | .ok o => some o.value
  | .error _ => none

/-! ## Well-formed arithmetic expressions (specification side) -/

/-- The four binary operators of the arithmetic grammar. -/
inductive BinOp where
  | add
  | sub
  | mul
  | div
  deriving DecidableEq

/-- Parse trees of arithmetic expressions: a decimal literal (its digits), a
hex literal (the letter after the leading `0` and its digits), a bracketed
expression, a binary operation. -/
inductive AExp where
  | dec (s : List Char)
  | hex (x : Char) (s : List Char)
  | paren (e : AExp)
  | bin (op : BinOp) (l r : AExp)

/-- The token type of an operator. -/
def BinOp.type : BinOp → Int
  | .add => TK_PLUS
  | .sub => TK_MINUS
  | .mul => TK_MUL
  | .div => TK_DIV

/-- Whether the operator is `+` or `-` (the lower precedence class). -/
def BinOp.additive : BinOp → Bool
  | .add => true
  | .sub => true
  | .mul => false
  | .div => false

/-- The tokens of a parse tree, left to right. Operator and bracket tokens
carry no text. -/
def AExp.toks : AExp → List Token
  | .dec s => [⟨TK_NUM, s⟩]
  | .hex x s => [⟨TK_HEX, '0' :: x :: s⟩]
  | .paren e => ⟨TK_LB, []⟩ :: (e.toks ++ [⟨TK_RB, []⟩])
  | .bin op l r => l.toks ++ ⟨op.type, []⟩ :: r.toks

/-- The characters a token is written with. -/
def tokText (t : Token) : List Char :=
  if t.type = TK_PLUS then ['+']
  else if t.type = TK_MINUS then ['-']
  else if t.type = TK_MUL then ['*']
  else if t.type = TK_DIV then ['/']
  else if t.type = TK_LB then ['(']
  else if t.type = TK_RB then [')']
  else if t.type = TK_EQ then ['=', '=']
  else if t.type = TK_NEQ then ['!', '=']
  else if t.type = TK_AND then ['&', '&']
  else if t.type = TK_REG then '$' :: t.str
  else t.str

/-- A text for a token sequence: before each token stand `gaps`-many spaces
(the next entry of `gaps`, none when the list is used up), and the entry
after the last token gives the trailing spaces. -/
def spell : List Nat → List Token → List Char
  | gaps, [] => List.replicate (gaps.headD 0) ' '
  | gaps, t :: ts => List.replicate (gaps.headD 0) ' ' ++ (tokText t ++ spell gaps.tail ts)

/-- The number a digit string denotes in the given base. -/
def numeral (base : Nat) (s : List Char) : Nat :=
  s.foldl (fun acc c => acc * base + (digitVal c).getD 0) 0

/-- Whether the root of the tree is `+` or `-`. -/
def AExp.isAdditive : AExp → Bool
  | .bin op _ _ => op.additive
  | _ => false

/-- Whether the tree is a literal or a bracketed expression. -/
def AExp.isFactor : AExp → Bool
  | .bin _ _ _ => false
  | _ => true

/-- The tree is the parse the usual grammar
`E → E + T | E - T | T`, `T → T * F | T / F | F`, `F → literal | ( E )`
assigns to its tokens: the right operand of `+`/`-` is a `T`, the left
operand of `*`/`/` is a `T` and its right operand an `F`; literals are
non-empty digit strings, hex literals start `0x` or `0X`. -/
def AExp.grammatical : AExp → Bool
  | .dec s => !s.isEmpty && s.all isDec
  | .hex x s => (x == 'x' || x == 'X') && !s.isEmpty && s.all isHex
  | .paren e => e.grammatical
  | .bin op l r =>
    l.grammatical && r.grammatical &&
      (if op.additive then !r.isAdditive else !l.isAdditive && r.isFactor)

/-- Every literal of the tree denotes a number that fits a machine word. -/
def AExp.litsInWord : AExp → Bool
  | .dec s => decide (numeral 10 s < WORD)
  | .hex _ s => decide (numeral 16 s < WORD)
  | .paren e => e.litsInWord
  | .bin _ l r => l.litsInWord && r.litsInWord

/-- Every literal of the tree is written with at most 31 characters. -/
def AExp.litsShort : AExp → Bool
  | .dec s => decide (s.length ≤ 31)
  | .hex _ s => decide (s.length + 2 ≤ 31)
  | .paren e => e.litsShort
  | .bin _ l r => l.litsShort && r.litsShort

/-- The deepest nesting of brackets in the tree. -/
def AExp.depth : AExp → Nat
  | .dec _ => 0
  | .hex _ _ => 0
  | .paren e => e.depth + 1
  | .bin _ l r => max l.depth r.depth

/-- The value of the tree in unsigned word arithmetic: sums, differences and
products modulo `2 ^ 32`, truncating division; `none` when a divisor is zero. -/
def AExp.value : AExp → Option Nat
  | .dec s => some (numeral 10 s)
  | .hex _ s => some (numeral 16 s)
  | .paren e => e.value
  | .bin op l r =>
    match l.value, r.value with
    | some a, some b =>
      match op with
      | .add => some ((a + b) % WORD)
      | .sub => some (((a : Int) - (b : Int)) % (WORD : Int)).toNat
      | .mul => some ((a * b) % WORD)
      | .div => if b = 0 then none else some (a / b)
    | _, _ => none

/-- The array holds the token sequence `ts` from index `p` on: the types
agree, and so do the texts of literal and register tokens. -/
def Laid (tokens : Int → Token) : Int → List Token → Prop
  | _, [] => True
  | p, t :: ts =>
    ((tokens p).type = t.type ∧
      ((t.type = TK_NUM ∨ t.type = TK_HEX ∨ t.type = TK_REG) → (tokens p).str = t.str)) ∧
    Laid tokens (p + 1) ts

/-- Offset `q` is reached by the scan of `make_token` on the text `e` when the
scan stands at offset `p`: it is `p` itself, or it is reached from the end of
the match that the first matching rule makes at `p` (where the text has not
ended). -/
inductive ScanFrom (e : List Char) : Nat → Nat → Prop where
  | here (p : Nat) : ScanFrom e p p
  | step (p n q : Nat) (r : Rule) (c : Char) (cs : List Char) :
      e.drop p = c :: cs → c.toNat ≠ 0 → first_match rules (c :: cs) = some (r, n) →
      ScanFrom e (p + n) q → ScanFrom e p q

/-- Offset `p` is a position the scan of `make_token` visits in the text `e`. -/
def ScanPos (e : List Char) (p : Nat) : Prop := ScanFrom e 0 p

/-- At offset `p` the text `e` has not ended and no rule of the table matches. -/
def NoRuleAt (e : List Char) (p : Nat) : Prop :=
  ∃ c cs, e.drop p = c :: cs ∧ c.toNat ≠ 0 ∧ first_match rules (c :: cs) = none

/-- The depth counter of `check_parentheses`: its loop with the array
`match` replaced by the fill level alone. -/
def depth_loop (tokens : Int → Token) (q : Int) : Nat → Int → Int → Res Bool
  | 0, _, _ => .error .outOfFuel
  | fuel + 1, i, d =>
    if i ≤ q then
      match tokenAt tokens i with
      | .error f => .error f
      | .ok t =>
        if t.type = TK_LB then
          if 0 ≤ d ∧ d < 16 then depth_loop tokens q fuel (i + 1) (d + 1)
          else .error .outOfBounds
        else if t.type = TK_RB then
          if 0 ≤ d - 1 ∧ d - 1 < 16 then
            if d - 1 = 0 ∧ i = q then .ok true
            else if d - 1 = 0 ∧ i ≠ q then .ok false
            else depth_loop tokens q fuel (i + 1) (d - 1)
          else .error .outOfBounds
        else depth_loop tokens q fuel (i + 1) d
    else .ok false

/-- The state `(idx[0], idx[1])` of `op_idx` after its scan has passed the
tokens of `e`, which start at index `i`. -/
def scanOps : AExp → Int → Int × Int → Int × Int
  | .bin op l r, i, s =>
    let s1 := scanOps l i s
    let pos : Int := i + l.toks.length
    let s2 : Int × Int :=
      if op.additive then (if s1.2 ≥ 1 then (pos, 1) else s1)
      else (if s1.2 = 2 then (pos, 2) else s1)
    scanOps r (pos + 1) s2
  | _, _, s => s

/-- The text after a literal does not continue it: it is empty or starts
with a character that is neither a hex digit nor `x` nor `X`. -/
def StopsLit (rest : List Char) : Prop :=
  ∀ c ∈ rest.head?, isHex c = false ∧ c ≠ 'x' ∧ c ≠ 'X'

/-- The token is a decimal or hex literal. -/
def isLit (t : Token) : Prop := t.type = TK_NUM ∨ t.type = TK_HEX

/-- A token the tokenizer can record from its text within `str[32]`: an
operator or bracket, a decimal literal (non-empty digits), or a hex literal
(`0x` or `0X` and non-empty hex digits), of at most 31 characters. -/
def TokOK (t : Token) : Prop :=
  (t.type = TK_PLUS ∨ t.type = TK_MINUS ∨ t.type = TK_MUL ∨ t.type = TK_DIV ∨
    t.type = TK_LB ∨ t.type = TK_RB ∨ t.type = TK_EQ ∨ t.type = TK_NEQ ∨ t.type = TK_AND) ∨
  (t.type = TK_NUM ∧ t.str ≠ [] ∧ (∀ c ∈ t.str, isDec c = true) ∧ t.str.length ≤ 31) ∨
  (t.type = TK_HEX ∧ t.str.length ≤ 31 ∧
    ∃ x s, t.str = '0' :: x :: s ∧ (x = 'x' ∨ x = 'X') ∧ s ≠ [] ∧ ∀ c ∈ s, isHex c = true)

/-- A token sequence whose text the tokenizer reads back: every token is
recordable and no literal is directly followed by another literal. -/
def Lexable : List Token → Prop
  | [] => True
  | t :: ts => TokOK t ∧ (∀ t1 ∈ ts.head?, ¬ (isLit t ∧ isLit t1)) ∧ Lexable ts

/-- The fault a call ends in, when it does not return. -/
def faultOf {α : Type} (r : Res α) : Option Fault :=
  match r with
  | .ok _ => none
  | .error f => some f

/-- The tree of `1+2*3`. -/
def sum_product : AExp :=
  .bin .add (.dec ['1']) (.bin .mul (.dec ['2']) (.dec ['3']))

/-- The tree of `(1+2)*3`. -/
def bracket_product : AExp :=
  .bin .mul (.paren (.bin .add (.dec ['1']) (.dec ['2']))) (.dec ['3'])

/-- The tree of `0x10+1`. -/
def hex_sum : AExp :=
  .bin .add (.hex 'x' ['1', '0']) (.dec ['1'])

/-- The tree of a sum whose left literal is 1 written with 33 digits
(32 leading zeros). -/
def overlong_sum : AExp :=
  .bin .add (.dec (List.replicate 32 '0' ++ ['1'])) (.dec ['1'])

/-- The three operators `expr` splits at: `==`, `!=`, `&&`. -/
inductive CmpOp where
  | eq
  | neq
  | and
  deriving DecidableEq

/-- The token type of a splitting operator. -/
def CmpOp.type : CmpOp → Int
  | .eq => TK_EQ
  | .neq => TK_NEQ
  | .and => TK_AND

/-- The truth of `a op b` on machine words. -/
def CmpOp.holds : CmpOp → Nat → Nat → Bool
  | .eq, a, b => decide (a = b)
  | .neq, a, b => decide (a ≠ b)
  | .and, a, b => decide (a ≠ 0 ∧ b ≠ 0)

/-- The tokens of `A op B`. -/
def cmpToks (A : AExp) (c : CmpOp) (B : AExp) : List Token :=
  A.toks ++ ⟨c.type, []⟩ :: B.toks

/-- The literal `1` inside `n` pairs of brackets. -/
def nested_one : Nat → AExp
  | 0 => .dec ['1']
  | n + 1 => .paren (nested_one n)

/-- The sum `1+1+...+1` with `n` plus signs. -/
def ones_sum : Nat → AExp
  | 0 => .dec ['1']
  | n + 1 => .bin .add (ones_sum n) (.dec ['1'])

/-- The tree of `1/0`. -/
def one_by_zero : AExp := .bin .div (.dec ['1']) (.dec ['0'])

/-- The tree of `5/(2-2)`. -/
def five_by_difference : AExp :=
  .bin .div (.dec ['5']) (.paren (.bin .sub (.dec ['2']) (.dec ['2'])))

/-- What `make_token` returned and the offset it stopped at, when it returned. -/
def lexOf (r : Res Lexed) : Option (Bool × Int) :=
  match r with
  | .ok lx => some (lx.ret, lx.position)
  | .error _ => none

/-- The text of 65 plus signs. -/
def plus_run : List Char := List.replicate 65 '+'

/-! ## The watchpoint pool (`watchpoint.c`) -/

/-- The size of the pool. -/
abbrev NR_WP : Nat := 32

/-- Modelled from the spec: `WP` is declared in `sdb.h`, outside the sources.
A watchpoint has the fields `watchpoint.c` uses: its number, the link to the
next slot of its list (`none` is `NULL`, `some i` is `&wp_pool[i]`), the
expression text, the last observed value and the remaining-fire budget. -/
structure WP where
  NO : Int
  next : Option Nat
  expression : List Char
  last_val : Nat
  alarm_time : Int

/-- The static state of `watchpoint.c`: `wp_pool`, `head` and `free_`. -/
structure WpState where
  wp_pool : Nat → WP
  head : Option Nat
  free_ : Option Nat

/-- The state at program start: static storage is zero-initialised. -/
def WpState.zero : WpState := ⟨fun _ => ⟨0, none, [], 0, 0⟩, none, none⟩

/-- The store `wp->next = p`. -/
def WP.setNext (w : WP) (p : Option Nat) : WP :=
  ⟨w.NO, p, w.expression, w.last_val, w.alarm_time⟩

/-- The store `wp->alarm_time = t`. -/
def WP.setAlarm (w : WP) (t : Int) : WP :=
  ⟨w.NO, w.next, w.expression, w.last_val, t⟩

/-- The `for` loop of `init_wp_pool`, `k` iterations from index `i`. -/
def init_wp_pool_loop : Nat → Nat → (Nat → WP) → (Nat → WP)
  | 0, _, pool => pool
  | k + 1, i, pool =>
    init_wp_pool_loop k (i + 1)
      (Function.update pool i
        ⟨(i : Int), if i = NR_WP - 1 then none else some (i + 1), (pool i).expression,
          (pool i).last_val, 1⟩)

/-- The function `init_wp_pool`. -/
def init_wp_pool (st : WpState) : WpState :=
  ⟨init_wp_pool_loop NR_WP 0 st.wp_pool, none, some 0⟩

/-- The function `new_wp`: how the call ends (the slot it returns, or the
`assert(0)` after "there is no free wp") and the pool at that moment. -/
def new_wp (st : WpState) : Res Nat × WpState :=
  match st.free_ with
  | none => (.error .assertFail, st)
  | some ret =>
    (.ok ret,
      ⟨Function.update st.wp_pool ret ((st.wp_pool ret).setNext st.head), some ret,
        (st.wp_pool ret).next⟩)

/-- The `while` loop of `checkwp`; `a` is the local success flag handed to
`expr`, `wp` the loop pointer. The result is how the call ends, with the
token state when it returns, and the pool at that moment. -/
def checkwp_loop (m : Machine) :
    Nat → ExprState → Bool → WpState → Option Nat → Res (Bool × ExprState) × WpState
  | 0, _, _, st, _ => (.error .outOfFuel, st)
  | fuel + 1, es, a, st, wp =>
    match wp with
    | none => (.ok (false, es), st)
    | some w =>
      match expr m es (st.wp_pool w).expression a with
      | .error f => (.error f, st)
      | .ok out =>
        if out.value ≠ (st.wp_pool w).last_val ∧ (st.wp_pool w).alarm_time ≠ 0 then
          (.ok (true, out.st),
            ⟨Function.update st.wp_pool w
                ((st.wp_pool w).setAlarm ((st.wp_pool w).alarm_time - 1)),
              st.head, st.free_⟩)
        else checkwp_loop m fuel out.st out.success st (st.wp_pool w).next

/-- The function `checkwp`. A list inside the pool has at most `NR_WP` slots,
so the loop ends within `NR_WP + 1` tests of its condition. -/
def checkwp (m : Machine) (es : ExprState) (st : WpState) :
    Res (Bool × ExprState) × WpState :=
  checkwp_loop m (NR_WP + 1) es true st st.head

/-- What `free_wp` reports: nothing (the slot was released), "there is no
watchpoints to delete", or "the given NO is wrong, please try another NO". -/
inductive FreeOut where
  | freed
  | noWatchpoints
  | wrongNO
  deriving DecidableEq

/-- The `while` loop of `free_wp`, with the loop pointers `wp` and `prev`. -/
def free_wp_loop (no : Int) : Nat → WpState → Option Nat → Nat → Res FreeOut × WpState
  | 0, st, _, _ => (.error .outOfFuel, st)
  | fuel + 1, st, wp, prev =>
    match wp with
    | none => (.ok .wrongNO, st)
    | some w =>
      if (st.wp_pool w).NO = no then
        let pool1 := Function.update st.wp_pool prev
          ((st.wp_pool prev).setNext (st.wp_pool w).next)
        let pool2 := Function.update pool1 w ((pool1 w).setAlarm 1)
        let pool3 := Function.update pool2 w ((pool2 w).setNext st.free_)
        (.ok .freed, ⟨pool3, st.head, some w⟩)
      else free_wp_loop no fuel st (st.wp_pool w).next w

/-- The function `free_wp`. -/
def free_wp (st : WpState) (no : Int) : Res FreeOut × WpState :=
  match st.head with
  | none => (.ok .noWatchpoints, st)
  | some h =>
    if (st.wp_pool h).NO = no then
      let pool1 := Function.update st.wp_pool h ((st.wp_pool h).setAlarm 1)
      let pool2 := Function.update pool1 h ((pool1 h).setNext st.free_)
      (.ok .freed, ⟨pool2, (st.wp_pool h).next, some h⟩)
    else free_wp_loop no NR_WP st (st.wp_pool h).next h

/-- The slots visited from the pointer `p` along `next` up to `NULL` are
exactly the list `l`, in this order. -/
def IsChain (pool : Nat → WP) : Option Nat → List Nat → Prop
  | p, [] => p = none
  | p, i :: l => p = some i ∧ IsChain pool (pool i).next l

/-- The stores the command layer of the monitor makes through the pointer
`new_wp` returned (the caller is outside the sources): the expression text
and its value at registration. -/
def store_wp (st : WpState) (i : Nat) (expression : List Char) (last_val : Nat) : WpState :=
  ⟨Function.update st.wp_pool i
      ⟨(st.wp_pool i).NO, (st.wp_pool i).next, expression, last_val, (st.wp_pool i).alarm_time⟩,
    st.head, st.free_⟩

/-- The pool states reachable from `init_wp_pool` by calls of `new_wp`,
`free_wp` and `checkwp` and by the caller's stores into a slot's expression
and value. A call that aborts leaves the state it aborted in. -/
inductive Reachable : WpState → Prop where
  | init (st0 : WpState) : Reachable (init_wp_pool st0)
  | alloc (st : WpState) : Reachable st → Reachable (new_wp st).2
  | release (st : WpState) (no : Int) : Reachable st → Reachable (free_wp st no).2
  | check (m : Machine) (es : ExprState) (st : WpState) :
      Reachable st → Reachable (checkwp m es st).2
  | store (st : WpState) (i : Nat) (expression : List Char) (last_val : Nat) :
      Reachable st → Reachable (store_wp st i expression last_val)

/-- The invariant of the pool: the free list and the active list are chains
`fl` and `al` through the pool that are duplicate-free, disjoint and together
hold exactly the slots `0..NR_WP-1`, and each slot holds its index as `NO`. -/
def PoolInv (st : WpState) (fl al : List Nat) : Prop :=
  IsChain st.wp_pool st.free_ fl ∧ IsChain st.wp_pool st.head al ∧ (fl ++ al).Nodup ∧
    (∀ i, i ∈ fl ++ al ↔ i < NR_WP) ∧ ∀ i, i < NR_WP → (st.wp_pool i).NO = (i : Int)

/-- The slots visited from the pointer `p` along `next` are the list `l`, in
this order, and the link of the last one (or `p` itself, for the empty
list) is `q`. -/
def IsSeg (pool : Nat → WP) : Option Nat → List Nat → Option Nat → Prop
  | p, [], q => p = q
  | p, i :: l, q => p = some i ∧ IsSeg pool (pool i).next l q

/-- The pool after `free_wp` has unlinked the slot `w` that follows `prev` in
the active list and pushed it on the free list. -/
def unlinked (st : WpState) (prev w : Nat) : WpState :=
  let pool1 := Function.update st.wp_pool prev ((st.wp_pool prev).setNext (st.wp_pool w).next)
  let pool2 := Function.update pool1 w ((pool1 w).setAlarm 1)
  let pool3 := Function.update pool2 w ((pool2 w).setNext st.free_)
  ⟨pool3, st.head, some w⟩

/-- The pool with the budget of slot `w` decremented by one and nothing else
changed. -/
def decremented (st : WpState) (w : Nat) : WpState :=
  ⟨Function.update st.wp_pool w ((st.wp_pool w).setAlarm ((st.wp_pool w).alarm_time - 1)),
    st.head, st.free_⟩

/-- `n` consecutive calls of `new_wp`: the slots returned, in order, and the
pool at the end (or at the first failing call). -/
def alloc_n : Nat → WpState → Res (List Nat) × WpState
  | 0, st => (.ok [], st)
  | n + 1, st =>
    match new_wp st with
    | (.error f, st1) => (.error f, st1)
    | (.ok r, st1) =>
      match alloc_n n st1 with
      | (.error f, st2) => (.error f, st2)
      | (.ok rs, st2) => (.ok (r :: rs), st2)

/-- A fresh pool after two allocations. -/
def two_active : WpState := (new_wp (new_wp (init_wp_pool WpState.zero)).2).2

/-- A fresh pool after one allocation, one check and the release of id 0. -/
def cycled_pool : WpState :=
  (free_wp (checkwp demoMachine ExprState.init (new_wp (init_wp_pool WpState.zero)).2).2 0).2

/-- The `while` loop of `wp_display`: the lines it prints after the header,
each a slot's number and expression text. -/
def wp_display_loop (pool : Nat → WP) : Nat → Option Nat → Res (List (Int × List Char))
  | 0, _ => .error .outOfFuel
  | fuel + 1, wp =>
    match wp with
    | none => .ok []
    | some w =>
      match wp_display_loop pool fuel (pool w).next with
      | .error f => .error f
      | .ok lines => .ok (((pool w).NO, (pool w).expression) :: lines)

/-- The function `wp_display`: the lines printed after `NO    expr`. -/
def wp_display (st : WpState) : Res (List (Int × List Char)) :=
  wp_display_loop st.wp_pool (NR_WP + 1) st.head

/-- A pool with one active watchpoint on `1+2`, registered with the value 3. -/
def watch_three : WpState :=
  store_wp (new_wp (init_wp_pool WpState.zero)).2 0 ['1', '+', '2'] 3

/-- The decimal literal 1 written with 32 digits (31 leading zeros). -/
def literal_32 : List Char := List.replicate 31 '0' ++ ['1']

/-! ## The string library (`klib/src/string.c`) -/

/-- Largest value of a C `int`. -/
def INT_MAX : Int := 2147483647

/-- Byte-addressed memory: the byte stored at each address. -/
abbrev Bytes := Nat → Nat

/-- Conversion of an `int` to the byte that a store through `char *` writes. -/
def toByte (c : Int) : Nat := (c % 256).toNat

/-- The `for` loop of `memset`, `for (int i = 0; i < n; i++) byte[i] = c`.
The counter is an `int`: incrementing it past `INT_MAX` is an overflow. -/
def memset_loop (byte : Nat) (c : Int) (n : Nat) : Nat → Int → Bytes → Res Bytes
  | 0, _, _ => .error .outOfFuel
  | fuel + 1, i, mem =>
    if i < (n : Int) then
      let mem1 := Function.update mem (byte + i.toNat) (toByte c)
      if i + 1 ≤ INT_MAX then memset_loop byte c n fuel (i + 1) mem1
      else .error .intOverflow
    else .ok mem

/-- The function `memset(s, c, n)` of klib on the memory `mem`: the memory
after the call and the pointer it returns. After the loop it stores
`byte[n] = 0`. -/
def memset (mem : Bytes) (s : Nat) (c : Int) (n : Nat) : Res (Bytes × Nat) :=
  match memset_loop s c n (n + 1) 0 mem with
  | .error f => .error f
  | .ok mem1 => .ok (Function.update mem1 (s + n) 0, s)

/-- A memory that holds the byte 66 (`B`) everywhere. -/
def all_B : Bytes := fun _ => 66
/-! ## Bracket depth (specification side) -/

/-- The change of the depth counter at a token: plus one on an opening
bracket, minus one on a closing bracket. -/
def bracket_delta (t : Token) : Int :=
  if t.type = TK_LB then 1 else if t.type = TK_RB then -1 else 0

/-- The depth counter after the `k` tokens at `p, p+1, ..., p+k-1`, starting
from zero. -/
def depth_after (tokens : Int → Token) (p : Int) : Nat → Int
  | 0 => 0
  | k + 1 => depth_after tokens p k + bracket_delta (tokens (p + k))

/-- A depth counter scanned over `p..q` reaches zero for the first time
exactly at `q`: it is zero after the token at `q` and not after any earlier
token of the range. -/
def first_zero_at (tokens : Int → Token) (p q : Int) : Prop :=
  p ≤ q ∧ depth_after tokens p (q + 1 - p).toNat = 0 ∧
    ∀ k : Nat, k < (q + 1 - p).toNat → 1 ≤ k → depth_after tokens p k ≠ 0

instance (tokens : Int → Token) (p q : Int) : Decidable (first_zero_at tokens p q) := by
  unfold first_zero_at; infer_instance

/-- The counter stays within the 16 entries of `match` for as long as the
scan of `p..q` runs: after `k` tokens it is at most 16, if it has not
returned to zero before. -/
def depth_fits (tokens : Int → Token) (p q : Int) : Prop :=
  ∀ k : Nat, k ≤ (q + 1 - p).toNat →
    (∀ j : Nat, j < k → 1 ≤ j → depth_after tokens p j ≠ 0) → depth_after tokens p k ≤ 16

/-- The 63 tokens of `(((((((((((((((((((((((((((((((1)))))))))))))))))))))))))))))))`:
31 opening brackets at 0..30, the literal at 31, closing brackets from 32 on. -/
def deep_tokens : Int → Token := fun i =>
  if i < 31 then ⟨TK_LB, []⟩ else if i = 31 then ⟨TK_NUM, ['1']⟩ else ⟨TK_RB, []⟩

/-- The 64 tokens of a text of 63 opening brackets and one closing bracket. -/
def open_tokens : Int → Token := fun i =>
  if i < 63 then ⟨TK_LB, []⟩ else ⟨TK_RB, []⟩

instance (tokens : Int → Token) (p q : Int) : Decidable (depth_fits tokens p q) := by
  unfold depth_fits; infer_instance
/-- The token is `+` or `-`. -/
def is_additive (t : Token) : Bool := decide (t.type = TK_PLUS ∨ t.type = TK_MINUS)

/-- The token is `*` or `/`. -/
def is_multiplicative (t : Token) : Bool := decide (t.type = TK_MUL ∨ t.type = TK_DIV)

/-- The brackets of the `n` tokens from `p` on are balanced: the depth
counter never goes below zero and ends at zero. -/
def balanced (tokens : Int → Token) (p : Int) (n : Nat) : Prop :=
  depth_after tokens p n = 0 ∧ ∀ k : Nat, k ≤ n → 0 ≤ depth_after tokens p k

instance (tokens : Int → Token) (p : Int) (n : Nat) : Decidable (balanced tokens p n) := by
  unfold balanced; infer_instance

/-- Offset `j` is the root the specification names for the `n` tokens from
`p` on: a token outside all brackets (the depth counter is zero before it)
that is the right-most top-level `+` or `-`, or, when there is no top-level
`+` or `-`, the right-most top-level `*` or `/`. -/
def is_root (tokens : Int → Token) (p : Int) (n j : Nat) : Prop :=
  j < n ∧ depth_after tokens p j = 0 ∧
    ((is_additive (tokens (p + j)) = true ∧
        ∀ k : Nat, k < n → j < k → depth_after tokens p k = 0 →
          is_additive (tokens (p + k)) = false) ∨
      (is_multiplicative (tokens (p + j)) = true ∧
        (∀ k : Nat, k < n → depth_after tokens p k = 0 →
          is_additive (tokens (p + k)) = false) ∧
        ∀ k : Nat, k < n → j < k → depth_after tokens p k = 0 →
          is_multiplicative (tokens (p + k)) = false))

instance (tokens : Int → Token) (p : Int) (n j : Nat) : Decidable (is_root tokens p n j) := by
  unfold is_root; infer_instance

/-- The right-most offset below `k` of a top-level token that satisfies `pred`. -/
def last_top (tokens : Int → Token) (p : Int) (pred : Token → Bool) : Nat → Option Nat
  | 0 => none
  | k + 1 =>
    if depth_after tokens p k = 0 ∧ pred (tokens (p + k)) = true then some k
    else last_top tokens p pred k

/-- The pair `(idx[0], idx[1])` of `op_idx(p, q)` when its scan stands at the
top-level offset `k`. -/
def scan_state (tokens : Int → Token) (p : Int) (k : Nat) : Int × Int :=
  match last_top tokens p is_additive k with
  | some j => (p + j, 1)
  | none =>
    match last_top tokens p is_multiplicative k with
    | some j => (p + j, 2)
    | none => (p, 2)

/-- The 63 tokens of `1+((((((((((((((((((((((((((((((1))))))))))))))))))))))))))))))`:
a sum whose right operand is nested in 30 pairs of brackets (opening brackets
at 2..31, the literal at 32, closing brackets from 33 on). -/
def deep_sum_tokens : Int → Token := fun i =>
  if i = 0 then ⟨TK_NUM, ['1']⟩ else if i = 1 then ⟨TK_PLUS, []⟩
  else if i < 32 then ⟨TK_LB, []⟩ else if i = 32 then ⟨TK_NUM, ['1']⟩ else ⟨TK_RB, []⟩

/-- The tokens of `2*(3+4)-5*6`. -/
def mixed_tokens : Int → Token := fun i =>
  if i = 0 then ⟨TK_NUM, ['2']⟩ else if i = 1 then ⟨TK_MUL, []⟩
  else if i = 2 then ⟨TK_LB, []⟩ else if i = 3 then ⟨TK_NUM, ['3']⟩
  else if i = 4 then ⟨TK_PLUS, []⟩ else if i = 5 then ⟨TK_NUM, ['4']⟩
  else if i = 6 then ⟨TK_RB, []⟩ else if i = 7 then ⟨TK_MINUS, []⟩
  else if i = 8 then ⟨TK_NUM, ['5']⟩ else if i = 9 then ⟨TK_MUL, []⟩
  else ⟨TK_NUM, ['6']⟩
/-- The test `expr` makes on the token before a `*`: its type is `+`, `-`,
`*`, `/` or `(`. -/
def deref_after (t : Token) : Bool :=
  decide (t.type = TK_PLUS ∨ t.type = TK_MINUS ∨ t.type = TK_MUL ∨ t.type = TK_DIV ∨
    t.type = TK_LB)

/-- The tokens of `1==*0x100`. -/
def eq_star_tokens : Int → Token := fun i =>
  if i = 0 then ⟨TK_NUM, ['1']⟩ else if i = 1 then ⟨TK_EQ, []⟩
  else if i = 2 then ⟨TK_MUL, []⟩ else ⟨TK_HEX, ['0', 'x', '1', '0', '0']⟩

/-- The tokens of `**0x100`. -/
def star_star_tokens : Int → Token := fun i =>
  if i = 0 then ⟨TK_MUL, []⟩ else if i = 1 then ⟨TK_MUL, []⟩
  else ⟨TK_HEX, ['0', 'x', '1', '0', '0']⟩
/-- The token is `==`, `!=` or `&&`. -/
def is_cmp (t : Token) : Bool :=
  decide (t.type = TK_EQ ∨ t.type = TK_NEQ ∨ t.type = TK_AND)

/-- The token array `expr` evaluates for a text: what `make_token` and the
rewrite pass leave, starting from the array of a fresh program (the fresh
array itself when either of them does not return). -/
def rewritten (e : List Char) : Int → Token :=
  match make_token ExprState.init e with
  | .error _ => ExprState.init.tokens
  | .ok lx =>
    match mark_deref lx.st.nr_token (lx.st.nr_token.toNat + 1) 0 lx.st.tokens with
    | .error _ => ExprState.init.tokens
    | .ok tokens => tokens

/-! ## The capacity of the token buffers (specification side) -/

/-- The token type is one `make_token` records: every type of the table
except white space. -/
def is_recorded (ty : Int) : Bool :=
  decide (ty = TK_PLUS ∨ ty = TK_MINUS ∨ ty = TK_MUL ∨ ty = TK_DIV ∨ ty = TK_LB ∨
    ty = TK_RB ∨ ty = TK_EQ ∨ ty = TK_NEQ ∨ ty = TK_AND ∨ ty = TK_NUM ∨ ty = TK_HEX ∨
    ty = TK_REG)

/-- The matches the scan of `make_token` records for a text, in order: the
token type and the length of every match that is not white space, up to the
end of the text or the first offset at which no rule matches. -/
def recorded : Nat → List Char → List (Int × Nat)
  | 0, _ => []
  | fuel + 1, rest =>
    match rest with
    | [] => []
    | c :: _ =>
      if c.toNat = 0 then []
      else
        match first_match rules rest with
        | none => []
        | some (r, n) =>
          if is_recorded r.token_type then (r.token_type, n) :: recorded fuel (rest.drop n)
          else recorded fuel (rest.drop n)

/-- The text stays within the buffers of `make_token`: its scan records at
most 64 tokens, every decimal or hex literal it records has at most 31
characters, and so has every register name after its sigil. -/
def fits_buffers (e : List Char) : Prop :=
  (recorded (e.length + 1) e).length ≤ 64 ∧
    ∀ x ∈ recorded (e.length + 1) e,
      ((x.1 = TK_NUM ∨ x.1 = TK_HEX) → x.2 ≤ 31) ∧ (x.1 = TK_REG → x.2 - 1 ≤ 31)

instance (e : List Char) : Decidable (fits_buffers e) := by
  unfold fits_buffers; infer_instance

/-! # Theorems -/

/-! ## The tokenizer -/

theorem regexec_pos : ∀ (ps : List Piece) (s : List Char) (n : Nat),
    ps ≠ [] → regexec ps s = some n → 1 ≤ n := by
  intro ps s n hps h
  cases ps with
  | nil => exact absurd rfl hps
  | cons pc ps =>
    unfold regexec at h
    by_cases hm : pc.many = true
    · simp only [hm, if_true] at h
      by_cases hr : (List.takeWhile pc.accepts s).length = 0
      · simp [hr] at h
      · cases hre : regexec ps (List.drop (List.takeWhile pc.accepts s).length s) with
        | none => simp [hr, hre] at h
        | some a =>
          simp [hr, hre] at h
          omega
    · simp only [hm] at h
      cases s with
      | nil => simp at h
      | cons c cs =>
        by_cases hc : pc.accepts c = true
        · cases hre : regexec ps cs with
          | none => simp [hc, hre] at h
          | some a =>
            simp [hc, hre] at h
            omega
        · simp [hc] at h

theorem first_match_mem : ∀ (rs : List Rule) (s : List Char) (r : Rule) (n : Nat),
    first_match rs s = some (r, n) → r ∈ rs ∧ regexec r.regex s = some n := by
  intro rs
  induction rs with
  | nil => intro s r n h; simp [first_match] at h
  | cons r0 rs ih =>
    intro s r n h
    unfold first_match at h
    cases hre : regexec r0.regex s with
    | none =>
      rw [hre] at h
      obtain ⟨h1, h2⟩ := ih s r n h
      exact ⟨List.mem_cons_of_mem _ h1, h2⟩
    | some k =>
      rw [hre] at h
      simp only [Option.some.injEq, Prod.mk.injEq] at h
      obtain ⟨rfl, rfl⟩ := h
      exact ⟨List.mem_cons_self _ _, hre⟩

theorem rules_nonempty : ∀ r ∈ rules, r.regex ≠ [] := by
  intro r hr
  simp only [rules, List.mem_cons, List.mem_singleton, List.not_mem_nil, or_false] at hr
  rcases hr with h | h | h | h | h | h | h | h | h | h | h | h | h <;> subst h <;> simp

theorem first_match_pos (s : List Char) (r : Rule) (n : Nat)
    (h : first_match rules s = some (r, n)) : 1 ≤ n := by
  obtain ⟨h1, h2⟩ := first_match_mem rules s r n h
  exact regexec_pos r.regex s n (rules_nonempty r h1) h2

theorem make_token_loop_fuel : ∀ (f1 f2 : Nat) (rest : List Char) (position : Int)
    (st : ExprState), rest.length < f1 → rest.length < f2 →
    make_token_loop f1 rest position st = make_token_loop f2 rest position st := by
  intro f1
  induction f1 with
  | zero => intro f2 rest position st h; omega
  | succ f1 ih =>
    intro f2 rest position st h1 h2
    cases f2 with
    | zero => omega
    | succ f2 =>
      cases rest with
      | nil => simp [make_token_loop]
      | cons c cs =>
        simp only [make_token_loop]
        split
        · rfl
        · cases hfm : first_match rules (c :: cs) with
          | none => rfl
          | some rn =>
            obtain ⟨r, n⟩ := rn
            have hn := first_match_pos _ _ _ hfm
            simp only []
            cases hrec : record_token st r.token_type (c :: cs) n with
            | error f => rfl
            | ok st1 =>
              simp only []
              apply ih
              · simp only [List.length_drop, List.length_cons] at *; omega
              · simp only [List.length_drop, List.length_cons] at *; omega


theorem takeWhile_run {p : Char → Bool} (s rest : List Char)
    (hs : ∀ c ∈ s, p c = true) (hr : ∀ c ∈ rest.head?, p c = false) :
    List.takeWhile p (s ++ rest) = s := by
  induction s with
  | nil =>
    cases rest with
    | nil => rfl
    | cons c cs =>
      have := hr c (by simp)
      simp [List.takeWhile_cons, this]
  | cons a s ih =>
    have ha := hs a (List.mem_cons_self _ _)
    simp only [List.cons_append, List.takeWhile_cons, ha, if_true]
    rw [ih (fun c hc => hs c (List.mem_cons_of_mem _ hc))]

theorem isHex_of_isDec {c : Char} (h : isDec c = true) : isHex c = true := by
  simp only [isDec, isHex, decide_eq_true_eq] at *
  omega

theorem isHex_ne {c : Char} (h : isHex c = true) :
    c ≠ ' ' ∧ c ≠ '+' ∧ c ≠ '-' ∧ c ≠ '*' ∧ c ≠ '/' ∧ c ≠ '(' ∧ c ≠ ')' ∧ c ≠ '$' ∧
    c ≠ '=' ∧ c ≠ '&' ∧ c ≠ '!' ∧ c ≠ 'x' ∧ c ≠ 'X' := by
  refine ⟨?_, ?_, ?_, ?_, ?_, ?_, ?_, ?_, ?_, ?_, ?_, ?_, ?_⟩ <;>
    (rintro rfl; revert h; decide)

theorem first_match_plus (rest : List Char) :
    (first_match rules ('+' :: rest)).map (fun rn => (rn.1.token_type, rn.2)) =
      some (TK_PLUS, 1) := by
  simp [first_match, rules, regexec, chr]

theorem regexec_hex_none (c : Char) (s rest : List Char)
    (hs : ∀ d ∈ c :: s, isDec d = true) (hr : StopsLit rest) :
    regexec [chr '0', ⟨fun d => d == 'x' || d == 'X', false⟩, ⟨isHex, true⟩]
      (c :: (s ++ rest)) = none := by
  unfold regexec
  simp only [chr, Bool.false_eq_true, if_false]
  split
  · rename_i h0
    unfold regexec
    simp only [Bool.false_eq_true, if_false]
    cases s with
    | nil =>
      cases rest with
      | nil => rfl
      | cons d ds =>
        have := hr d (by simp)
        simp [this.2.1, this.2.2]
    | cons d ds =>
      have hd := hs d (by simp)
      obtain ⟨_, _, _, _, _, _, _, _, _, _, _, h12, h13⟩ := isHex_ne (isHex_of_isDec hd)
      simp [h12, h13]
  · rfl

theorem first_match_dec (c : Char) (s rest : List Char)
    (hs : ∀ d ∈ c :: s, isDec d = true) (hr : StopsLit rest) :
    (first_match rules (c :: s ++ rest)).map (fun rn => (rn.1.token_type, rn.2)) =
      some (TK_NUM, s.length + 1) := by
  have hc := hs c (List.mem_cons_self _ _)
  obtain ⟨h1, h2, h3, h4, h5, h6, h7, h8, h9, h10, h11, h12, h13⟩ := isHex_ne (isHex_of_isDec hc)
  have htw : List.takeWhile isDec (c :: s ++ rest) = c :: s :=
    takeWhile_run (c :: s) rest hs (fun d hd => by
      have := (hr d hd).1
      simp only [isDec, isHex, decide_eq_true_eq, decide_eq_false_iff_not] at *
      omega)
  simp only [List.cons_append] at htw
  simp only [first_match, rules, List.cons_append]
  rw [regexec_hex_none c s rest hs hr]
  simp [regexec, chr, h1, h2, h3, h4, h5, h6, h7, h8, htw]

theorem first_match_hex (x : Char) (s rest : List Char) (hx : x = 'x' ∨ x = 'X')
    (hne : s ≠ []) (hs : ∀ d ∈ s, isHex d = true) (hr : StopsLit rest) :
    (first_match rules ('0' :: x :: s ++ rest)).map (fun rn => (rn.1.token_type, rn.2)) =
      some (TK_HEX, s.length + 2) := by
  have htw : List.takeWhile isHex (s ++ rest) = s :=
    takeWhile_run s rest hs (fun d hd => (hr d hd).1)
  have hl : s.length ≠ 0 := by
    cases s with
    | nil => exact absurd rfl hne
    | cons a s => simp
  simp [first_match, rules, regexec, chr, htw, hx, hl]

theorem first_match_space (n : Nat) (rest : List Char) (hr : ∀ c ∈ rest.head?, c ≠ ' ') :
    (first_match rules (List.replicate (n + 1) ' ' ++ rest)).map
      (fun rn => (rn.1.token_type, rn.2)) = some (TK_NOTYPE, n + 1) := by
  have htw : List.takeWhile (fun d => d == ' ') (List.replicate (n + 1) ' ' ++ rest) =
      List.replicate (n + 1) ' ' :=
    takeWhile_run _ rest (fun c hc => by simp [List.eq_of_mem_replicate hc])
      (fun d hd => by simpa using hr d hd)
  simp only [first_match, rules, regexec, if_true]
  rw [htw]
  simp

theorem make_token_loop_step (f : Nat) (c : Char) (cs : List Char) (position : Int)
    (st st1 : ExprState) (ty : Int) (n : Nat) (hc : c.toNat ≠ 0)
    (hfm : (first_match rules (c :: cs)).map (fun rn => (rn.1.token_type, rn.2)) = some (ty, n))
    (hrec : record_token st ty (c :: cs) n = .ok st1) (hf : (c :: cs).length < f) :
    make_token_loop f (c :: cs) position st =
      make_token_loop f ((c :: cs).drop n) (position + n) st1 := by
  cases f with
  | zero => omega
  | succ f =>
    cases hfm1 : first_match rules (c :: cs) with
    | none => simp [hfm1] at hfm
    | some rn =>
      obtain ⟨r, k⟩ := rn
      have hk := first_match_pos _ _ _ hfm1
      simp only [hfm1, Option.map_some', Option.some.injEq, Prod.mk.injEq] at hfm
      obtain ⟨rfl, rfl⟩ := hfm
      rw [make_token_loop_fuel (f + 1) f ((c :: cs).drop k) _ _
        (by simp only [List.length_drop, List.length_cons] at *; omega)
        (by simp only [List.length_drop, List.length_cons] at *; omega)]
      simp only [make_token_loop, hc, if_false, hfm1, hrec]

theorem make_token_loop_nil (f : Nat) (position : Int) (st : ExprState) (hf : 0 < f) :
    make_token_loop f [] position st = .ok ⟨true, position, st⟩ := by
  cases f with
  | zero => omega
  | succ f => rfl

theorem tokText_ne_nil (t : Token) (h : TokOK t) : tokText t ≠ [] := by
  rcases h with h | h | h
  · rcases h with h | h | h | h | h | h | h | h | h <;> simp [tokText, h]
  · obtain ⟨h1, h2, _, _⟩ := h
    simpa [tokText, h1] using h2
  · obtain ⟨h1, _, x, s, h2, _⟩ := h
    simp [tokText, h1, h2]

theorem tokText_head (t : Token) (h : TokOK t) :
    ∀ c ∈ (tokText t).head?, c.toNat ≠ 0 ∧ c ≠ ' ' ∧
      (¬ isLit t → isHex c = false ∧ c ≠ 'x' ∧ c ≠ 'X') := by
  intro c hc
  rcases h with h | h | h
  · rcases h with h | h | h | h | h | h | h | h | h <;>
      (simp [tokText, h] at hc; subst hc
       exact ⟨by decide, by decide, fun _ => by decide⟩)
  · obtain ⟨h1, h2, h3, _⟩ := h
    simp only [tokText, h1] at hc
    simp only [isLit, h1, true_or, not_true_eq_false, false_implies, and_true]
    cases hs : t.str with
    | nil => exact absurd hs h2
    | cons a s =>
      simp [hs] at hc
      subst hc
      have ha := h3 a (by simp [hs])
      exact ⟨by simp only [isDec, decide_eq_true_eq] at ha; omega,
        (isHex_ne (isHex_of_isDec ha)).1⟩
  · obtain ⟨h1, _, x, s, h2, _⟩ := h
    simp only [tokText, h1, h2] at hc
    simp only [isLit, h1, or_true, not_true_eq_false, false_implies, and_true]
    simp at hc
    subst hc
    decide

theorem stopsLit_nil : StopsLit [] := by
  intro c hc
  simp at hc

theorem stopsLit_space (n : Nat) (rest : List Char) :
    StopsLit (List.replicate (n + 1) ' ' ++ rest) := by
  intro c hc
  simp [List.replicate_succ] at hc
  subst hc
  decide

theorem stopsLit_spell (t : Token) (ts : List Token) (gaps : List Nat)
    (h : Lexable (t :: ts)) (hl : isLit t) : StopsLit (spell gaps ts) := by
  cases ts with
  | nil =>
    cases hg : gaps.headD 0 with
    | zero => simp only [spell, hg, List.replicate_zero]; exact stopsLit_nil
    | succ n =>
      simp only [spell, hg]
      have := stopsLit_space n []
      simpa using this
  | cons t1 ts =>
    cases hg : gaps.headD 0 with
    | zero =>
      simp only [spell, hg, List.replicate_zero, List.nil_append]
      obtain ⟨_, h2, h3, _⟩ := h
      have hnl : ¬ isLit t1 := fun h1 => h2 t1 (by simp) ⟨hl, h1⟩
      have hne := tokText_ne_nil t1 h3
      have hh := tokText_head t1 h3
      intro c hc
      cases htt : tokText t1 with
      | nil => exact absurd htt hne
      | cons a s =>
        rw [htt] at hc hh
        simp at hc
        subst hc
        exact (hh _ (by simp)).2.2 hnl
    | succ n =>
      simp only [spell, hg]
      exact stopsLit_space n _

theorem first_match_op (t : Token) (rest : List Char)
    (h : t.type = TK_PLUS ∨ t.type = TK_MINUS ∨ t.type = TK_MUL ∨ t.type = TK_DIV ∨
      t.type = TK_LB ∨ t.type = TK_RB ∨ t.type = TK_EQ ∨ t.type = TK_NEQ ∨ t.type = TK_AND) :
    (first_match rules (tokText t ++ rest)).map (fun rn => (rn.1.token_type, rn.2)) =
      some (t.type, (tokText t).length) := by
  have h1 : isDec '=' = false := by decide
  have h2 : isDec '!' = false := by decide
  have h3 : isDec '&' = false := by decide
  rcases h with h | h | h | h | h | h | h | h | h <;>
    simp [tokText, h, first_match, rules, regexec, chr, h1, h2, h3]

theorem lex_token (t : Token) (h : TokOK t) (rest : List Char)
    (hstop : isLit t → StopsLit rest) (st : ExprState) (hnr : inTokens st.nr_token)
    (f : Nat) (position : Int) (hf : (tokText t ++ rest).length < f) :
    ∃ str, (isLit t → str = t.str) ∧
      make_token_loop f (tokText t ++ rest) position st =
        make_token_loop f rest (position + (tokText t).length)
          ⟨Function.update st.tokens st.nr_token ⟨t.type, str⟩, st.nr_token + 1⟩ := by
  have hne := tokText_ne_nil t h
  have hhead := tokText_head t h
  cases htt : tokText t with
  | nil => exact absurd htt hne
  | cons c cs =>
    rw [htt] at hhead hf
    have hc := (hhead c (by simp)).1
    have hdrop : List.drop (c :: cs).length (c :: cs ++ rest) = rest := List.drop_left _ _
    rcases h with h | h | h
    · refine ⟨(st.tokens st.nr_token).str, ?_, ?_⟩
      · intro hl
        rcases hl with hl | hl <;>
          (rcases h with h | h | h | h | h | h | h | h | h <;> (rw [h] at hl; exact absurd hl (by decide)))
      · have hfm := first_match_op t rest h
        rw [htt] at hfm
        have hrec : record_token st t.type (c :: cs ++ rest) (c :: cs).length =
            .ok ⟨Function.update st.tokens st.nr_token ⟨t.type, (st.tokens st.nr_token).str⟩,
              st.nr_token + 1⟩ := by
          simp only [record_token, h, if_true, hnr]
        have := make_token_loop_step f c (cs ++ rest) position st _ t.type (c :: cs).length hc
          hfm hrec (by simpa using hf)
        rw [List.cons_append, this, ← List.cons_append, hdrop]
    · obtain ⟨h1, h2, h3, h4⟩ := h
      have hts : t.str = c :: cs := by simpa [tokText, h1] using htt
      refine ⟨t.str, fun _ => rfl, ?_⟩
      rw [hts] at h3 h4
      have hfm := first_match_dec c cs rest h3 (hstop (Or.inl h1))
      have hrec : record_token st t.type (c :: cs ++ rest) (cs.length + 1) =
          .ok ⟨Function.update st.tokens st.nr_token ⟨t.type, t.str⟩, st.nr_token + 1⟩ := by
        have hlen : cs.length + 1 < 32 := by simp only [List.length_cons] at h4; omega
        have htake : List.take (cs.length + 1) (c :: cs ++ rest) = c :: cs :=
          List.take_left' (by simp)
        simp [record_token, h1, hnr, hlen, htake, hts]
      have := make_token_loop_step f c (cs ++ rest) position st _ t.type (cs.length + 1) hc
        (by rw [h1]; exact hfm) hrec (by simpa using hf)
      rw [List.cons_append, this, ← List.cons_append]
      have hd2 : List.drop (cs.length + 1) (c :: cs ++ rest) = rest := by
        simp
      rw [hd2]
      rfl
    · obtain ⟨h1, h4, x, s, h2, hx, hs, h3⟩ := h
      have hts : c :: cs = '0' :: x :: s := by
        rw [← h2]; simpa [tokText, h1] using htt.symm
      refine ⟨t.str, fun _ => rfl, ?_⟩
      have hfm := first_match_hex x s rest hx hs h3 (hstop (Or.inr h1))
      have hlen : s.length + 2 < 32 := by
        rw [h2] at h4; simp only [List.length_cons] at h4; omega
      have hrec : record_token st t.type ('0' :: x :: s ++ rest) (s.length + 2) =
          .ok ⟨Function.update st.tokens st.nr_token ⟨t.type, t.str⟩, st.nr_token + 1⟩ := by
        have htake : List.take (s.length + 2) ('0' :: x :: s ++ rest) = '0' :: x :: s := by
          have : '0' :: x :: s ++ rest = ('0' :: x :: s) ++ rest := rfl
          rw [this]
          exact List.take_left' (by simp)
        simp only [List.cons_append] at htake
        simp [record_token, h1, hnr, hlen, htake, h2]
      rw [hts]
      rw [hts] at hf
      have := make_token_loop_step f '0' (x :: s ++ rest) position st _ t.type (s.length + 2)
        (by decide) (by rw [h1]; simpa using hfm) (by simpa using hrec) (by simpa using hf)
      have hd2 : List.drop (s.length + 2) ('0' :: (x :: s ++ rest)) = rest := by
        have : '0' :: (x :: s ++ rest) = ('0' :: x :: s) ++ rest := rfl
        rw [this]
        exact List.drop_left' (by simp)
      rw [hd2] at this
      simp only [List.cons_append] at this ⊢
      rw [this]
      simp only [List.length_cons]

theorem lex_spaces (g : Nat) (rest : List Char) (hr : ∀ c ∈ rest.head?, c ≠ ' ')
    (st : ExprState) (f : Nat) (position : Int)
    (hf : (List.replicate g ' ' ++ rest).length < f) :
    make_token_loop f (List.replicate g ' ' ++ rest) position st =
      make_token_loop f rest (position + g) st := by
  cases g with
  | zero => simp
  | succ n =>
    have hfm := first_match_space n rest hr
    have hrec : record_token st TK_NOTYPE (List.replicate (n + 1) ' ' ++ rest) (n + 1) =
        .ok st := by
      simp [record_token]
    rw [List.replicate_succ, List.cons_append] at hfm hrec hf ⊢
    have := make_token_loop_step f ' ' (List.replicate n ' ' ++ rest) position st st
      TK_NOTYPE (n + 1) (by decide) hfm hrec hf
    rw [this]
    have hd : List.drop (n + 1) (' ' :: (List.replicate n ' ' ++ rest)) = rest := by
      rw [← List.cons_append, ← List.replicate_succ]
      exact List.drop_left' (by simp)
    rw [hd]

theorem Laid_congr (tokens tokens1 : Int → Token) : ∀ (ts : List Token) (p : Int),
    (∀ k, p ≤ k → k < p + ts.length → tokens1 k = tokens k) →
    Laid tokens p ts → Laid tokens1 p ts := by
  intro ts
  induction ts with
  | nil => intro p _ _; trivial
  | cons t ts ih =>
    intro p h hl
    obtain ⟨h1, h2⟩ := hl
    have hp := h p (le_refl _) (by simp only [List.length_cons]; push_cast; omega)
    refine ⟨by rw [hp]; exact h1, ih (p + 1) (fun k hk1 hk2 => h k (by omega) ?_) h2⟩
    simp only [List.length_cons]; push_cast; omega

theorem Laid_append (tokens : Int → Token) : ∀ (a b : List Token) (p : Int),
    Laid tokens p (a ++ b) ↔ Laid tokens p a ∧ Laid tokens (p + a.length) b := by
  intro a
  induction a with
  | nil => intro b p; simp [Laid]
  | cons t a ih =>
    intro b p
    have : p + 1 + (a.length : Int) = p + (((t :: a).length : Nat) : Int) := by
      simp only [List.length_cons]; push_cast; omega
    rw [← this]
    show (_ ∧ Laid tokens (p + 1) (a ++ b)) ↔ (_ ∧ Laid tokens (p + 1) a) ∧ _
    rw [ih]
    tauto

theorem spell_head_ne_space (t : Token) (ht : TokOK t) (rest : List Char) :
    ∀ c ∈ (tokText t ++ rest).head?, c ≠ ' ' := by
  intro c hc
  have hne := tokText_ne_nil t ht
  cases htt : tokText t with
  | nil => exact absurd htt hne
  | cons a s =>
    rw [htt] at hc
    simp at hc
    subst hc
    exact (tokText_head t ht _ (by rw [htt]; simp)).2.1

theorem lex_spell : ∀ (ts : List Token) (gaps : List Nat) (st : ExprState) (f : Nat)
    (position : Int), Lexable ts → 0 ≤ st.nr_token → st.nr_token + ts.length ≤ 64 →
    (spell gaps ts).length < f →
    ∃ st1, make_token_loop f (spell gaps ts) position st =
        .ok ⟨true, position + (spell gaps ts).length, st1⟩ ∧
      st1.nr_token = st.nr_token + ts.length ∧ Laid st1.tokens st.nr_token ts ∧
      ∀ k, (k < st.nr_token ∨ st.nr_token + ts.length ≤ k) → st1.tokens k = st.tokens k := by
  intro ts
  induction ts with
  | nil =>
    intro gaps st f position _ _ _ hf
    refine ⟨st, ?_, by simp, trivial, fun _ _ => rfl⟩
    simp only [spell] at hf ⊢
    have := lex_spaces (gaps.headD 0) [] (by simp) st f position (by simpa using hf)
    simp only [List.append_nil] at this
    rw [this, make_token_loop_nil _ _ _ (by omega)]
    simp
  | cons t ts ih =>
    intro gaps st f position hlex hnr hlen hf
    obtain ⟨htok, hadj, hlex1⟩ := hlex
    simp only [List.length_cons] at hlen
    push_cast at hlen
    simp only [spell] at hf ⊢
    have hf1 : (tokText t ++ spell gaps.tail ts).length < f := by
      simp only [List.length_append] at hf ⊢; omega
    rw [lex_spaces (gaps.headD 0) _ (spell_head_ne_space t htok _) st f position hf]
    obtain ⟨str, hstr, hstep⟩ := lex_token t htok (spell gaps.tail ts)
      (fun hl => stopsLit_spell t ts gaps.tail ⟨htok, hadj, hlex1⟩ hl) st
      ⟨hnr, by omega⟩ f (position + (gaps.headD 0 : Nat)) hf1
    rw [hstep]
    obtain ⟨st1, h1, h2, h3, h4⟩ := ih gaps.tail
      ⟨Function.update st.tokens st.nr_token ⟨t.type, str⟩, st.nr_token + 1⟩ f
      (position + (gaps.headD 0 : Nat) + ((tokText t).length : Nat)) hlex1
      (by simp only; omega) (by simp only; omega)
      (by simp only [List.length_append] at hf1; omega)
    simp only at h2 h3 h4
    refine ⟨st1, ?_, ?_, ⟨?_, ?_⟩, ?_⟩
    · rw [h1]
      simp only [List.length_append, List.length_replicate]
      push_cast
      simp only [add_assoc]
    · rw [h2]; simp only [List.length_cons]; push_cast; omega
    · rw [h4 st.nr_token (Or.inl (by omega))]
      simp only [Function.update_same, true_and]
      intro hl
      apply hstr
      rcases htok with h | h | h
      · rcases hl with hl | hl | hl <;>
          (rcases h with h | h | h | h | h | h | h | h | h <;>
            (rw [h] at hl; exact absurd hl (by decide)))
      · exact Or.inl h.1
      · exact Or.inr h.1
    · exact h3
    · intro k hk
      simp only [List.length_cons] at hk
      push_cast at hk
      rw [h4 k (by omega)]
      rw [Function.update_noteq (by omega)]

/-! ## The bracket matcher -/

theorem check_parentheses_loop_eq (tokens : Int → Token) (q : Int) :
    ∀ (fuel : Nat) (i : Int) (mtch : Int → Option Int) (d : Int), 0 ≤ d →
    (∀ k, 0 ≤ k → k < d → mtch k = some 1) →
    check_parentheses_loop tokens q fuel i mtch d = depth_loop tokens q fuel i d := by
  intro fuel
  induction fuel with
  | zero => intro i mtch d _ _; rfl
  | succ fuel ih =>
    intro i mtch d hd hm
    simp only [check_parentheses_loop, depth_loop]
    split
    · cases tokenAt tokens i with
      | error f => rfl
      | ok t =>
        simp only []
        by_cases hlb : t.type = TK_LB
        · simp only [hlb, if_true]
          by_cases hb : 0 ≤ d ∧ d < 16
          · simp only [hb, and_self, if_true]
            apply ih _ _ _ (by omega)
            intro k hk1 hk2
            by_cases hkd : k = d
            · subst hkd; simp
            · rw [Function.update_noteq hkd]
              exact hm k hk1 (by omega)
          · simp only [hb, if_false]
        · simp only [hlb, if_false]
          by_cases hrb : t.type = TK_RB
          · simp only [hrb, if_true]
            by_cases hb : 0 ≤ d - 1 ∧ d - 1 < 16
            · simp only [hb, and_self, if_true]
              rw [hm (d - 1) hb.1 (by omega)]
              simp only [if_true]
              split
              · rfl
              · split
                · rfl
                · exact ih _ _ _ hb.1 (fun k hk1 hk2 => hm k hk1 (by omega))
            · simp only [hb, if_false]
          · simp only [hrb, if_false]
            exact ih _ _ _ hd hm
    · rfl

theorem depth_loop_fuel (tokens : Int → Token) (q : Int) :
    ∀ (f1 f2 : Nat) (i d : Int), (q + 1 - i).toNat < f1 → (q + 1 - i).toNat < f2 →
    depth_loop tokens q f1 i d = depth_loop tokens q f2 i d := by
  intro f1
  induction f1 with
  | zero => intro f2 i d h1 h2; omega
  | succ f1 ih =>
    intro f2 i d h1 h2
    cases f2 with
    | zero => omega
    | succ f2 =>
      simp only [depth_loop]
      split
      · cases tokenAt tokens i with
        | error f => rfl
        | ok t =>
          simp only []
          have e1 : ∀ d1, depth_loop tokens q f1 (i + 1) d1 = depth_loop tokens q f2 (i + 1) d1 :=
            fun d1 => ih f2 (i + 1) d1 (by omega) (by omega)
          simp only [e1]
      · rfl

theorem depth_loop_done (tokens : Int → Token) (q : Int) (f : Nat) (i d : Int)
    (h : q < i) (hf : 0 < f) : depth_loop tokens q f i d = .ok false := by
  cases f with
  | zero => omega
  | succ f => simp only [depth_loop]; rw [if_neg (by omega)]

theorem depth_loop_other (tokens : Int → Token) (q : Int) (f : Nat) (i d : Int)
    (hi : i ≤ q) (hb : inTokens i) (h1 : (tokens i).type ≠ TK_LB) (h2 : (tokens i).type ≠ TK_RB)
    (hf : (q + 1 - i).toNat < f) :
    depth_loop tokens q f i d = depth_loop tokens q f (i + 1) d := by
  cases f with
  | zero => omega
  | succ f =>
    rw [depth_loop_fuel tokens q (f + 1) f (i + 1) d (by omega) (by omega)]
    simp only [depth_loop, hi, if_true, tokenAt, hb, h1, h2, if_false]

theorem depth_loop_lb (tokens : Int → Token) (q : Int) (f : Nat) (i d : Int)
    (hi : i ≤ q) (hb : inTokens i) (h1 : (tokens i).type = TK_LB) (hd : 0 ≤ d ∧ d < 16)
    (hf : (q + 1 - i).toNat < f) :
    depth_loop tokens q f i d = depth_loop tokens q f (i + 1) (d + 1) := by
  cases f with
  | zero => omega
  | succ f =>
    rw [depth_loop_fuel tokens q (f + 1) f (i + 1) (d + 1) (by omega) (by omega)]
    simp only [depth_loop, hi, if_true, tokenAt, hb, h1, hd, and_self]

theorem depth_loop_rb (tokens : Int → Token) (q : Int) (f : Nat) (i d : Int)
    (hi : i ≤ q) (hb : inTokens i) (h1 : (tokens i).type = TK_RB) (hd : 2 ≤ d ∧ d ≤ 16)
    (hf : (q + 1 - i).toNat < f) :
    depth_loop tokens q f i d = depth_loop tokens q f (i + 1) (d - 1) := by
  cases f with
  | zero => omega
  | succ f =>
    rw [depth_loop_fuel tokens q (f + 1) f (i + 1) (d - 1) (by omega) (by omega)]
    have h3 : (TK_RB : Int) ≠ TK_LB := by decide
    have h4 : 0 ≤ d - 1 ∧ d - 1 < 16 := by omega
    have h5 : ¬ (d - 1 = 0 ∧ i = q) := by omega
    have h6 : ¬ (d - 1 = 0 ∧ i ≠ q) := by omega
    simp only [depth_loop, hi, if_true, tokenAt, hb, h1, h3, if_false, h4, and_self, h5, h6]

theorem depth_loop_rb1 (tokens : Int → Token) (q : Int) (f : Nat) (i : Int)
    (hi : i ≤ q) (hb : inTokens i) (h1 : (tokens i).type = TK_RB) (hf : 0 < f) :
    depth_loop tokens q f i 1 = .ok (decide (i = q)) := by
  cases f with
  | zero => omega
  | succ f =>
    have h3 : (TK_RB : Int) ≠ TK_LB := by decide
    simp only [depth_loop, hi, if_true, tokenAt, hb, h1, h3, if_false]
    by_cases hq : i = q
    · simp [hq]
    · simp [hq]

theorem depth_scan (tokens : Int → Token) (q : Int) : ∀ (e : AExp) (i d : Int) (f : Nat),
    Laid tokens i e.toks → 0 ≤ i → i + e.toks.length ≤ 64 → 1 ≤ d → d + e.depth ≤ 16 →
    (q + 1 - i).toNat < f →
    depth_loop tokens q f i d =
      if q < i + e.toks.length then .ok false
      else depth_loop tokens q f (i + e.toks.length) d := by
  intro e
  induction e with
  | dec s =>
    intro i d f hl hi hlen hd hdep hf
    simp only [AExp.toks, List.length_singleton, Nat.cast_one] at hlen ⊢
    obtain ⟨⟨ht, _⟩, _⟩ := hl
    simp only at ht
    by_cases hq : i ≤ q
    · rw [depth_loop_other tokens q f i d hq ⟨hi, by omega⟩ (by rw [ht]; decide)
        (by rw [ht]; decide) hf]
      split
      · exact depth_loop_done tokens q f _ d (by omega) (by omega)
      · rfl
    · rw [if_pos (by omega)]
      exact depth_loop_done tokens q f _ d (by omega) (by omega)
  | hex x s =>
    intro i d f hl hi hlen hd hdep hf
    simp only [AExp.toks, List.length_singleton, Nat.cast_one] at hlen ⊢
    obtain ⟨⟨ht, _⟩, _⟩ := hl
    simp only at ht
    by_cases hq : i ≤ q
    · rw [depth_loop_other tokens q f i d hq ⟨hi, by omega⟩ (by rw [ht]; decide)
        (by rw [ht]; decide) hf]
      split
      · exact depth_loop_done tokens q f _ d (by omega) (by omega)
      · rfl
    · rw [if_pos (by omega)]
      exact depth_loop_done tokens q f _ d (by omega) (by omega)
  | paren e ih =>
    intro i d f hl hi hlen hd hdep hf
    simp only [AExp.toks, List.length_cons, List.length_append, List.length_singleton,
      List.length_nil, AExp.depth] at hlen hdep ⊢
    push_cast at hlen hdep ⊢
    obtain ⟨⟨ht, _⟩, hl1⟩ := hl
    simp only at ht
    rw [Laid_append] at hl1
    obtain ⟨hl2, ⟨hrb, _⟩, _⟩ := hl1
    simp only at hrb
    by_cases hq : i ≤ q
    · rw [depth_loop_lb tokens q f i d hq ⟨hi, by omega⟩ ht (by omega) hf]
      rw [ih (i + 1) (d + 1) f hl2 (by omega) (by omega) (by omega) (by omega) (by omega)]
      by_cases hq2 : q < i + 1 + e.toks.length
      · rw [if_pos hq2, if_pos (by omega)]
      · rw [if_neg hq2]
        rw [depth_loop_rb tokens q f _ (d + 1) (by omega) ⟨by omega, by omega⟩ hrb
          (by omega) (by omega)]
        have e1 : i + 1 + (e.toks.length : Int) + 1 = i + ((e.toks.length : Int) + 1 + 1) := by
          omega
        have e2 : d + 1 - 1 = d := by omega
        rw [e1, e2]
        split
        · exact depth_loop_done tokens q f _ d (by omega) (by omega)
        · rfl
    · rw [if_pos (by omega)]
      exact depth_loop_done tokens q f _ d (by omega) (by omega)
  | bin op l r ihl ihr =>
    intro i d f hl hi hlen hd hdep hf
    simp only [AExp.toks, List.length_cons, List.length_append, AExp.depth] at hlen hdep ⊢
    push_cast at hlen ⊢
    simp only [AExp.toks] at hl
    rw [Laid_append] at hl
    obtain ⟨hl1, ⟨hop, _⟩, hl2⟩ := hl
    simp only at hop
    have hop1 : (tokens (i + l.toks.length)).type ≠ TK_LB := by
      rw [hop]; cases op <;> decide
    have hop2 : (tokens (i + l.toks.length)).type ≠ TK_RB := by
      rw [hop]; cases op <;> decide
    have hdl : d + (l.depth : Int) ≤ 16 := by
      have := le_max_left l.depth r.depth; omega
    have hdr : d + (r.depth : Int) ≤ 16 := by
      have := le_max_right l.depth r.depth; omega
    rw [ihl i d f hl1 hi (by omega) hd hdl hf]
    by_cases hq1 : q < i + l.toks.length
    · rw [if_pos hq1, if_pos (by omega)]
    · rw [if_neg hq1]
      rw [depth_loop_other tokens q f _ d (by omega) ⟨by omega, by omega⟩ hop1 hop2 (by omega)]
      rw [ihr _ d f hl2 (by omega) (by omega) hd hdr (by omega)]
      have e1 : i + (l.toks.length : Int) + 1 + (r.toks.length : Int) =
          i + ((l.toks.length : Int) + ((r.toks.length : Int) + 1)) := by omega
      rw [e1]

theorem check_parentheses_group (tokens : Int → Token) (e1 : AExp) (p q : Int)
    (hlb : (tokens p).type = TK_LB) (hl : Laid tokens (p + 1) e1.toks)
    (hrb : (tokens (p + 1 + e1.toks.length)).type = TK_RB) (hp : 0 ≤ p)
    (hlen : p + e1.toks.length + 2 ≤ 64) (hdep : e1.depth + 1 ≤ 16) (hq : p < q)
    (hq64 : q < 64) :
    check_parentheses tokens p q = .ok (decide (q = p + 1 + e1.toks.length)) := by
  have hpb : inTokens p := ⟨hp, by omega⟩
  have hqb : inTokens q := ⟨by omega, hq64⟩
  simp only [check_parentheses, tokenAt, hpb, hqb, if_true, hlb]
  by_cases hqr : (tokens q).type = TK_RB
  · simp only [hqr, if_true]
    rw [check_parentheses_loop_eq tokens q _ p _ 0 (le_refl _) (fun k h1 h2 => by omega)]
    rw [depth_loop_lb tokens q _ p 0 (by omega) hpb hlb (by omega) (by omega)]
    rw [depth_scan tokens q e1 (p + 1) (0 + 1) _ hl (by omega) (by omega) (by omega) (by omega)
      (by omega)]
    by_cases hq2 : q < p + 1 + e1.toks.length
    · rw [if_pos hq2]
      simp only [Except.ok.injEq, Bool.false_eq, decide_eq_false_iff_not]
      omega
    · rw [if_neg hq2]
      have : (0 : Int) + 1 = 1 := by omega
      rw [this, depth_loop_rb1 tokens q _ _ (by omega) ⟨by omega, by omega⟩ hrb (by omega)]
      simp only [Except.ok.injEq, decide_eq_decide]
      omega
  · simp only [hqr, if_false]
    simp only [Except.ok.injEq, Bool.false_eq, decide_eq_false_iff_not]
    intro h
    rw [h] at hqr
    exact hqr hrb

theorem find_RB_group (tokens : Int → Token) (e1 : AExp) (p : Int)
    (hlb : (tokens p).type = TK_LB) (hl : Laid tokens (p + 1) e1.toks)
    (hrb : (tokens (p + 1 + e1.toks.length)).type = TK_RB) (hp : 0 ≤ p)
    (hlen : p + e1.toks.length + 2 ≤ 64) (hdep : e1.depth + 1 ≤ 16) :
    ∀ (k : Nat) (t : Int) (fuel : Nat), p < t → t + k = p + 1 + e1.toks.length → k < fuel →
    find_RB tokens p fuel t = .ok (p + 1 + e1.toks.length) := by
  intro k
  induction k with
  | zero =>
    intro t fuel ht htk hf
    cases fuel with
    | zero => omega
    | succ fuel =>
      simp only [find_RB]
      rw [check_parentheses_group tokens e1 p t hlb hl hrb hp hlen hdep ht (by omega)]
      have : t = p + 1 + e1.toks.length := by omega
      simp [this]
  | succ k ih =>
    intro t fuel ht htk hf
    cases fuel with
    | zero => omega
    | succ fuel =>
      simp only [find_RB]
      rw [check_parentheses_group tokens e1 p t hlb hl hrb hp hlen hdep ht (by omega)]
      have : ¬ (t = p + 1 + e1.toks.length) := by push_cast at htk; omega
      simp only [this, decide_False]
      exact ih (t + 1) fuel (by omega) (by push_cast at htk; omega) (by omega)

theorem toks_ne_nil : ∀ e : AExp, e.toks ≠ [] := by
  intro e
  cases e <;> simp [AExp.toks]

theorem toks_length_pos (e : AExp) : 1 ≤ e.toks.length := by
  have := toks_ne_nil e
  cases h : e.toks with
  | nil => exact absurd h this
  | cons t ts => simp

theorem toks_first_lb : ∀ (e : AExp) (t : Token) (ts : List Token), e.toks = t :: ts →
    t.type = TK_LB →
    ∃ (e1 : AExp) (rest : List Token),
      e.toks = ⟨TK_LB, []⟩ :: (e1.toks ++ ⟨TK_RB, []⟩ :: rest) ∧
      e1.depth + 1 ≤ e.depth ∧ (e.isFactor = false → rest ≠ []) := by
  intro e
  induction e with
  | dec s =>
    intro t ts h ht
    simp only [AExp.toks, List.cons.injEq] at h
    rw [← h.1] at ht
    simp at ht
  | hex x s =>
    intro t ts h ht
    simp only [AExp.toks, List.cons.injEq] at h
    rw [← h.1] at ht
    simp at ht
  | paren e _ =>
    intro t ts _ _
    exact ⟨e, [], rfl, by simp [AExp.depth], by simp [AExp.isFactor]⟩
  | bin op l r ihl _ =>
    intro t ts h ht
    cases hlt : l.toks with
    | nil => exact absurd hlt (toks_ne_nil l)
    | cons t1 ts1 =>
      simp only [AExp.toks, hlt, List.cons_append, List.cons.injEq] at h
      obtain ⟨e1, rest, h1, h2, _⟩ := ihl t1 ts1 hlt (by rw [h.1]; exact ht)
      refine ⟨e1, rest ++ ⟨op.type, []⟩ :: r.toks, ?_, ?_, fun _ => by simp⟩
      · simp only [AExp.toks, h1, List.cons_append, List.append_assoc]
      · simp only [AExp.depth]
        have := le_max_left l.depth r.depth
        omega

theorem check_parentheses_bin (tokens : Int → Token) (op : BinOp) (l r : AExp) (p : Int)
    (hl : Laid tokens p (AExp.bin op l r).toks) (hp : 0 ≤ p)
    (hlen : p + (AExp.bin op l r).toks.length ≤ 64) (hdep : (AExp.bin op l r).depth ≤ 16) :
    check_parentheses tokens p (p + (AExp.bin op l r).toks.length - 1) = .ok false := by
  have hn := toks_length_pos (AExp.bin op l r)
  by_cases hlb : (tokens p).type = TK_LB
  · cases hts : (AExp.bin op l r).toks with
    | nil => exact absurd hts (toks_ne_nil _)
    | cons t ts =>
      have ht : t.type = TK_LB := by
        rw [hts] at hl
        rw [← hl.1.1]; exact hlb
      obtain ⟨e1, rest, h1, h2, h3⟩ := toks_first_lb _ t ts hts ht
      have hrest := h3 rfl
      rw [h1] at hl
      obtain ⟨_, hl1⟩ := hl
      rw [Laid_append] at hl1
      obtain ⟨hl2, ⟨hrb, _⟩, _⟩ := hl1
      have hlen2 : (AExp.bin op l r).toks.length = e1.toks.length + rest.length + 2 := by
        rw [h1]; simp only [List.length_cons, List.length_append]; omega
      have hrl : 1 ≤ rest.length := by
        cases rest with
        | nil => exact absurd rfl hrest
        | cons a b => simp
      rw [← hts]
      rw [check_parentheses_group tokens e1 p _ hlb hl2 hrb hp (by omega) (by omega)
        (by omega) (by omega)]
      simp only [Except.ok.injEq, decide_eq_false_iff_not]
      rw [hlen2]
      push_cast
      omega
  · have hpb : inTokens p := ⟨hp, by omega⟩
    simp only [check_parentheses, tokenAt, hpb, if_true, hlb, if_false]

/-! ## The operator locator -/

theorem find_RB_ge (tokens : Int → Token) (i : Int) : ∀ (fuel : Nat) (t r : Int),
    find_RB tokens i fuel t = .ok r → t ≤ r := by
  intro fuel
  induction fuel with
  | zero => intro t r h; simp [find_RB] at h
  | succ fuel ih =>
    intro t r h
    simp only [find_RB] at h
    cases hc : check_parentheses tokens i t with
    | error f => simp [hc] at h
    | ok b =>
      cases b with
      | true => simp [hc] at h; omega
      | false =>
        simp only [hc] at h
        have := ih _ _ h
        omega

theorem op_idx_loop_fuel (tokens : Int → Token) (q : Int) :
    ∀ (f1 f2 : Nat) (i idx0 idx1 : Int), (q + 1 - i).toNat < f1 → (q + 1 - i).toNat < f2 →
    op_idx_loop tokens q f1 i idx0 idx1 = op_idx_loop tokens q f2 i idx0 idx1 := by
  intro f1
  induction f1 with
  | zero => intro f2 i idx0 idx1 h1 h2; omega
  | succ f1 ih =>
    intro f2 i idx0 idx1 h1 h2
    cases f2 with
    | zero => omega
    | succ f2 =>
      simp only [op_idx_loop]
      split
      · cases tokenAt tokens i with
        | error f => rfl
        | ok t =>
          simp only []
          have e1 : ∀ a b, op_idx_loop tokens q f1 (i + 1) a b =
              op_idx_loop tokens q f2 (i + 1) a b :=
            fun a b => ih f2 (i + 1) a b (by omega) (by omega)
          simp only [e1]
          split
          · cases hfr : find_RB tokens i 65 (i + 1) with
            | error f => rfl
            | ok r =>
              simp only []
              have := find_RB_ge tokens i _ _ _ hfr
              exact ih f2 (r + 1) _ _ (by omega) (by omega)
          · rfl
      · rfl

theorem op_idx_loop_done (tokens : Int → Token) (q : Int) (f : Nat) (i idx0 idx1 : Int)
    (h : q < i) (hf : 0 < f) : op_idx_loop tokens q f i idx0 idx1 = .ok idx0 := by
  cases f with
  | zero => omega
  | succ f => simp only [op_idx_loop]; rw [if_neg (by omega)]

theorem op_idx_loop_other (tokens : Int → Token) (q : Int) (f : Nat) (i idx0 idx1 : Int)
    (hi : i ≤ q) (hb : inTokens i) (h1 : (tokens i).type ≠ TK_LB)
    (h2 : (tokens i).type ≠ TK_PLUS) (h3 : (tokens i).type ≠ TK_MINUS)
    (h4 : (tokens i).type ≠ TK_MUL) (h5 : (tokens i).type ≠ TK_DIV)
    (hf : (q + 1 - i).toNat < f) :
    op_idx_loop tokens q f i idx0 idx1 = op_idx_loop tokens q f (i + 1) idx0 idx1 := by
  cases f with
  | zero => omega
  | succ f =>
    rw [op_idx_loop_fuel tokens q (f + 1) f (i + 1) _ _ (by omega) (by omega)]
    simp only [op_idx_loop, hi, if_true, tokenAt, hb, h1, h2, h3, h4, h5, if_false, or_self]

theorem op_idx_loop_op (tokens : Int → Token) (q : Int) (f : Nat) (i idx0 idx1 : Int)
    (op : BinOp) (hi : i ≤ q) (hb : inTokens i) (h1 : (tokens i).type = op.type)
    (hf : (q + 1 - i).toNat < f) :
    op_idx_loop tokens q f i idx0 idx1 =
      op_idx_loop tokens q f (i + 1)
        (if op.additive then (if idx1 ≥ 1 then (i, 1) else (idx0, idx1))
          else (if idx1 = 2 then (i, 2) else (idx0, idx1)) : Int × Int).1
        (if op.additive then (if idx1 ≥ 1 then (i, 1) else (idx0, idx1))
          else (if idx1 = 2 then (i, 2) else (idx0, idx1)) : Int × Int).2 := by
  cases f with
  | zero => omega
  | succ f =>
    rw [op_idx_loop_fuel tokens q (f + 1) f (i + 1) _ _ (by omega) (by omega)]
    simp only [op_idx_loop, hi, if_true, tokenAt, hb, h1]
    cases op
    · by_cases h : idx1 ≥ 1 <;> simp [BinOp.type, BinOp.additive, h]
    · by_cases h : idx1 ≥ 1 <;> simp [BinOp.type, BinOp.additive, h]
    · by_cases h : idx1 = 2 <;> simp [BinOp.type, BinOp.additive, h]
    · by_cases h : idx1 = 2 <;> simp [BinOp.type, BinOp.additive, h]

theorem op_idx_loop_group (tokens : Int → Token) (q : Int) (f : Nat) (i idx0 idx1 : Int)
    (e1 : AExp) (hi : i ≤ q) (hlb : (tokens i).type = TK_LB)
    (hl : Laid tokens (i + 1) e1.toks)
    (hrb : (tokens (i + 1 + e1.toks.length)).type = TK_RB) (hp : 0 ≤ i)
    (hlen : i + e1.toks.length + 2 ≤ 64) (hdep : e1.depth + 1 ≤ 16)
    (hf : (q + 1 - i).toNat < f) :
    op_idx_loop tokens q f i idx0 idx1 =
      op_idx_loop tokens q f (i + 1 + e1.toks.length + 1) idx0 idx1 := by
  cases f with
  | zero => omega
  | succ f =>
    rw [op_idx_loop_fuel tokens q (f + 1) f (i + 1 + e1.toks.length + 1) _ _ (by omega)
      (by omega)]
    have hb : inTokens i := ⟨hp, by omega⟩
    have hfr := find_RB_group tokens e1 i hlb hl hrb hp hlen hdep e1.toks.length (i + 1) 65
      (by omega) (by omega) (by omega)
    simp only [op_idx_loop, hi, if_true, tokenAt, hb, hlb, hfr]

theorem op_scan (tokens : Int → Token) (q : Int) : ∀ (e : AExp) (i : Int) (s : Int × Int)
    (f : Nat), Laid tokens i e.toks → 0 ≤ i → i + e.toks.length ≤ 64 → e.depth ≤ 16 →
    i + e.toks.length - 1 ≤ q → (q + 1 - i).toNat < f →
    op_idx_loop tokens q f i s.1 s.2 =
      op_idx_loop tokens q f (i + e.toks.length) (scanOps e i s).1 (scanOps e i s).2 := by
  intro e
  induction e with
  | dec s0 =>
    intro i s f hl hi hlen hdep hq hf
    simp only [AExp.toks, List.length_singleton, Nat.cast_one] at hlen hq ⊢
    obtain ⟨⟨ht, _⟩, _⟩ := hl
    simp only at ht
    rw [op_idx_loop_other tokens q f i _ _ (by omega) ⟨hi, by omega⟩ (by rw [ht]; decide)
      (by rw [ht]; decide) (by rw [ht]; decide) (by rw [ht]; decide) (by rw [ht]; decide) hf]
    rfl
  | hex x s0 =>
    intro i s f hl hi hlen hdep hq hf
    simp only [AExp.toks, List.length_singleton, Nat.cast_one] at hlen hq ⊢
    obtain ⟨⟨ht, _⟩, _⟩ := hl
    simp only at ht
    rw [op_idx_loop_other tokens q f i _ _ (by omega) ⟨hi, by omega⟩ (by rw [ht]; decide)
      (by rw [ht]; decide) (by rw [ht]; decide) (by rw [ht]; decide) (by rw [ht]; decide) hf]
    rfl
  | paren e _ =>
    intro i s f hl hi hlen hdep hq hf
    simp only [AExp.toks, List.length_cons, List.length_append, List.length_singleton,
      List.length_nil, AExp.depth] at hlen hdep hq ⊢
    push_cast at hlen hq ⊢
    obtain ⟨⟨ht, _⟩, hl1⟩ := hl
    simp only at ht
    rw [Laid_append] at hl1
    obtain ⟨hl2, ⟨hrb, _⟩, _⟩ := hl1
    simp only at hrb
    rw [op_idx_loop_group tokens q f i _ _ e (by omega) ht hl2 hrb hi (by omega) (by omega) hf]
    have e1 : i + 1 + (e.toks.length : Int) + 1 = i + ((e.toks.length : Int) + 0 + 1 + 1) := by
      omega
    rw [e1]
    rfl
  | bin op l r ihl ihr =>
    intro i s f hl hi hlen hdep hq hf
    simp only [AExp.toks, List.length_cons, List.length_append, AExp.depth] at hlen hdep hq ⊢
    push_cast at hlen hq ⊢
    simp only [AExp.toks] at hl
    rw [Laid_append] at hl
    obtain ⟨hl1, ⟨hop, _⟩, hl2⟩ := hl
    simp only at hop
    have hdl : l.depth ≤ 16 := by
      have := le_max_left l.depth r.depth; omega
    have hdr : r.depth ≤ 16 := by
      have := le_max_right l.depth r.depth; omega
    have hr1 := toks_length_pos r
    rw [ihl i s f hl1 hi (by omega) hdl (by omega) hf]
    rw [op_idx_loop_op tokens q f _ _ _ op (by omega) ⟨by omega, by omega⟩ hop (by omega)]
    rw [ihr _ _ f hl2 (by omega) (by omega) hdr (by omega) (by omega)]
    have e1 : i + (l.toks.length : Int) + 1 + (r.toks.length : Int) =
        i + ((l.toks.length : Int) + ((r.toks.length : Int) + 1)) := by omega
    rw [e1]
    rfl

theorem scanOps_class_ge (e : AExp) : ∀ (i : Int) (s : Int × Int), 1 ≤ s.2 →
    1 ≤ (scanOps e i s).2 := by
  induction e with
  | dec _ => intro i s h; exact h
  | hex _ _ => intro i s h; exact h
  | paren _ _ => intro i s h; exact h
  | bin op l r ihl ihr =>
    intro i s h
    simp only [scanOps]
    apply ihr
    have h1 := ihl i s h
    split <;> (try split) <;> first | exact h1 | simp

theorem scanOps_term_one (e : AExp) : ∀ (i a : Int), e.grammatical = true →
    e.isAdditive = false → scanOps e i (a, 1) = (a, 1) := by
  induction e with
  | dec _ => intro i a _ _; rfl
  | hex _ _ => intro i a _ _; rfl
  | paren _ _ => intro i a _ _; rfl
  | bin op l r ihl ihr =>
    intro i a hg ha
    simp only [AExp.isAdditive] at ha
    simp only [AExp.grammatical, ha, Bool.and_eq_true, Bool.not_eq_true', if_false,
      Bool.false_eq_true] at hg
    obtain ⟨⟨hgl, hgr⟩, hla, hrf⟩ := hg
    simp only [scanOps, ha, Bool.false_eq_true, if_false]
    rw [ihl i a hgl hla]
    simp only [show ¬ ((1 : Int) = 2) by decide, if_false]
    cases r with
    | bin _ _ _ => simp [AExp.isFactor] at hrf
    | dec _ => rfl
    | hex _ _ => rfl
    | paren _ => rfl

theorem scanOps_term_two (e : AExp) : ∀ (i a : Int), e.grammatical = true →
    e.isAdditive = false → (scanOps e i (a, 2)).2 = 2 := by
  induction e with
  | dec _ => intro i a _ _; rfl
  | hex _ _ => intro i a _ _; rfl
  | paren _ _ => intro i a _ _; rfl
  | bin op l r ihl ihr =>
    intro i a hg ha
    simp only [AExp.isAdditive] at ha
    simp only [AExp.grammatical, ha, Bool.and_eq_true, Bool.not_eq_true', if_false,
      Bool.false_eq_true] at hg
    obtain ⟨⟨hgl, hgr⟩, hla, hrf⟩ := hg
    simp only [scanOps, ha, Bool.false_eq_true, if_false]
    rw [if_pos (ihl i a hgl hla)]
    cases r with
    | bin _ _ _ => simp [AExp.isFactor] at hrf
    | dec _ => rfl
    | hex _ _ => rfl
    | paren _ => rfl

theorem scanOps_bin (op : BinOp) (l r : AExp) (i a : Int)
    (hg : (AExp.bin op l r).grammatical = true) :
    (scanOps (AExp.bin op l r) i (a, 2)).1 = i + l.toks.length := by
  cases hop : op.additive with
  | true =>
    simp only [AExp.grammatical, hop, Bool.and_eq_true, Bool.not_eq_true', if_true] at hg
    obtain ⟨⟨hgl, hgr⟩, hra⟩ := hg
    simp only [scanOps, hop, if_true]
    have h1 := scanOps_class_ge l i (a, 2) (by show (1 : Int) ≤ 2; decide)
    rw [if_pos h1, scanOps_term_one r _ _ hgr hra]
  | false =>
    simp only [AExp.grammatical, hop, Bool.and_eq_true, Bool.not_eq_true', if_false,
      Bool.false_eq_true] at hg
    obtain ⟨⟨hgl, hgr⟩, hla, hrf⟩ := hg
    simp only [scanOps, hop, Bool.false_eq_true, if_false]
    rw [if_pos (scanOps_term_two l i a hgl hla)]
    cases r with
    | bin _ _ _ => simp [AExp.isFactor] at hrf
    | dec _ => rfl
    | hex _ _ => rfl
    | paren _ => rfl

theorem op_idx_bin (tokens : Int → Token) (op : BinOp) (l r : AExp) (p : Int)
    (hl : Laid tokens p (AExp.bin op l r).toks) (hp : 0 ≤ p)
    (hlen : p + (AExp.bin op l r).toks.length ≤ 64) (hdep : (AExp.bin op l r).depth ≤ 16)
    (hg : (AExp.bin op l r).grammatical = true) :
    op_idx tokens p (p + (AExp.bin op l r).toks.length - 1) = .ok (p + l.toks.length) := by
  unfold op_idx
  have h := op_scan tokens (p + (AExp.bin op l r).toks.length - 1) (AExp.bin op l r) p (p, 2)
    ((p + (AExp.bin op l r).toks.length - 1 + 1 - p).toNat + 1) hl hp hlen hdep (le_refl _)
    (by omega)
  simp only at h
  rw [h, op_idx_loop_done _ _ _ _ _ _ (by omega) (by omega), scanOps_bin op l r p p hg]

/-! ## The C library on token texts -/

theorem isDigitOf_of_isDec {c : Char} (h : isDec c = true) : isDigitOf 10 c = true := by
  simp only [isDec, decide_eq_true_eq] at h
  simp only [isDigitOf, digitVal, h, and_self, if_true, decide_eq_true_eq]
  omega

theorem isDigitOf_of_isHex {c : Char} (h : isHex c = true) : isDigitOf 16 c = true := by
  simp only [isHex, decide_eq_true_eq] at h
  simp only [isDigitOf, digitVal]
  split_ifs <;> first | (simp only [decide_eq_true_eq]; omega) | (exfalso; omega)

theorem strtol_digits_eq (base : Nat) : ∀ (s : List Char) (acc : Nat),
    (∀ c ∈ s, isDigitOf base c = true) →
    strtol_digits base s acc =
      s.foldl (fun acc c => acc * base + (digitVal c).getD 0) acc := by
  intro s
  induction s with
  | nil => intro acc _; rfl
  | cons c cs ih =>
    intro acc h
    have hc := h c (List.mem_cons_self _ _)
    simp only [isDigitOf] at hc
    simp only [strtol_digits, List.foldl_cons]
    cases hd : digitVal c with
    | none => simp [hd] at hc
    | some d =>
      simp only [hd, decide_eq_true_eq] at hc
      simp only [hc, if_true, Option.getD_some]
      exact ih _ (fun c1 h1 => h c1 (List.mem_cons_of_mem _ h1))

theorem strtol_dec (s : List Char) (hne : s ≠ []) (hs : ∀ c ∈ s, isDec c = true) :
    strtol s 10 = min (numeral 10 s : Int) LONG_MAX := by
  cases s with
  | nil => exact absurd rfl hne
  | cons c cs =>
    have hc := hs c (List.mem_cons_self _ _)
    have hsp : isspace c = false := by
      simp only [isDec, decide_eq_true_eq] at hc
      simp only [isspace, decide_eq_false_iff_not]
      omega
    obtain ⟨_, h2, h3, _⟩ := isHex_ne (isHex_of_isDec hc)
    have hd := strtol_digits_eq 10 (c :: cs) 0 (fun c1 h1 => isDigitOf_of_isDec (hs c1 h1))
    unfold strtol
    simp only [List.dropWhile_cons, hsp, Bool.false_eq_true, if_false, h2, h3, or_self,
      decide_False]
    split
    · simp only [show ¬ ((10 : Nat) = 16) by decide, false_and, if_false]
      rw [hd]
      rfl
    · rw [hd]
      rfl

theorem strtol_hex (x : Char) (s : List Char) (hx : x = 'x' ∨ x = 'X') (hne : s ≠ [])
    (hs : ∀ c ∈ s, isHex c = true) :
    strtol ('0' :: x :: s) 16 = min (numeral 16 s : Int) LONG_MAX := by
  cases s with
  | nil => exact absurd rfl hne
  | cons h r =>
    have hh := isDigitOf_of_isHex (hs h (List.mem_cons_self _ _))
    have hd := strtol_digits_eq 16 (h :: r) 0 (fun c1 h1 => isDigitOf_of_isHex (hs c1 h1))
    have hsp : isspace '0' = false := by decide
    unfold strtol
    simp only [List.dropWhile_cons, hsp, Bool.false_eq_true, if_false, hx, hh, and_self,
      if_true, eq_false (show ¬ ('0' = '-') by decide), eq_false (show ¬ ('0' = '+') by decide),
      or_self, decide_False]
    rw [hd]
    rfl

theorem toWord_atoi_dec (s : List Char) (hne : s ≠ []) (hs : ∀ c ∈ s, isDec c = true)
    (hw : numeral 10 s < WORD) : toWord (atoi s) = numeral 10 s := by
  simp only [atoi, strtol_dec s hne hs, toWord, toInt32, LONG_MAX, WORD] at *
  omega

theorem toWord_strtol_hex (x : Char) (s : List Char) (hx : x = 'x' ∨ x = 'X') (hne : s ≠ [])
    (hs : ∀ c ∈ s, isHex c = true) (hw : numeral 16 s < WORD) :
    toWord (strtol ('0' :: x :: s) 16) = numeral 16 s := by
  simp only [strtol_hex x s hx hne hs, toWord, LONG_MAX, WORD] at *
  omega

/-! ## The evaluator on well-formed arithmetic -/

theorem sub_word (a b : Nat) :
    (a + (WORD - b % WORD)) % WORD = (((a : Int) - (b : Int)) % (WORD : Int)).toNat := by
  simp only [WORD]
  omega

theorem eval_arith_aux (m : Machine) (tokens : Int → Token) :
    ∀ (e : AExp) (p q : Int) (fuel : Nat),
    Laid tokens p e.toks → 0 ≤ p → p + e.toks.length ≤ 64 → e.grammatical = true →
    e.litsInWord = true → e.depth ≤ 16 → e.toks.length ≤ fuel → q = p + e.toks.length - 1 →
    eval m tokens fuel p q =
      match e.value with
      | some v => .ok v
      | none => .error .divByZero := by
  intro e
  induction e with
  | dec s =>
    intro p q fuel hl hp hlen hg hw hdep hf hq
    simp only [AExp.toks, List.length_singleton, Nat.cast_one] at hlen hf hq
    obtain ⟨⟨ht, hs⟩, _⟩ := hl
    simp only at ht
    have hs1 := hs (Or.inl rfl)
    simp only at hs1
    simp only [AExp.grammatical, Bool.and_eq_true, Bool.not_eq_true', List.isEmpty_eq_false,
      List.all_eq_true] at hg
    simp only [AExp.litsInWord, decide_eq_true_eq] at hw
    cases fuel with
    | zero => omega
    | succ fuel =>
      have hpb : inTokens p := ⟨hp, by omega⟩
      have e1 : q = p := by omega
      subst e1
      simp only [eval, lt_irrefl, gt_iff_lt, if_false, if_true, tokenAt, hpb, ht, hs1,
        AExp.value]
      rw [toWord_atoi_dec s hg.1 hg.2 hw]
  | hex x s =>
    intro p q fuel hl hp hlen hg hw hdep hf hq
    simp only [AExp.toks, List.length_singleton, Nat.cast_one] at hlen hf hq
    obtain ⟨⟨ht, hs⟩, _⟩ := hl
    simp only at ht
    have hs1 := hs (Or.inr (Or.inl rfl))
    simp only at hs1
    simp only [AExp.grammatical, Bool.and_eq_true, Bool.not_eq_true', List.isEmpty_eq_false,
      List.all_eq_true, Bool.or_eq_true, beq_iff_eq] at hg
    simp only [AExp.litsInWord, decide_eq_true_eq] at hw
    cases fuel with
    | zero => omega
    | succ fuel =>
      have hpb : inTokens p := ⟨hp, by omega⟩
      have e1 : q = p := by omega
      subst e1
      have h1 : (TK_HEX : Int) ≠ TK_NUM := by decide
      have h2 : (TK_HEX : Int) ≠ TK_REG := by decide
      simp only [eval, lt_irrefl, gt_iff_lt, if_false, if_true, tokenAt, hpb, ht, hs1,
        AExp.value, h1, h2]
      rw [toWord_strtol_hex x s hg.1.1 hg.1.2 hg.2 hw]
  | paren e ih =>
    intro p q fuel hl hp hlen hg hw hdep hf hq
    simp only [AExp.toks, List.length_cons, List.length_append, List.length_singleton,
      List.length_nil, AExp.depth] at hlen hdep hf hq
    push_cast at hlen hq
    obtain ⟨⟨ht, _⟩, hl1⟩ := hl
    simp only at ht
    rw [Laid_append] at hl1
    obtain ⟨hl2, ⟨hrb, _⟩, _⟩ := hl1
    simp only at hrb
    have hn := toks_length_pos e
    cases fuel with
    | zero => omega
    | succ fuel =>
      have hcp := check_parentheses_group tokens e p q
        ht hl2 hrb hp (by omega) (by omega) (by omega) (by omega)
      have hd : decide (q = p + 1 + e.toks.length) = true := by
        simp only [decide_eq_true_eq]; omega
      rw [hd] at hcp
      have h1 : ¬ (p > q) := by omega
      have h2 : ¬ (p = q) := by omega
      simp only [eval, h1, h2, if_false, hcp]
      rw [ih (p + 1) (q - 1) fuel hl2 (by omega) (by omega) hg hw (by omega) (by omega)
        (by omega)]
      rfl
  | bin op l r ihl ihr =>
    intro p q fuel hl hp hlen hg hw hdep hf hq
    have hcp := check_parentheses_bin tokens op l r p hl hp hlen hdep
    have hop := op_idx_bin tokens op l r p hl hp hlen hdep hg
    rw [← hq] at hcp hop
    simp only [AExp.toks, List.length_cons, List.length_append, AExp.depth] at hlen hdep hf hq
    push_cast at hlen hq
    simp only [AExp.toks] at hl
    rw [Laid_append] at hl
    obtain ⟨hl1, ⟨hty, _⟩, hl2⟩ := hl
    simp only at hty
    have hdl : l.depth ≤ 16 := by
      have := le_max_left l.depth r.depth; omega
    have hdr : r.depth ≤ 16 := by
      have := le_max_right l.depth r.depth; omega
    have hn1 := toks_length_pos l
    have hn2 := toks_length_pos r
    have hgl : l.grammatical = true := by
      simp only [AExp.grammatical, Bool.and_eq_true] at hg; exact hg.1.1
    have hgr : r.grammatical = true := by
      simp only [AExp.grammatical, Bool.and_eq_true] at hg; exact hg.1.2
    simp only [AExp.litsInWord, Bool.and_eq_true] at hw
    cases fuel with
    | zero => omega
    | succ fuel =>
      have h1 : ¬ (p > q) := by omega
      have h2 : ¬ (p = q) := by omega
      have h3 : ¬ (p + 1 = q) := by omega
      have hpb : inTokens p := ⟨hp, by omega⟩
      have hob : inTokens (p + l.toks.length) := ⟨by omega, by omega⟩
      have hev1 := ihl p (p + l.toks.length - 1) fuel hl1 hp (by omega) hgl hw.1 hdl (by omega)
        rfl
      have hev2 := ihr (p + l.toks.length + 1) q fuel hl2 (by omega) (by omega) hgr hw.2 hdr
        (by omega) (by omega)
      simp only [eval, h1, h2, h3, if_false, hcp, tokenAt, hpb, if_true, and_false, hop, hev1,
        hev2, hob, hty, AExp.value]
      cases hv1 : l.value with
      | none => rfl
      | some a =>
        cases hv2 : r.value with
        | none => rfl
        | some b =>
          cases op
          · simp [BinOp.type]
          · simp [BinOp.type, sub_word]
          · simp [BinOp.type]
          · by_cases hb : b = 0 <;> simp [BinOp.type, hb]

/-! ## The two passes of `expr` -/

theorem mark_deref_fuel (nr : Int) : ∀ (f1 f2 : Nat) (i : Int) (tokens : Int → Token),
    (nr - i).toNat < f1 → (nr - i).toNat < f2 →
    mark_deref nr f1 i tokens = mark_deref nr f2 i tokens := by
  intro f1
  induction f1 with
  | zero => intro f2 i tokens h1 h2; omega
  | succ f1 ih =>
    intro f2 i tokens h1 h2
    cases f2 with
    | zero => omega
    | succ f2 =>
      simp only [mark_deref]
      by_cases hi : i < nr
      · have e1 : ∀ tk, mark_deref nr f1 (i + 1) tk = mark_deref nr f2 (i + 1) tk :=
          fun tk => ih f2 (i + 1) tk (by omega) (by omega)
        simp only [e1]
      · simp only [hi, if_false]

theorem mark_deref_done (nr : Int) (f : Nat) (i : Int) (tokens : Int → Token)
    (h : nr ≤ i) (hf : 0 < f) : mark_deref nr f i tokens = .ok tokens := by
  cases f with
  | zero => omega
  | succ f => simp only [mark_deref]; rw [if_neg (by omega)]

theorem mark_deref_other (nr : Int) (f : Nat) (i : Int) (tokens : Int → Token)
    (hi : i < nr) (hb : inTokens i) (h1 : (tokens i).type ≠ TK_MUL)
    (hf : (nr - i).toNat < f) :
    mark_deref nr f i tokens = mark_deref nr f (i + 1) tokens := by
  cases f with
  | zero => omega
  | succ f =>
    rw [mark_deref_fuel nr (f + 1) f (i + 1) _ (by omega) (by omega)]
    simp only [mark_deref, hi, if_true, tokenAt, hb, h1, if_false]

theorem mark_deref_binary (nr : Int) (f : Nat) (i : Int) (tokens : Int → Token)
    (hi : i < nr) (hb : inTokens i) (h0 : 1 ≤ i)
    (h1 : (tokens (i - 1)).type = TK_NUM ∨ (tokens (i - 1)).type = TK_HEX ∨
      (tokens (i - 1)).type = TK_RB)
    (hf : (nr - i).toNat < f) :
    mark_deref nr f i tokens = mark_deref nr f (i + 1) tokens := by
  by_cases hm : (tokens i).type = TK_MUL
  · cases f with
    | zero => omega
    | succ f =>
      rw [mark_deref_fuel nr (f + 1) f (i + 1) _ (by omega) (by omega)]
      have hb1 : inTokens (i - 1) := ⟨by omega, by have := hb.2; omega⟩
      have hi0 : ¬ (i = 0) := by omega
      have h2 : ¬ ((tokens (i - 1)).type = TK_PLUS ∨ (tokens (i - 1)).type = TK_MINUS ∨
          (tokens (i - 1)).type = TK_MUL ∨ (tokens (i - 1)).type = TK_DIV ∨
          (tokens (i - 1)).type = TK_LB) := by
        rcases h1 with h | h | h <;> (rw [h]; decide)
      simp only [mark_deref, hi, if_true, tokenAt, hb, hm, hi0, if_false, hb1, h2]
  · exact mark_deref_other nr f i tokens hi hb hm hf

theorem toks_last_type (tokens : Int → Token) : ∀ (e : AExp) (p : Int),
    Laid tokens p e.toks →
    (tokens (p + e.toks.length - 1)).type = TK_NUM ∨
      (tokens (p + e.toks.length - 1)).type = TK_HEX ∨
      (tokens (p + e.toks.length - 1)).type = TK_RB := by
  intro e
  induction e with
  | dec s =>
    intro p hl
    obtain ⟨⟨ht, _⟩, _⟩ := hl
    simp only [AExp.toks, List.length_singleton, Nat.cast_one, add_sub_cancel_right]
    exact Or.inl ht
  | hex x s =>
    intro p hl
    obtain ⟨⟨ht, _⟩, _⟩ := hl
    simp only [AExp.toks, List.length_singleton, Nat.cast_one, add_sub_cancel_right]
    exact Or.inr (Or.inl ht)
  | paren e _ =>
    intro p hl
    obtain ⟨_, hl1⟩ := hl
    rw [Laid_append] at hl1
    obtain ⟨_, ⟨hrb, _⟩, _⟩ := hl1
    simp only [AExp.toks, List.length_cons, List.length_append, List.length_singleton,
      List.length_nil]
    push_cast
    have e1 : p + ((e.toks.length : Int) + 0 + 1 + 1) - 1 = p + 1 + e.toks.length := by omega
    try rw [e1]
    have e2 : p + ((e.toks.length : Int) + 1 + 1) - 1 = p + 1 + e.toks.length := by omega
    try rw [e2]
    exact Or.inr (Or.inr hrb)
  | bin op l r _ ihr =>
    intro p hl
    simp only [AExp.toks] at hl
    rw [Laid_append] at hl
    obtain ⟨_, _, hl2⟩ := hl
    have := ihr _ hl2
    simp only [AExp.toks, List.length_cons, List.length_append]
    push_cast
    have e1 : p + ((l.toks.length : Int) + ((r.toks.length : Int) + 1)) - 1 =
        p + l.toks.length + 1 + r.toks.length - 1 := by omega
    rw [e1]
    exact this

theorem toks_first_type (tokens : Int → Token) : ∀ (e : AExp) (p : Int),
    Laid tokens p e.toks →
    (tokens p).type = TK_NUM ∨ (tokens p).type = TK_HEX ∨ (tokens p).type = TK_LB := by
  intro e
  induction e with
  | dec s => intro p hl; exact Or.inl hl.1.1
  | hex x s => intro p hl; exact Or.inr (Or.inl hl.1.1)
  | paren e _ => intro p hl; exact Or.inr (Or.inr hl.1.1)
  | bin op l r ihl _ =>
    intro p hl
    simp only [AExp.toks] at hl
    rw [Laid_append] at hl
    exact ihl p hl.1

theorem mark_deref_scan (nr : Int) : ∀ (e : AExp) (i : Int) (tokens : Int → Token) (f : Nat),
    Laid tokens i e.toks → 0 ≤ i → i + e.toks.length ≤ nr → nr ≤ 64 → (nr - i).toNat < f →
    mark_deref nr f i tokens = mark_deref nr f (i + e.toks.length) tokens := by
  intro e
  induction e with
  | dec s =>
    intro i tokens f hl hi hlen hnr hf
    simp only [AExp.toks, List.length_singleton, Nat.cast_one] at hlen ⊢
    exact mark_deref_other nr f i tokens (by omega) ⟨hi, by omega⟩
      (by rw [hl.1.1]; simp) hf
  | hex x s =>
    intro i tokens f hl hi hlen hnr hf
    simp only [AExp.toks, List.length_singleton, Nat.cast_one] at hlen ⊢
    exact mark_deref_other nr f i tokens (by omega) ⟨hi, by omega⟩
      (by rw [hl.1.1]; simp) hf
  | paren e ih =>
    intro i tokens f hl hi hlen hnr hf
    simp only [AExp.toks, List.length_cons, List.length_append, List.length_singleton,
      List.length_nil] at hlen ⊢
    push_cast at hlen ⊢
    obtain ⟨⟨ht, _⟩, hl1⟩ := hl
    rw [Laid_append] at hl1
    obtain ⟨hl2, ⟨hrb, _⟩, _⟩ := hl1
    rw [mark_deref_other nr f i tokens (by omega) ⟨hi, by omega⟩ (by rw [ht]; decide) hf]
    rw [ih (i + 1) tokens f hl2 (by omega) (by omega) hnr (by omega)]
    rw [mark_deref_other nr f _ tokens (by omega) ⟨by omega, by omega⟩
      (by rw [hrb]; decide) (by omega)]
    congr 1
    omega
  | bin op l r ihl ihr =>
    intro i tokens f hl hi hlen hnr hf
    simp only [AExp.toks, List.length_cons, List.length_append] at hlen ⊢
    push_cast at hlen ⊢
    simp only [AExp.toks] at hl
    rw [Laid_append] at hl
    obtain ⟨hl1, _, hl2⟩ := hl
    have hn1 := toks_length_pos l
    have hlast := toks_last_type tokens l i hl1
    rw [ihl i tokens f hl1 hi (by omega) hnr hf]
    rw [mark_deref_binary nr f _ tokens (by omega) ⟨by omega, by omega⟩ (by omega) hlast
      (by omega)]
    rw [ihr _ tokens f hl2 (by omega) (by omega) hnr (by omega)]
    congr 1
    omega

theorem expr_split_fuel (m : Machine) (tokens : Int → Token) (nr : Int) :
    ∀ (f1 f2 : Nat) (i : Int), (nr - i).toNat < f1 → (nr - i).toNat < f2 →
    expr_split m tokens nr f1 i = expr_split m tokens nr f2 i := by
  intro f1
  induction f1 with
  | zero => intro f2 i h1 h2; omega
  | succ f1 ih =>
    intro f2 i h1 h2
    cases f2 with
    | zero => omega
    | succ f2 =>
      simp only [expr_split]
      by_cases hi : i < nr
      · rw [ih f2 (i + 1) (by omega) (by omega)]
      · simp only [hi, if_false]

theorem expr_split_done (m : Machine) (tokens : Int → Token) (nr : Int) (f : Nat) (i : Int)
    (h : nr ≤ i) (hf : 0 < f) :
    expr_split m tokens nr f i = eval m tokens (nr.toNat + 1) 0 (nr - 1) := by
  cases f with
  | zero => omega
  | succ f => simp only [expr_split]; rw [if_neg (by omega)]

theorem expr_split_other (m : Machine) (tokens : Int → Token) (nr : Int) (f : Nat) (i : Int)
    (hi : i < nr) (hb : inTokens i) (h1 : (tokens i).type ≠ TK_EQ)
    (h2 : (tokens i).type ≠ TK_NEQ) (h3 : (tokens i).type ≠ TK_AND)
    (hf : (nr - i).toNat < f) :
    expr_split m tokens nr f i = expr_split m tokens nr f (i + 1) := by
  cases f with
  | zero => omega
  | succ f =>
    rw [expr_split_fuel m tokens nr (f + 1) f (i + 1) (by omega) (by omega)]
    simp only [expr_split, hi, if_true, tokenAt, hb, h1, h2, h3, if_false, or_self]

theorem expr_split_scan (m : Machine) (tokens : Int → Token) (nr : Int) :
    ∀ (e : AExp) (i : Int) (f : Nat),
    Laid tokens i e.toks → 0 ≤ i → i + e.toks.length ≤ nr → nr ≤ 64 → (nr - i).toNat < f →
    expr_split m tokens nr f i = expr_split m tokens nr f (i + e.toks.length) := by
  intro e
  induction e with
  | dec s =>
    intro i f hl hi hlen hnr hf
    simp only [AExp.toks, List.length_singleton, Nat.cast_one] at hlen ⊢
    exact expr_split_other m tokens nr f i (by omega) ⟨hi, by omega⟩
      (by rw [hl.1.1]; simp) (by rw [hl.1.1]; simp) (by rw [hl.1.1]; simp) hf
  | hex x s =>
    intro i f hl hi hlen hnr hf
    simp only [AExp.toks, List.length_singleton, Nat.cast_one] at hlen ⊢
    exact expr_split_other m tokens nr f i (by omega) ⟨hi, by omega⟩
      (by rw [hl.1.1]; simp) (by rw [hl.1.1]; simp) (by rw [hl.1.1]; simp) hf
  | paren e ih =>
    intro i f hl hi hlen hnr hf
    simp only [AExp.toks, List.length_cons, List.length_append, List.length_singleton,
      List.length_nil] at hlen ⊢
    push_cast at hlen ⊢
    obtain ⟨⟨ht, _⟩, hl1⟩ := hl
    rw [Laid_append] at hl1
    obtain ⟨hl2, ⟨hrb, _⟩, _⟩ := hl1
    rw [expr_split_other m tokens nr f i (by omega) ⟨hi, by omega⟩ (by rw [ht]; simp)
      (by rw [ht]; simp) (by rw [ht]; simp) hf]
    rw [ih (i + 1) f hl2 (by omega) (by omega) hnr (by omega)]
    rw [expr_split_other m tokens nr f _ (by omega) ⟨by omega, by omega⟩
      (by rw [hrb]; simp) (by rw [hrb]; simp) (by rw [hrb]; simp) (by omega)]
    congr 1
    omega
  | bin op l r ihl ihr =>
    intro i f hl hi hlen hnr hf
    simp only [AExp.toks, List.length_cons, List.length_append] at hlen ⊢
    push_cast at hlen ⊢
    simp only [AExp.toks] at hl
    rw [Laid_append] at hl
    obtain ⟨hl1, ⟨hty, _⟩, hl2⟩ := hl
    simp only at hty
    have hn1 := toks_length_pos l
    rw [ihl i f hl1 hi (by omega) hnr hf]
    rw [expr_split_other m tokens nr f _ (by omega) ⟨by omega, by omega⟩
      (by rw [hty]; cases op <;> decide) (by rw [hty]; cases op <;> decide)
      (by rw [hty]; cases op <;> decide) (by omega)]
    rw [ihr _ f hl2 (by omega) (by omega) hnr (by omega)]
    congr 1
    omega

theorem lexable_append : ∀ (a b : List Token) (t : Token), Lexable a → Lexable (t :: b) →
    ¬ isLit t → Lexable (a ++ t :: b) := by
  intro a
  induction a with
  | nil => intro b t _ h _; exact h
  | cons x a ih =>
    intro b t ha hb ht
    obtain ⟨h1, h2, h3⟩ := ha
    refine ⟨h1, ?_, ih b t h3 hb ht⟩
    cases a with
    | nil =>
      intro t1 ht1
      simp at ht1
      subst ht1
      exact fun h => ht h.2
    | cons y a =>
      intro t1 ht1
      exact h2 t1 (by simpa using ht1)

theorem lexable_toks : ∀ e : AExp, e.grammatical = true → e.litsShort = true →
    Lexable e.toks := by
  intro e
  induction e with
  | dec s =>
    intro hg hs
    simp only [AExp.grammatical, Bool.and_eq_true, Bool.not_eq_true', List.isEmpty_eq_false,
      List.all_eq_true] at hg
    simp only [AExp.litsShort, decide_eq_true_eq] at hs
    exact ⟨Or.inr (Or.inl ⟨rfl, hg.1, hg.2, hs⟩), by simp, trivial⟩
  | hex x s =>
    intro hg hs
    simp only [AExp.grammatical, Bool.and_eq_true, Bool.not_eq_true', List.isEmpty_eq_false,
      List.all_eq_true, Bool.or_eq_true, beq_iff_eq] at hg
    simp only [AExp.litsShort, decide_eq_true_eq] at hs
    exact ⟨Or.inr (Or.inr ⟨rfl, by simpa using hs, x, s, rfl, hg.1.1, hg.1.2, hg.2⟩), by simp,
      trivial⟩
  | paren e ih =>
    intro hg hs
    have h1 := ih hg hs
    have hrb : Lexable [(⟨TK_RB, []⟩ : Token)] :=
      ⟨Or.inl (by simp), by simp, trivial⟩
    have h2 := lexable_append e.toks [] ⟨TK_RB, []⟩ h1 hrb (by simp [isLit])
    refine ⟨Or.inl (by simp), ?_, h2⟩
    intro t1 _ h
    simp [isLit] at h
  | bin op l r ihl ihr =>
    intro hg hs
    simp only [AExp.grammatical, Bool.and_eq_true] at hg
    simp only [AExp.litsShort, Bool.and_eq_true] at hs
    have h1 := ihl hg.1.1 hs.1
    have h2 := ihr hg.1.2 hs.2
    have hop : ¬ isLit (⟨op.type, []⟩ : Token) := by
      cases op <;> simp [isLit, BinOp.type]
    apply lexable_append _ _ _ h1 _ hop
    refine ⟨Or.inl ?_, fun t1 _ h => hop h.1, h2⟩
    cases op <;> simp [BinOp.type]

theorem make_token_spell (st : ExprState) (ts : List Token) (gaps : List Nat)
    (hlex : Lexable ts) (hlen : ts.length ≤ 64) :
    ∃ st1 : ExprState, make_token st (spell gaps ts) =
        .ok ⟨true, ((spell gaps ts).length : Int), st1⟩ ∧
      st1.nr_token = (ts.length : Int) ∧ Laid st1.tokens 0 ts ∧
      ∀ k, (k < 0 ∨ (ts.length : Int) ≤ k) → st1.tokens k = st.tokens k := by
  obtain ⟨st1, h1, h2, h3, h4⟩ := lex_spell ts gaps ⟨st.tokens, 0⟩ ((spell gaps ts).length + 1) 0
    hlex (le_refl _) (by simp only; omega) (by omega)
  refine ⟨st1, ?_, by simpa using h2, h3, fun k hk => h4 k (by simpa using hk)⟩
  simp only [make_token, h1, zero_add]

theorem expr_arith (m : Machine) (st : ExprState) (success : Bool) (e : AExp)
    (gaps : List Nat) (hg : e.grammatical = true) (hw : e.litsInWord = true)
    (hs : e.litsShort = true) (hdep : e.depth ≤ 16) (hlen : e.toks.length ≤ 64) :
    ∃ st1 : ExprState, st1.nr_token = (e.toks.length : Int) ∧ Laid st1.tokens 0 e.toks ∧
      expr m st (spell gaps e.toks) success =
        match e.value with
        | some v => .ok ⟨v, success, st1⟩
        | none => .error .divByZero := by
  obtain ⟨st1, h1, h2, h3, _⟩ := make_token_spell st e.toks gaps (lexable_toks e hg hs) hlen
  refine ⟨⟨st1.tokens, st1.nr_token⟩, h2, h3, ?_⟩
  have hn := toks_length_pos e
  have hmd : mark_deref st1.nr_token (st1.nr_token.toNat + 1) 0 st1.tokens = .ok st1.tokens := by
    rw [mark_deref_scan st1.nr_token e 0 st1.tokens _ h3 (le_refl _) (by omega) (by omega)
      (by omega)]
    exact mark_deref_done _ _ _ _ (by omega) (by omega)
  have hsp : expr_split m st1.tokens st1.nr_token (st1.nr_token.toNat + 1) 0 =
      eval m st1.tokens (st1.nr_token.toNat + 1) 0 (st1.nr_token - 1) := by
    rw [expr_split_scan m st1.tokens st1.nr_token e 0 _ h3 (le_refl _) (by omega) (by omega)
      (by omega)]
    exact expr_split_done _ _ _ _ _ (by omega) (by omega)
  have hev := eval_arith_aux m st1.tokens e 0 (st1.nr_token - 1) (st1.nr_token.toNat + 1) h3
    (le_refl _) (by omega) hg hw hdep (by omega) (by omega)
  simp only [expr, h1, hmd, hsp, hev]
  cases e.value with
  | none => rfl
  | some v => rfl

/-! ## C1: well-formed arithmetic evaluates to its value -/

/-- C1 (as amended): for every parse tree `e` of the arithmetic grammar
(`grammatical`: `*` and `/` bind tighter than `+` and `-`, equal precedence
associates to the left, brackets override), whose literals fit a machine
word and are written with at most 31 characters, with brackets nested at
most 16 deep, at most 64 tokens and no division by zero (`value e = some v`),
and for every spacing of its tokens, every machine, every earlier content of
the token array and every incoming success flag, `expr` returns the value
`v` of the tree in 32-bit unsigned arithmetic. -/
theorem C1_expr_arithmetic (m : Machine) (st : ExprState) (success : Bool) (e : AExp)
    (gaps : List Nat) (v : Nat) (hg : e.grammatical = true) (hw : e.litsInWord = true)
    (hs : e.litsShort = true) (hdep : e.depth ≤ 16) (hlen : e.toks.length ≤ 64)
    (hv : e.value = some v) :
    ∃ st1, expr m st (spell gaps e.toks) success = .ok ⟨v, success, st1⟩ := by
  obtain ⟨st1, _, _, h⟩ := expr_arith m st success e gaps hg hw hs hdep hlen
  rw [hv] at h
  exact ⟨st1, h⟩

/-- C1, witnesses of the claim: `1+2*3` gives 7, `(1+2)*3` gives 9 and
`0x10+1` gives 17. -/
theorem C1_expr_arithmetic_witness :
    (spell [] sum_product.toks = "1+2*3".toList ∧
      ∃ st1, expr demoMachine ExprState.init (spell [] sum_product.toks) true =
        .ok ⟨7, true, st1⟩) ∧
    (spell [] bracket_product.toks = "(1+2)*3".toList ∧
      ∃ st1, expr demoMachine ExprState.init (spell [] bracket_product.toks) true =
        .ok ⟨9, true, st1⟩) ∧
    (spell [] hex_sum.toks = "0x10+1".toList ∧
      ∃ st1, expr demoMachine ExprState.init (spell [] hex_sum.toks) true =
        .ok ⟨17, true, st1⟩) :=
  ⟨⟨by decide, C1_expr_arithmetic demoMachine ExprState.init true sum_product [] 7
      (by decide) (by decide) (by decide) (by decide) (by decide) (by decide)⟩,
   ⟨by decide, C1_expr_arithmetic demoMachine ExprState.init true bracket_product [] 9
      (by decide) (by decide) (by decide) (by decide) (by decide) (by decide)⟩,
   ⟨by decide, C1_expr_arithmetic demoMachine ExprState.init true hex_sum [] 17
      (by decide) (by decide) (by decide) (by decide) (by decide) (by decide)⟩⟩

/-- C1 as stated fails: the sum `000000000000000000000000000000001+1` meets
every condition of the claim (grammar, literals that fit a word, no brackets,
3 tokens, value 2), yet `expr` does not return 2: copying the 33-character
literal overruns `str[32]`. -/
theorem C1_counterexample_overlong_literal :
    overlong_sum.grammatical = true ∧ overlong_sum.litsInWord = true ∧
    overlong_sum.depth ≤ 16 ∧ overlong_sum.toks.length ≤ 64 ∧
    overlong_sum.value = some 2 ∧
    valueOf (expr demoMachine ExprState.init (spell [] overlong_sum.toks) true) = none ∧
    faultOf (expr demoMachine ExprState.init (spell [] overlong_sum.toks) true) =
      some Fault.outOfBounds := by
  decide

/-! ## C2: comparisons and logical and -/

theorem expr_split_cmp (m : Machine) (tokens : Int → Token) (nr : Int) (f : Nat) (i : Int)
    (c : CmpOp) (hi : i < nr) (hb : inTokens i) (h1 : (tokens i).type = c.type)
    (hf : 0 < f) :
    expr_split m tokens nr f i =
      match eval m tokens (nr.toNat + 1) 0 (i - 1) with
      | .error e => .error e
      | .ok a =>
        match eval m tokens (nr.toNat + 1) (i + 1) (nr - 1) with
        | .error e => .error e
        | .ok b => .ok (if c.holds a b then 1 else 0) := by
  cases f with
  | zero => omega
  | succ f =>
    simp only [expr_split, hi, if_true, tokenAt, hb, h1]
    cases eval m tokens (nr.toNat + 1) 0 (i - 1) with
    | error e => cases c <;> simp [CmpOp.type]
    | ok a =>
      cases eval m tokens (nr.toNat + 1) (i + 1) (nr - 1) with
      | error e => cases c <;> simp [CmpOp.type]
      | ok b => cases c <;> simp [CmpOp.type, CmpOp.holds]

theorem expr_compare (m : Machine) (st : ExprState) (success : Bool) (A B : AExp)
    (c : CmpOp) (gaps : List Nat)
    (hgA : A.grammatical = true) (hwA : A.litsInWord = true) (hsA : A.litsShort = true)
    (hdA : A.depth ≤ 16)
    (hgB : B.grammatical = true) (hwB : B.litsInWord = true) (hsB : B.litsShort = true)
    (hdB : B.depth ≤ 16) (hlen : (cmpToks A c B).length ≤ 64) :
    ∃ st1 : ExprState, expr m st (spell gaps (cmpToks A c B)) success =
      match A.value, B.value with
      | some a, some b => .ok ⟨if c.holds a b then 1 else 0, success, st1⟩
      | _, _ => .error .divByZero := by
  have hcl : ¬ isLit (⟨c.type, []⟩ : Token) := by
    cases c <;> simp [isLit, CmpOp.type]
  have hlexB : Lexable ((⟨c.type, []⟩ : Token) :: B.toks) := by
    refine ⟨Or.inl ?_, fun t1 _ h => hcl h.1, lexable_toks B hgB hsB⟩
    cases c <;> simp [CmpOp.type]
  have hlex : Lexable (cmpToks A c B) :=
    lexable_append _ _ _ (lexable_toks A hgA hsA) hlexB hcl
  obtain ⟨st1, h1, h2, h3, _⟩ := make_token_spell st (cmpToks A c B) gaps hlex hlen
  refine ⟨⟨st1.tokens, st1.nr_token⟩, ?_⟩
  simp only [cmpToks, List.length_append, List.length_cons] at hlen h2
  push_cast at h2
  simp only [cmpToks] at h3
  rw [Laid_append] at h3
  obtain ⟨hlA, ⟨hty, _⟩, hlB⟩ := h3
  simp only [zero_add] at hty hlB
  have hnA := toks_length_pos A
  have hnB := toks_length_pos B
  have hcb : inTokens (A.toks.length : Int) := ⟨by omega, by omega⟩
  have hmd : mark_deref st1.nr_token (st1.nr_token.toNat + 1) 0 st1.tokens = .ok st1.tokens := by
    rw [mark_deref_scan st1.nr_token A 0 st1.tokens _ hlA (le_refl _) (by omega) (by omega)
      (by omega)]
    rw [zero_add, mark_deref_other st1.nr_token _ _ st1.tokens (by omega) hcb
      (by rw [hty]; cases c <;> decide) (by omega)]
    rw [mark_deref_scan st1.nr_token B _ st1.tokens _ hlB (by omega) (by omega) (by omega)
      (by omega)]
    exact mark_deref_done _ _ _ _ (by omega) (by omega)
  have hsp := expr_split_scan m st1.tokens st1.nr_token A 0 (st1.nr_token.toNat + 1) hlA
    (le_refl _) (by omega) (by omega) (by omega)
  rw [zero_add, expr_split_cmp m st1.tokens st1.nr_token _ _ c (by omega) hcb hty (by omega)]
    at hsp
  have hevA := eval_arith_aux m st1.tokens A 0 ((A.toks.length : Int) - 1)
    (st1.nr_token.toNat + 1) hlA (le_refl _) (by omega) hgA hwA hdA (by omega) (by omega)
  have hevB := eval_arith_aux m st1.tokens B ((A.toks.length : Int) + 1) (st1.nr_token - 1)
    (st1.nr_token.toNat + 1) hlB (by omega) (by omega) hgB hwB hdB (by omega) (by omega)
  rw [hevA, hevB] at hsp
  simp only [expr, h1, hmd, hsp]
  cases A.value with
  | none => rfl
  | some a =>
    cases B.value with
    | none => rfl
    | some b => rfl

/-- C2 (as amended): for every pair of parse trees `A`, `B` of the arithmetic
grammar whose literals fit a machine word and have at most 31 characters,
with brackets nested at most 16 deep and no division by zero, every operator
`op` among `==`, `!=`, `&&`, and every spacing, if `A op B` has at most 64
tokens then `expr` returns 1 when the relation holds between the values of
`A` and `B` (equal, different, both nonzero) and 0 otherwise. -/
theorem C2_expr_comparison (m : Machine) (st : ExprState) (success : Bool) (A B : AExp)
    (c : CmpOp) (gaps : List Nat) (a b : Nat)
    (hgA : A.grammatical = true) (hwA : A.litsInWord = true) (hsA : A.litsShort = true)
    (hdA : A.depth ≤ 16) (hvA : A.value = some a)
    (hgB : B.grammatical = true) (hwB : B.litsInWord = true) (hsB : B.litsShort = true)
    (hdB : B.depth ≤ 16) (hvB : B.value = some b)
    (hlen : (cmpToks A c B).length ≤ 64) :
    ∃ st1, expr m st (spell gaps (cmpToks A c B)) success =
      .ok ⟨if c.holds a b then 1 else 0, success, st1⟩ := by
  obtain ⟨st1, h⟩ := expr_compare m st success A B c gaps hgA hwA hsA hdA hgB hwB hsB hdB hlen
  rw [hvA, hvB] at h
  exact ⟨st1, h⟩

/-- C2, witnesses of the claim: `1==1` gives 1 and `1!=1` gives 0. -/
theorem C2_expr_comparison_witness :
    (spell [] (cmpToks (.dec ['1']) .eq (.dec ['1'])) = "1==1".toList ∧
      ∃ st1, expr demoMachine ExprState.init
        (spell [] (cmpToks (.dec ['1']) .eq (.dec ['1']))) true = .ok ⟨1, true, st1⟩) ∧
    (spell [] (cmpToks (.dec ['1']) .neq (.dec ['1'])) = "1!=1".toList ∧
      ∃ st1, expr demoMachine ExprState.init
        (spell [] (cmpToks (.dec ['1']) .neq (.dec ['1']))) true = .ok ⟨0, true, st1⟩) :=
  ⟨⟨by decide, C2_expr_comparison demoMachine ExprState.init true (.dec ['1']) (.dec ['1'])
      .eq [] 1 1 (by decide) (by decide) (by decide) (by decide) (by decide) (by decide)
      (by decide) (by decide) (by decide) (by decide) (by decide)⟩,
   ⟨by decide, C2_expr_comparison demoMachine ExprState.init true (.dec ['1']) (.dec ['1'])
      .neq [] 1 1 (by decide) (by decide) (by decide) (by decide) (by decide) (by decide)
      (by decide) (by decide) (by decide) (by decide) (by decide)⟩⟩

set_option maxRecDepth 100000 in
/-- C2 as stated fails on texts `A == B` whose sides are well-formed
arithmetic: with a 33-character literal on the left, with 65 tokens, and with
17 nested brackets `expr` runs outside a fixed array instead of returning 1
or 0, and with a zero divisor it divides by zero. -/
theorem C2_counterexample_unbounded_operands :
    (overlong_sum.grammatical = true ∧ overlong_sum.value = some 2 ∧
      valueOf (expr demoMachine ExprState.init
        (spell [] (cmpToks overlong_sum .eq (.dec ['2']))) true) = none) ∧
    ((ones_sum 31).grammatical = true ∧ (ones_sum 31).value = some 32 ∧
      (cmpToks (ones_sum 31) .eq (.dec ['1'])).length = 65 ∧
      faultOf (expr demoMachine ExprState.init
        (spell [] (cmpToks (ones_sum 31) .eq (.dec ['1']))) true) = some Fault.outOfBounds) ∧
    ((nested_one 17).grammatical = true ∧ (nested_one 17).value = some 1 ∧
      faultOf (expr demoMachine ExprState.init
        (spell [] (cmpToks (nested_one 17) .eq (.dec ['1']))) true) = some Fault.outOfBounds) ∧
    (one_by_zero.grammatical = true ∧
      faultOf (expr demoMachine ExprState.init
        (spell [] (cmpToks one_by_zero .eq (.dec ['1']))) true) = some Fault.divByZero) := by
  decide

/-! ## A leading `*` is a dereference -/

/-- A leading `*` in front of a hex literal of at most 31 characters: for
every such literal `0x…` or `0X…` that fits a machine word, every machine and
every earlier content of the token array, `expr` on `*` followed by the
literal returns the word `paddr_read(addr, 4)` read at the literal's base-16
value. A longer literal is copied past `str[32]`; what is read back then lies
outside this embedding. -/
theorem expr_deref_literal (m : Machine) (st : ExprState) (success : Bool) (x : Char)
    (s : List Char) (hx : x = 'x' ∨ x = 'X') (hne : s ≠ []) (hs : ∀ c ∈ s, isHex c = true)
    (hw : numeral 16 s < WORD) (hlen : s.length + 2 ≤ 31) :
    ∃ st1, expr m st ('*' :: '0' :: x :: s) success =
      .ok ⟨m.paddr_read (numeral 16 s) 4 % WORD, success, st1⟩ := by
  have hlex : Lexable [(⟨TK_MUL, []⟩ : Token), ⟨TK_HEX, '0' :: x :: s⟩] := by
    refine ⟨Or.inl (by simp), ?_, Or.inr (Or.inr ⟨rfl, by simpa using hlen, x, s, rfl, hx, hne, hs⟩),
      by simp, trivial⟩
    intro t1 _ h
    simp [isLit] at h
  obtain ⟨st1, h1, h2, h3, _⟩ := make_token_spell st _ [] hlex (by simp)
  have htxt : spell [] [(⟨TK_MUL, []⟩ : Token), ⟨TK_HEX, '0' :: x :: s⟩] =
      '*' :: '0' :: x :: s := by
    simp [spell, tokText]
  rw [htxt] at h1
  obtain ⟨⟨ht0, _⟩, ⟨ht1, hstr⟩, _⟩ := h3
  have hstr1 := hstr (Or.inr (Or.inl rfl))
  simp only [zero_add] at ht1 hstr1
  simp only at ht0 ht1
  simp only [List.length_cons, List.length_nil, zero_add] at h2
  refine ⟨⟨Function.update st1.tokens 0 ⟨TK_DEREF, (st1.tokens 0).str⟩, st1.nr_token⟩, ?_⟩
  have hmd : mark_deref st1.nr_token (st1.nr_token.toNat + 1) 0 st1.tokens =
      .ok (Function.update st1.tokens 0 ⟨TK_DEREF, (st1.tokens 0).str⟩) := by
    rw [h2]
    have hb0 : inTokens 0 := by decide
    have hb1 : inTokens 1 := by decide
    have h4 : (TK_HEX : Int) ≠ TK_MUL := by decide
    simp [mark_deref, tokenAt, hb0, hb1, ht0, ht1, h4, Function.update]
  have hsp : expr_split m (Function.update st1.tokens 0 ⟨TK_DEREF, (st1.tokens 0).str⟩)
      st1.nr_token (st1.nr_token.toNat + 1) 0 =
      .ok (m.paddr_read (numeral 16 s) 4 % WORD) := by
    rw [h2]
    have hb0 : inTokens 0 := by decide
    have hb1 : inTokens 1 := by decide
    have hv := toWord_strtol_hex x s hx hne hs hw
    simp [expr_split, eval, check_parentheses, tokenAt, hb0, hb1, ht1, Function.update,
      hstr1, hv]
  simp only [expr, h1, hmd, hsp]
  rfl

/-! ## C4: malformed input aborts -/

theorem scanOps_add_root (op : BinOp) (l r : AExp) (i a : Int)
    (hg : (AExp.bin op l r).grammatical = true) (hop : op.additive = true) :
    scanOps (AExp.bin op l r) i (a, 2) = (i + l.toks.length, 1) := by
  simp only [AExp.grammatical, hop, Bool.and_eq_true, Bool.not_eq_true', if_true] at hg
  obtain ⟨⟨hgl, hgr⟩, hra⟩ := hg
  simp only [scanOps, hop, if_true]
  have h1 := scanOps_class_ge l i (a, 2) (by show (1 : Int) ≤ 2; decide)
  rw [if_pos h1, scanOps_term_one r _ _ hgr hra]

theorem check_parentheses_no_rb (tokens : Int → Token) (p q : Int) (hp : inTokens p)
    (hq : inTokens q) (h : (tokens q).type ≠ TK_RB) :
    check_parentheses tokens p q = .ok false := by
  simp only [check_parentheses, tokenAt, hp, hq, if_true, h, if_false]
  split <;> rfl

theorem eval_empty (m : Machine) (tokens : Int → Token) (fuel : Nat) (p q : Int)
    (h : p > q) (hf : 0 < fuel) : eval m tokens fuel p q = .error .assertFail := by
  cases fuel with
  | zero => omega
  | succ fuel => simp only [eval, h, if_true]

theorem eval_trailing_root (m : Machine) (tokens : Int → Token) (A : AExp) (op : BinOp)
    (p : Int) (fuel : Nat)
    (hl : Laid tokens p (A.toks ++ [⟨op.type, []⟩])) (hp : 0 ≤ p)
    (hlen : p + A.toks.length + 1 ≤ 64) (hg : A.grammatical = true)
    (hw : A.litsInWord = true) (hdep : A.depth ≤ 16) (hf : A.toks.length + 2 ≤ fuel)
    (hroot : op.additive = true ∨ A.isAdditive = false) :
    eval m tokens fuel p (p + A.toks.length) =
      match A.value with
      | some _ => .error .assertFail
      | none => .error .divByZero := by
  rw [Laid_append] at hl
  obtain ⟨hlA, ⟨hty, _⟩, _⟩ := hl
  simp only at hty
  have hn := toks_length_pos A
  have hpb : inTokens p := ⟨hp, by omega⟩
  have hqb : inTokens (p + A.toks.length) := ⟨by omega, by omega⟩
  have hcp := check_parentheses_no_rb tokens p (p + A.toks.length) hpb hqb
    (by rw [hty]; cases op <;> decide)
  have hfirst := toks_first_type tokens A p hlA
  have hnd : (tokens p).type ≠ TK_DEREF := by
    rcases hfirst with h | h | h <;> (rw [h]; decide)
  have hop : op_idx tokens p (p + A.toks.length) = .ok (p + A.toks.length) := by
    unfold op_idx
    have h := op_scan tokens (p + A.toks.length) A p (p, 2)
      ((p + A.toks.length + 1 - p).toNat + 1) hlA hp (by omega) hdep (by omega) (by omega)
    simp only at h
    rw [h, op_idx_loop_op tokens _ _ _ _ _ op (le_refl _) hqb hty (by omega),
      op_idx_loop_done _ _ _ _ _ _ (by omega) (by omega)]
    rcases hroot with hr | hr
    · have h1 := scanOps_class_ge A p (p, 2) (by show (1 : Int) ≤ 2; decide)
      simp only [hr, if_true, ge_iff_le, h1]
    · cases hoa : op.additive with
      | true =>
        have h1 := scanOps_class_ge A p (p, 2) (by show (1 : Int) ≤ 2; decide)
        simp only [if_true, ge_iff_le, h1]
      | false =>
        have h2 := scanOps_term_two A p p hg hr
        simp only [Bool.false_eq_true, if_false, h2, if_true]
  have hev1 := eval_arith_aux m tokens A p (p + A.toks.length - 1) (fuel - 1) hlA hp (by omega)
    hg hw hdep (by omega) rfl
  have hev2 := eval_empty m tokens (fuel - 1) (p + A.toks.length + 1) (p + A.toks.length)
    (by omega) (by omega)
  cases fuel with
  | zero => omega
  | succ fuel =>
    simp only [Nat.add_sub_cancel] at hev1 hev2
    have h1 : ¬ (p > p + A.toks.length) := by omega
    have h2 : ¬ (p = p + A.toks.length) := by omega
    simp only [eval, h1, h2, if_false, hcp, tokenAt, hpb, if_true, hnd, false_and, hop, hev1,
      hev2]
    cases A.value with
    | none => rfl
    | some v => rfl

theorem eval_trailing (m : Machine) (tokens : Int → Token) (A : AExp) (op : BinOp)
    (p : Int) (fuel : Nat)
    (hl : Laid tokens p (A.toks ++ [⟨op.type, []⟩])) (hp : 0 ≤ p)
    (hlen : p + A.toks.length + 1 ≤ 64) (hg : A.grammatical = true)
    (hw : A.litsInWord = true) (hdep : A.depth ≤ 16) (hf : A.toks.length + 2 ≤ fuel) :
    eval m tokens fuel p (p + A.toks.length) =
      match A.value with
      | some _ => .error .assertFail
      | none => .error .divByZero := by
  by_cases hroot : op.additive = true ∨ A.isAdditive = false
  · exact eval_trailing_root m tokens A op p fuel hl hp hlen hg hw hdep hf hroot
  · have hoa : op.additive = false := by
      cases h : op.additive with
      | true => exact absurd (Or.inl h) hroot
      | false => rfl
    have hAa : A.isAdditive = true := by
      cases h : A.isAdditive with
      | true => rfl
      | false => exact absurd (Or.inr h) hroot
    cases A with
    | dec s => simp [AExp.isAdditive] at hAa
    | hex x s => simp [AExp.isAdditive] at hAa
    | paren e => simp [AExp.isAdditive] at hAa
    | bin aop l r =>
      simp only [AExp.isAdditive] at hAa
      have hgA := hg
      have hlfull := hl
      rw [Laid_append] at hl
      obtain ⟨hlA, ⟨hty, _⟩, _⟩ := hl
      simp only at hty
      have hlA2 := hlA
      simp only [AExp.toks] at hlA2
      rw [Laid_append] at hlA2
      obtain ⟨hll, ⟨htya, _⟩, hlr⟩ := hlA2
      simp only at htya
      simp only [AExp.grammatical, hAa, Bool.and_eq_true, Bool.not_eq_true', if_true] at hg
      obtain ⟨⟨hgl, hgr⟩, hra⟩ := hg
      simp only [AExp.litsInWord, Bool.and_eq_true] at hw
      have hdl : l.depth ≤ 16 := by
        simp only [AExp.depth] at hdep
        have := le_max_left l.depth r.depth; omega
      have hdr : r.depth ≤ 16 := by
        simp only [AExp.depth] at hdep
        have := le_max_right l.depth r.depth; omega
      have hn1 := toks_length_pos l
      have hn2 := toks_length_pos r
      have hlenA : (AExp.bin aop l r).toks.length = l.toks.length + r.toks.length + 1 := by
        simp only [AExp.toks, List.length_append, List.length_cons]; omega
      rw [hlenA] at hlen hf hty ⊢
      push_cast at hlen hty ⊢
      have hpb : inTokens p := ⟨hp, by omega⟩
      have hqb : inTokens (p + ((l.toks.length : Int) + r.toks.length + 1)) :=
        ⟨by omega, by omega⟩
      have hcp := check_parentheses_no_rb tokens p _ hpb hqb
        (by rw [hty]; cases op <;> decide)
      have hop : op_idx tokens p (p + ((l.toks.length : Int) + r.toks.length + 1)) =
          .ok (p + l.toks.length) := by
        unfold op_idx
        have h := op_scan tokens (p + ((l.toks.length : Int) + r.toks.length + 1))
          (AExp.bin aop l r) p (p, 2)
          ((p + ((l.toks.length : Int) + r.toks.length + 1) + 1 - p).toNat + 1) hlA hp
          (by rw [hlenA]; push_cast; omega) hdep (by rw [hlenA]; push_cast; omega) (by omega)
        simp only at h
        rw [hlenA] at h
        push_cast at h
        rw [h, op_idx_loop_op tokens _ _ _ _ _ op (le_refl _) hqb hty (by omega),
          op_idx_loop_done _ _ _ _ _ _ (by omega) (by omega)]
        rw [scanOps_add_root aop l r p p hgA hAa]
        simp [hoa]
      have hev1 := eval_arith_aux m tokens l p (p + l.toks.length - 1) (fuel - 1) hll hp
        (by omega) hgl hw.1 hdl (by omega) rfl
      have hlr2 : Laid tokens (p + l.toks.length + 1) (r.toks ++ [⟨op.type, []⟩]) := by
        rw [Laid_append]
        refine ⟨hlr, ⟨?_, fun h => ?_⟩, trivial⟩
        · have e1 : p + (l.toks.length : Int) + 1 + r.toks.length =
              p + ((l.toks.length : Int) + r.toks.length + 1) := by omega
          rw [e1]; exact hty
        · exfalso
          cases op <;> simp [BinOp.type] at h
      have hev2 := eval_trailing_root m tokens r op (p + l.toks.length + 1) (fuel - 1) hlr2
        (by omega) (by omega) hgr hw.2 hdr (by omega) (Or.inr hra)
      have e2 : p + (l.toks.length : Int) + 1 + r.toks.length =
          p + ((l.toks.length : Int) + r.toks.length + 1) := by omega
      rw [e2] at hev2
      have hfirst := toks_first_type tokens l p hll
      have hnd : (tokens p).type ≠ TK_DEREF := by
        rcases hfirst with h | h | h <;> (rw [h]; decide)
      cases fuel with
      | zero => omega
      | succ fuel =>
        simp only [Nat.add_sub_cancel] at hev1 hev2
        have h1 : ¬ (p > p + ((l.toks.length : Int) + r.toks.length + 1)) := by omega
        have h2 : ¬ (p = p + ((l.toks.length : Int) + r.toks.length + 1)) := by omega
        simp only [eval, h1, h2, if_false, hcp, tokenAt, hpb, if_true, hnd, false_and, hop,
          hev1, hev2, AExp.value]
        cases l.value with
        | none => rfl
        | some a =>
          cases r.value with
          | none => rfl
          | some b =>
            simp only []
            cases aop
            · rfl
            · rfl
            · simp [BinOp.additive] at hAa
            · simp [BinOp.additive] at hAa

theorem expr_trailing (m : Machine) (st : ExprState) (success : Bool) (A : AExp)
    (op : BinOp) (gaps : List Nat) (hg : A.grammatical = true) (hw : A.litsInWord = true)
    (hs : A.litsShort = true) (hdep : A.depth ≤ 16) (hlen : A.toks.length + 1 ≤ 64) :
    expr m st (spell gaps (A.toks ++ [⟨op.type, []⟩])) success =
      match A.value with
      | some _ => .error .assertFail
      | none => .error .divByZero := by
  have hol : ¬ isLit (⟨op.type, []⟩ : Token) := by
    cases op <;> simp [isLit, BinOp.type]
  have hlexo : Lexable [(⟨op.type, []⟩ : Token)] := by
    refine ⟨Or.inl ?_, by simp, trivial⟩
    cases op <;> simp [BinOp.type]
  have hlex := lexable_append _ _ _ (lexable_toks A hg hs) hlexo hol
  obtain ⟨st1, h1, h2, h3, _⟩ := make_token_spell st _ gaps hlex
    (by simp only [List.length_append, List.length_singleton]; omega)
  simp only [List.length_append, List.length_singleton] at h2
  push_cast at h2
  have h3full := h3
  rw [Laid_append] at h3
  obtain ⟨hlA, ⟨hty, _⟩, _⟩ := h3
  simp only [zero_add] at hty
  have hn := toks_length_pos A
  have hob : inTokens (A.toks.length : Int) := ⟨by omega, by omega⟩
  have hmd : mark_deref st1.nr_token (st1.nr_token.toNat + 1) 0 st1.tokens = .ok st1.tokens := by
    rw [mark_deref_scan st1.nr_token A 0 st1.tokens _ hlA (le_refl _) (by omega) (by omega)
      (by omega)]
    have hlast := toks_last_type st1.tokens A 0 hlA
    rw [zero_add] at hlast ⊢
    rw [mark_deref_binary st1.nr_token _ _ st1.tokens (by omega) hob (by omega) hlast
      (by omega)]
    exact mark_deref_done _ _ _ _ (by omega) (by omega)
  have hsp : expr_split m st1.tokens st1.nr_token (st1.nr_token.toNat + 1) 0 =
      eval m st1.tokens (st1.nr_token.toNat + 1) 0 (st1.nr_token - 1) := by
    rw [expr_split_scan m st1.tokens st1.nr_token A 0 _ hlA (le_refl _) (by omega) (by omega)
      (by omega)]
    rw [zero_add, expr_split_other m st1.tokens st1.nr_token _ _ (by omega) hob
      (by rw [hty]; cases op <;> decide) (by rw [hty]; cases op <;> decide)
      (by rw [hty]; cases op <;> decide) (by omega)]
    exact expr_split_done _ _ _ _ _ (by omega) (by omega)
  have hev := eval_trailing m st1.tokens A op 0 (st1.nr_token.toNat + 1) h3full (le_refl _)
    (by omega) hg hw hdep (by omega)
  have e1 : st1.nr_token - 1 = 0 + (A.toks.length : Int) := by omega
  rw [e1] at hsp
  simp only [expr, h1, hmd, hsp, hev]
  cases A.value with
  | none => rfl
  | some v => rfl

theorem expr_empty_brackets (m : Machine) (st : ExprState) (success : Bool)
    (gaps : List Nat) :
    expr m st (spell gaps [⟨TK_LB, []⟩, ⟨TK_RB, []⟩]) success = .error .assertFail := by
  have hlex : Lexable [(⟨TK_LB, []⟩ : Token), ⟨TK_RB, []⟩] := by
    refine ⟨Or.inl (by simp), ?_, Or.inl (by simp), by simp, trivial⟩
    intro t1 _ h
    simp [isLit] at h
  obtain ⟨st1, h1, h2, h3, _⟩ := make_token_spell st _ gaps hlex (by simp)
  obtain ⟨⟨ht0, _⟩, ⟨ht1, _⟩, _⟩ := h3
  simp only [zero_add] at ht1
  simp only at ht0 ht1
  simp only [List.length_cons, List.length_nil, zero_add] at h2
  have hb0 : inTokens 0 := by decide
  have hb1 : inTokens 1 := by decide
  have h4 : (TK_LB : Int) ≠ TK_MUL := by decide
  have h5 : (TK_RB : Int) ≠ TK_MUL := by decide
  have hmd : mark_deref st1.nr_token (st1.nr_token.toNat + 1) 0 st1.tokens = .ok st1.tokens := by
    rw [h2]
    simp [mark_deref, tokenAt, hb0, hb1, ht0, ht1]
  have hsp : expr_split m st1.tokens st1.nr_token (st1.nr_token.toNat + 1) 0 =
      .error .assertFail := by
    rw [h2]
    simp [expr_split, eval, check_parentheses, check_parentheses_loop, tokenAt, hb0, hb1, ht0,
      ht1, Function.update]
  simp only [expr, h1, hmd, hsp]
  rfl

theorem first_match_reg (c : Char) (name : List Char)
    (hs : ∀ d ∈ c :: name, isLowerAlnum d = true) :
    (first_match rules ('$' :: c :: name)).map (fun rn => (rn.1.token_type, rn.2)) =
      some (TK_REG, name.length + 2) := by
  have htw : List.takeWhile isLowerAlnum (c :: name ++ []) = c :: name :=
    takeWhile_run (c :: name) [] hs (by simp)
  simp only [List.append_nil] at htw
  have h1 : isDec '$' = false := by decide
  simp [first_match, rules, regexec, chr, h1, htw]

theorem expr_unknown_reg (m : Machine) (st : ExprState) (success : Bool) (name : List Char)
    (hne : name ≠ []) (hs : ∀ d ∈ name, isLowerAlnum d = true) (hlen : name.length ≤ 31)
    (hreg : m.isa_reg_str2val name = none) :
    expr m st ('$' :: name) success = .error .assertFail := by
  cases name with
  | nil => exact absurd rfl hne
  | cons c cs =>
    have hfm := first_match_reg c cs hs
    simp only [List.length_cons] at hlen
    have hrec : record_token ⟨st.tokens, 0⟩ TK_REG ('$' :: c :: cs) (cs.length + 2) =
        .ok ⟨Function.update st.tokens 0 ⟨TK_REG, c :: cs⟩, 1⟩ := by
      have hb0 : inTokens 0 := by decide
      have hl : cs.length + 2 - 1 < 32 := by omega
      have hl2 : cs.length < 31 := by omega
      have ht : List.take (cs.length + 1) (c :: cs) = c :: cs := List.take_of_length_le (by simp)
      simp [record_token, hb0, hl, hl2, ht]
    have hstep := make_token_loop_step (('$' :: c :: cs).length + 1) '$' (c :: cs) 0
      ⟨st.tokens, 0⟩ _ TK_REG (cs.length + 2) (by decide) hfm hrec (by simp)
    have hd : List.drop (cs.length + 2) ('$' :: c :: cs) = [] :=
      List.drop_of_length_le (by simp)
    rw [hd, make_token_loop_nil _ _ _ (by omega)] at hstep
    have hb0 : inTokens 0 := by decide
    unfold expr make_token
    rw [hstep]
    simp [mark_deref, expr_split, eval, tokenAt, hb0, hreg]

/-- C4 (as amended): on a text that tokenizes and has an empty operand range
or an unknown register, `expr` does not return a failed result: `eval` aborts
on `assert(0)`. This holds for every well-formed arithmetic expression (within
the bounds of C1) followed by a trailing binary operator, for the empty
bracket pair `()`, and for every register name of at most 31 characters that
the lookup does not know, whatever the spacing, the machine and the earlier
content of the token array. -/
theorem C4_malformed_input_aborts (m : Machine) (st : ExprState) (success : Bool) :
    (∀ (A : AExp) (op : BinOp) (gaps : List Nat) (v : Nat), A.grammatical = true →
      A.litsInWord = true → A.litsShort = true → A.depth ≤ 16 → A.toks.length + 1 ≤ 64 →
      A.value = some v →
      expr m st (spell gaps (A.toks ++ [⟨op.type, []⟩])) success = .error .assertFail) ∧
    (∀ gaps : List Nat,
      expr m st (spell gaps [⟨TK_LB, []⟩, ⟨TK_RB, []⟩]) success = .error .assertFail) ∧
    (∀ name : List Char, name ≠ [] → (∀ d ∈ name, isLowerAlnum d = true) →
      name.length ≤ 31 → m.isa_reg_str2val name = none →
      expr m st ('$' :: name) success = .error .assertFail) := by
  refine ⟨?_, ?_, ?_⟩
  · intro A op gaps v hg hw hs hdep hlen hv
    have h := expr_trailing m st success A op gaps hg hw hs hdep hlen
    rw [hv] at h
    exact h
  · intro gaps
    exact expr_empty_brackets m st success gaps
  · intro name hne hs hlen hreg
    exact expr_unknown_reg m st success name hne hs hlen hreg

/-- C4, witness: `1+`, `()` and `$pc` (a register the example machine does not
know) each abort. -/
theorem C4_malformed_input_aborts_witness :
    (spell [] ((AExp.dec ['1']).toks ++ [⟨BinOp.add.type, []⟩]) = "1+".toList ∧
      expr demoMachine ExprState.init
        (spell [] ((AExp.dec ['1']).toks ++ [⟨BinOp.add.type, []⟩])) true =
        .error .assertFail) ∧
    (spell [] [⟨TK_LB, []⟩, ⟨TK_RB, []⟩] = "()".toList ∧
      expr demoMachine ExprState.init (spell [] [⟨TK_LB, []⟩, ⟨TK_RB, []⟩]) true =
        .error .assertFail) ∧
    (demoMachine.isa_reg_str2val ['p', 'c'] = none ∧
      expr demoMachine ExprState.init ('$' :: ['p', 'c']) true = .error .assertFail) :=
  ⟨⟨by decide, (C4_malformed_input_aborts demoMachine ExprState.init true).1 (.dec ['1']) .add
      [] 1 (by decide) (by decide) (by decide) (by decide) (by decide) (by decide)⟩,
   ⟨by decide, (C4_malformed_input_aborts demoMachine ExprState.init true).2.1 []⟩,
   ⟨rfl, (C4_malformed_input_aborts demoMachine ExprState.init true).2.2 ['p', 'c']
      (by decide) (by decide) (by decide) rfl⟩⟩

/-- C4 as stated fails: on `1+`, on `()` and on the unknown register `$pc`
the call ends in `assert(0)`, and on `(1+2` (token array as at program start)
the bracket search of `op_idx` runs past the end of `tokens[64]`; in no case
does `expr` return with `success = false`. -/
theorem C4_counterexample_abort :
    faultOf (expr demoMachine ExprState.init "1+".toList true) = some Fault.assertFail ∧
    faultOf (expr demoMachine ExprState.init "()".toList true) = some Fault.assertFail ∧
    faultOf (expr demoMachine ExprState.init "$pc".toList true) = some Fault.assertFail ∧
    faultOf (expr demoMachine ExprState.init "(1+2".toList true) = some Fault.outOfBounds := by
  decide

/-! ## C5: division by zero -/

/-- C5 (what the code does): for every parse tree of the arithmetic grammar
within the bounds of C1 in which some division has a divisor that evaluates to
0 (`value e = none`), `expr` executes the division by zero: the call ends in
the fault `divByZero`, not in a result with `success = false`. -/
theorem C5_division_by_zero_unguarded (m : Machine) (st : ExprState) (success : Bool)
    (e : AExp) (gaps : List Nat) (hg : e.grammatical = true) (hw : e.litsInWord = true)
    (hs : e.litsShort = true) (hdep : e.depth ≤ 16) (hlen : e.toks.length ≤ 64)
    (hv : e.value = none) :
    expr m st (spell gaps e.toks) success = .error .divByZero := by
  obtain ⟨st1, _, _, h⟩ := expr_arith m st success e gaps hg hw hs hdep hlen
  rw [hv] at h
  exact h

/-- C5, the inputs of the claim: `1/0` and `5/(2-2)` both end in the division
by zero. -/
theorem C5_division_by_zero_unguarded_witness :
    (spell [] one_by_zero.toks = "1/0".toList ∧
      expr demoMachine ExprState.init (spell [] one_by_zero.toks) true =
        .error .divByZero) ∧
    (spell [] five_by_difference.toks = "5/(2-2)".toList ∧
      expr demoMachine ExprState.init (spell [] five_by_difference.toks) true =
        .error .divByZero) :=
  ⟨⟨by decide, C5_division_by_zero_unguarded demoMachine ExprState.init true one_by_zero []
      (by decide) (by decide) (by decide) (by decide) (by decide) (by decide)⟩,
   ⟨by decide, C5_division_by_zero_unguarded demoMachine ExprState.init true
      five_by_difference [] (by decide) (by decide) (by decide) (by decide) (by decide)
      (by decide)⟩⟩

/-! ## C6: lexing failure -/

theorem record_token_fault (st : ExprState) (ty : Int) (s : List Char) (n : Nat)
    (f : Fault) (h : record_token st ty s n = .error f) : f = .outOfBounds := by
  unfold record_token at h
  split_ifs at h <;> (simp at h; exact h.symm)

theorem make_token_loop_fault : ∀ (fuel : Nat) (rest : List Char) (position : Int)
    (st : ExprState) (f : Fault), rest.length < fuel →
    make_token_loop fuel rest position st = .error f → f = .outOfBounds := by
  intro fuel
  induction fuel with
  | zero => intro rest position st f h; omega
  | succ fuel ih =>
    intro rest position st f hf h
    cases rest with
    | nil => simp [make_token_loop] at h
    | cons c cs =>
      simp only [make_token_loop] at h
      split at h
      · simp at h
      · cases hfm : first_match rules (c :: cs) with
        | none => simp [hfm] at h
        | some rn =>
          obtain ⟨r, n⟩ := rn
          have hn := first_match_pos _ _ _ hfm
          simp only [hfm] at h
          cases hrec : record_token st r.token_type (c :: cs) n with
          | error f1 =>
            simp only [hrec, Except.error.injEq] at h
            subst h
            exact record_token_fault _ _ _ _ _ hrec
          | ok st1 =>
            simp only [hrec] at h
            exact ih _ _ _ _ (by simp only [List.length_drop, List.length_cons] at *; omega) h

theorem scanFrom_end (e : List Char) (p q : Nat)
    (hend : ∀ c cs, e.drop p = c :: cs → c.toNat = 0) (h : ScanFrom e p q) : q = p := by
  cases h with
  | here => rfl
  | step _ n _ r c cs h1 h2 _ _ => exact absurd (hend c cs h1) h2

theorem scanFrom_nomatch (e : List Char) (p q : Nat) (c : Char) (cs : List Char)
    (hd : e.drop p = c :: cs) (hfm : first_match rules (c :: cs) = none)
    (h : ScanFrom e p q) : q = p := by
  cases h with
  | here => rfl
  | step _ n _ r c1 cs1 h1 _ h3 _ =>
    rw [hd] at h1
    rw [← h1, hfm] at h3
    simp at h3

theorem make_token_loop_scan (e : List Char) : ∀ (fuel : Nat) (rest : List Char) (pos : Nat)
    (st : ExprState) (lx : Lexed), rest = e.drop pos →
    make_token_loop fuel rest (pos : Int) st = .ok lx →
    ∃ p : Nat, lx.position = (p : Int) ∧ ScanFrom e pos p ∧
      (lx.ret = false → NoRuleAt e p ∧ ∀ q, ScanFrom e pos q → NoRuleAt e q → q = p) ∧
      (lx.ret = true → ∀ q, ScanFrom e pos q → ¬ NoRuleAt e q) := by
  intro fuel
  induction fuel with
  | zero => intro rest pos st lx _ h; simp [make_token_loop] at h
  | succ fuel ih =>
    intro rest pos st lx hrest h
    cases rest with
    | nil =>
      simp only [make_token_loop, Except.ok.injEq] at h
      subst h
      refine ⟨pos, rfl, ScanFrom.here pos, by simp, fun _ q hq hno => ?_⟩
      have hend : ∀ c cs, e.drop pos = c :: cs → c.toNat = 0 := by
        intro c cs hc; rw [← hrest] at hc; simp at hc
      have := scanFrom_end e pos q hend hq
      subst this
      obtain ⟨c, cs, h1, _, _⟩ := hno
      rw [← hrest] at h1
      simp at h1
    | cons c cs =>
      simp only [make_token_loop] at h
      by_cases hc : c.toNat = 0
      · simp only [hc, if_true, Except.ok.injEq] at h
        subst h
        refine ⟨pos, rfl, ScanFrom.here pos, by simp, fun _ q hq hno => ?_⟩
        have hend : ∀ c1 cs1, e.drop pos = c1 :: cs1 → c1.toNat = 0 := by
          intro c1 cs1 hc1
          rw [← hrest] at hc1
          simp only [List.cons.injEq] at hc1
          rw [← hc1.1]; exact hc
        have := scanFrom_end e pos q hend hq
        subst this
        obtain ⟨c1, cs1, h1, h2, _⟩ := hno
        exact h2 (hend c1 cs1 h1)
      · simp only [hc, if_false] at h
        cases hfm : first_match rules (c :: cs) with
        | none =>
          simp only [hfm, Except.ok.injEq] at h
          subst h
          refine ⟨pos, rfl, ScanFrom.here pos, fun _ => ⟨⟨c, cs, hrest.symm, hc, hfm⟩, ?_⟩,
            by simp⟩
          intro q hq _
          exact scanFrom_nomatch e pos q c cs hrest.symm hfm hq
        | some rn =>
          obtain ⟨r, n⟩ := rn
          simp only [hfm] at h
          cases hrec : record_token st r.token_type (c :: cs) n with
          | error f1 => simp [hrec] at h
          | ok st1 =>
            simp only [hrec] at h
            have hd : List.drop n (c :: cs) = e.drop (pos + n) := by
              rw [hrest, List.drop_drop, Nat.add_comm]
            have h' : make_token_loop fuel (List.drop n (c :: cs)) ((pos + n : Nat) : Int) st1 =
                .ok lx := by
              push_cast; exact h
            obtain ⟨p, hp1, hp2, hp3, hp4⟩ := ih _ (pos + n) st1 lx hd h'
            have hsplit : ∀ q, ScanFrom e pos q → q = pos ∨ ScanFrom e (pos + n) q := by
              intro q hq
              cases hq with
              | here => exact Or.inl rfl
              | step _ n1 _ r1 c1 cs1 h1 _ h3 h4 =>
                rw [← hrest] at h1
                rw [← h1, hfm] at h3
                simp only [Option.some.injEq, Prod.mk.injEq] at h3
                rw [h3.2]
                exact Or.inr h4
            have hmatch : ¬ NoRuleAt e pos := by
              rintro ⟨c1, cs1, h1, _, h3⟩
              rw [← hrest] at h1
              rw [← h1, hfm] at h3
              simp at h3
            refine ⟨p, hp1, ScanFrom.step pos n p r c cs hrest.symm hc hfm hp2, ?_, ?_⟩
            · intro hret
              refine ⟨(hp3 hret).1, fun q hq hno => ?_⟩
              rcases hsplit q hq with h1 | h1
              · subst h1; exact absurd hno hmatch
              · exact (hp3 hret).2 q h1 hno
            · intro hret q hq
              rcases hsplit q hq with h1 | h1
              · subst h1; exact hmatch
              · exact hp4 hret q h1

theorem make_token_loop_fits : ∀ (fuel : Nat) (rest : List Char) (position : Int)
    (st : ExprState), 0 ≤ st.nr_token →
    st.nr_token + (recorded fuel rest).length ≤ 64 →
    (∀ x ∈ recorded fuel rest,
      ((x.1 = TK_NUM ∨ x.1 = TK_HEX) → x.2 ≤ 31) ∧ (x.1 = TK_REG → x.2 - 1 ≤ 31)) →
    rest.length < fuel →
    ∃ lx, make_token_loop fuel rest position st = .ok lx := by
  intro fuel
  induction fuel with
  | zero => intro rest position st _ _ _ hf; omega
  | succ fuel ih =>
    intro rest position st hnr hlen hok hf
    cases rest with
    | nil => exact ⟨_, rfl⟩
    | cons c cs =>
      by_cases hc : c.toNat = 0
      · exact ⟨_, by simp only [make_token_loop, hc, if_true]; rfl⟩
      · cases hfm : first_match rules (c :: cs) with
        | none => exact ⟨_, by simp only [make_token_loop, hc, if_false, hfm]; rfl⟩
        | some rn =>
          obtain ⟨r, n⟩ := rn
          have hn := first_match_pos (c :: cs) r n hfm
          have hdrop : ((c :: cs).drop n).length < fuel := by
            simp only [List.length_drop, List.length_cons] at hf ⊢; omega
          have hrec : recorded (fuel + 1) (c :: cs) =
              if is_recorded r.token_type then
                (r.token_type, n) :: recorded fuel ((c :: cs).drop n)
              else recorded fuel ((c :: cs).drop n) := by
            simp only [recorded, hc, if_false, hfm]
          rw [hrec] at hlen hok
          simp only [make_token_loop, hc, if_false, hfm]
          by_cases hr : is_recorded r.token_type = true
          · simp only [hr, if_true, List.length_cons, List.mem_cons, forall_eq_or_imp] at hlen hok
            push_cast at hlen
            have hin : inTokens st.nr_token := ⟨hnr, by omega⟩
            obtain ⟨hx, hrest⟩ := hok
            have hstep : ∃ st1, record_token st r.token_type (c :: cs) n = .ok st1 ∧
                st1.nr_token = st.nr_token + 1 := by
              unfold record_token
              by_cases h1 : r.token_type = TK_PLUS ∨ r.token_type = TK_MINUS ∨
                  r.token_type = TK_MUL ∨ r.token_type = TK_DIV ∨ r.token_type = TK_LB ∨
                  r.token_type = TK_RB ∨ r.token_type = TK_EQ ∨ r.token_type = TK_NEQ ∨
                  r.token_type = TK_AND
              · exact ⟨_, by simp only [h1, if_true, hin]; rfl, rfl⟩
              · by_cases h2 : r.token_type = TK_NUM ∨ r.token_type = TK_HEX
                · have h3 : n < 32 := by have := hx.1 h2; omega
                  exact ⟨_, by simp only [h1, if_false, h2, if_true, hin, h3, and_self]; rfl, rfl⟩
                · by_cases h4 : r.token_type = TK_REG
                  · have h3 : n - 1 < 32 := by have := hx.2 h4; omega
                    exact ⟨_, by simp only [h1, if_false, h2, h4, if_true, hin, h3, and_self]; rfl,
                      rfl⟩
                  · exfalso
                    simp only [is_recorded, decide_eq_true_eq] at hr
                    rcases hr with h | h | h | h | h | h | h | h | h | h | h | h <;>
                      first
                        | exact h4 h
                        | exact h2 (Or.inl h)
                        | exact h2 (Or.inr h)
                        | exact h1 (by simp [h])
            obtain ⟨st1, hst1, hnr1⟩ := hstep
            rw [hst1]
            exact ih _ _ st1 (by omega) (by omega) hrest hdrop
          · simp only [hr, if_false] at hlen hok
            have hst : record_token st r.token_type (c :: cs) n = .ok st := by
              simp only [is_recorded, decide_eq_true_eq, not_or] at hr
              obtain ⟨a1, a2, a3, a4, a5, a6, a7, a8, a9, a10, a11, a12⟩ := hr
              unfold record_token
              simp only [a1, a2, a3, a4, a5, a6, a7, a8, a9, a10, a11, a12, or_self, if_false]
            rw [hst]
            exact ih _ _ st hnr hlen hok hdrop

theorem make_token_fits (st : ExprState) (e : List Char) (hfit : fits_buffers e) :
    ∃ lx, make_token st e = .ok lx := by
  unfold make_token
  exact make_token_loop_fits (e.length + 1) e 0 ⟨st.tokens, 0⟩ (le_refl _)
    (by have := hfit.1; simp only; omega) hfit.2 (by omega)

/-- C6 (as amended): for every text that stays within the buffers (its scan
records at most 64 tokens and no literal or register text longer than 31
characters), every earlier content of the token array and every machine,
`make_token` returns. The offset `p` it stops at is a scan position; it
returns `false` exactly when some scan position has no matching rule (the
text not having ended there); in that case `p` is that position, the only
such one, and `expr` returns the value 0 with `success = false`; when a rule
matches at every scan position it returns `true`. -/
theorem C6_make_token_failure (m : Machine) (st : ExprState) (e : List Char)
    (success : Bool) (hfit : fits_buffers e) :
    ∃ (lx : Lexed) (p : Nat), make_token st e = .ok lx ∧ lx.position = (p : Int) ∧
      ScanPos e p ∧
      (lx.ret = false ↔ ∃ q, ScanPos e q ∧ NoRuleAt e q) ∧
      (lx.ret = false →
        NoRuleAt e p ∧ (∀ q, ScanPos e q → NoRuleAt e q → q = p) ∧
        expr m st e success = .ok ⟨0, false, lx.st⟩) ∧
      ((∀ q, ScanPos e q → ¬ NoRuleAt e q) → lx.ret = true) := by
  obtain ⟨lx, hmt⟩ := make_token_fits st e hfit
  obtain ⟨p, hp1, hp2, hp3, hp4⟩ := make_token_loop_scan e (e.length + 1) e 0 ⟨st.tokens, 0⟩ lx
    (by simp) hmt
  refine ⟨lx, p, hmt, hp1, hp2, ⟨fun h => ⟨p, hp2, (hp3 h).1⟩, ?_⟩, fun h => ⟨(hp3 h).1,
    (hp3 h).2, ?_⟩, ?_⟩
  · rintro ⟨q, hq1, hq2⟩
    cases hret : lx.ret with
    | false => rfl
    | true => exact absurd hq2 (hp4 hret q hq1)
  · simp only [expr, hmt, h, if_true]
  · intro hall
    cases hret : lx.ret with
    | true => rfl
    | false => exact absurd (hp3 hret).1 (hall p hp2)

/-- C6, witness: `1 @` stays within the buffers; the scan stops at offset 2,
where no rule matches, `make_token` returns `false` and `expr` returns 0 with
the success flag cleared. -/
theorem C6_make_token_failure_witness :
    fits_buffers "1 @".toList ∧
    ∃ lx, make_token ExprState.init "1 @".toList = .ok lx ∧ lx.ret = false ∧
      lx.position = 2 ∧ NoRuleAt "1 @".toList 2 ∧
      expr demoMachine ExprState.init "1 @".toList true = .ok ⟨0, false, lx.st⟩ := by
  have hval : lexOf (make_token ExprState.init "1 @".toList) = some (false, 2) := by decide
  obtain ⟨lx, p, h1, h2, _, _, h5, _⟩ :=
    C6_make_token_failure demoMachine ExprState.init "1 @".toList true (by decide)
  rw [h1] at hval
  simp only [lexOf, Option.some.injEq, Prod.mk.injEq] at hval
  obtain ⟨hr, hpos⟩ := hval
  have hp : p = 2 := by rw [h2] at hpos; exact_mod_cast hpos
  subst hp
  exact ⟨by decide, lx, h1, hr, hpos, (h5 hr).1, (h5 hr).2.2⟩

/-! ## The watchpoint pool -/

theorem isChain_iff_isSeg (pool : Nat → WP) : ∀ (l : List Nat) (p : Option Nat),
    IsChain pool p l ↔ IsSeg pool p l none := by
  intro l
  induction l with
  | nil => intro p; rfl
  | cons i l ih => intro p; simp only [IsChain, IsSeg, ih]

theorem isSeg_append (pool : Nat → WP) : ∀ (a b : List Nat) (p q : Option Nat),
    IsSeg pool p (a ++ b) q ↔ ∃ mid, IsSeg pool p a mid ∧ IsSeg pool mid b q := by
  intro a
  induction a with
  | nil =>
    intro b p q
    simp only [List.nil_append, IsSeg]
    constructor
    · intro h; exact ⟨p, rfl, h⟩
    · rintro ⟨mid, rfl, h⟩; exact h
  | cons i a ih =>
    intro b p q
    show (p = some i ∧ IsSeg pool (pool i).next (a ++ b) q) ↔
      ∃ mid, (p = some i ∧ IsSeg pool (pool i).next a mid) ∧ IsSeg pool mid b q
    rw [ih]
    constructor
    · rintro ⟨h1, mid, h2, h3⟩; exact ⟨mid, ⟨h1, h2⟩, h3⟩
    · rintro ⟨mid, ⟨h1, h2⟩, h3⟩; exact ⟨h1, mid, h2, h3⟩

theorem isSeg_congr (pool pool1 : Nat → WP) : ∀ (l : List Nat) (p q : Option Nat),
    (∀ i ∈ l, (pool1 i).next = (pool i).next) → IsSeg pool p l q → IsSeg pool1 p l q := by
  intro l
  induction l with
  | nil => intro p q _ h; exact h
  | cons i l ih =>
    intro p q hc h
    obtain ⟨h1, h2⟩ := h
    refine ⟨h1, ?_⟩
    rw [hc i (List.mem_cons_self _ _)]
    exact ih _ _ (fun j hj => hc j (List.mem_cons_of_mem _ hj)) h2

theorem isChain_congr (pool pool1 : Nat → WP) (l : List Nat) (p : Option Nat)
    (hc : ∀ i ∈ l, (pool1 i).next = (pool i).next) (h : IsChain pool p l) :
    IsChain pool1 p l := by
  rw [isChain_iff_isSeg] at h ⊢
  exact isSeg_congr pool pool1 l p none hc h

theorem init_wp_pool_loop_spec : ∀ (k i : Nat) (pool : Nat → WP) (j : Nat),
    init_wp_pool_loop k i pool j =
      if i ≤ j ∧ j < i + k then
        ⟨(j : Int), if j = NR_WP - 1 then none else some (j + 1), (pool j).expression,
          (pool j).last_val, 1⟩
      else pool j := by
  intro k
  induction k with
  | zero =>
    intro i pool j
    simp only [init_wp_pool_loop]
    rw [if_neg (by omega)]
  | succ k ih =>
    intro i pool j
    simp only [init_wp_pool_loop]
    rw [ih]
    by_cases hj : j = i
    · subst hj
      have h1 : ¬ (j + 1 ≤ j ∧ j < j + 1 + k) := by omega
      have h2 : j ≤ j ∧ j < j + (k + 1) := by omega
      simp only [h1, h2, if_false, if_true, Function.update_same, and_self]
    · rw [Function.update_noteq hj]
      by_cases h : i + 1 ≤ j ∧ j < i + 1 + k
      · have h2 : i ≤ j ∧ j < i + (k + 1) := by omega
        simp only [h, h2, and_self, if_true]
      · have h2 : ¬ (i ≤ j ∧ j < i + (k + 1)) := by omega
        simp only [h, h2, if_false]

theorem isChain_range (pool : Nat → WP)
    (hn : ∀ j, j < NR_WP → (pool j).next = if j = NR_WP - 1 then none else some (j + 1)) :
    ∀ (k i : Nat), i + k = NR_WP → 0 < k → IsChain pool (some i) (List.range' i k) := by
  have hN : NR_WP = 32 := rfl
  intro k
  induction k with
  | zero => intro i _ h; omega
  | succ k ih =>
    intro i hik _
    rw [List.range'_succ]
    refine ⟨rfl, ?_⟩
    rw [hn i (by omega)]
    by_cases hk : k = 0
    · subst hk
      rw [if_pos (by omega)]
      rfl
    · rw [if_neg (by omega)]
      exact ih (i + 1) (by omega) (by omega)

theorem poolInv_init (st0 : WpState) : PoolInv (init_wp_pool st0) (List.range NR_WP) [] := by
  have hN : NR_WP = 32 := rfl
  have hspec := init_wp_pool_loop_spec NR_WP 0 st0.wp_pool
  refine ⟨?_, rfl, ?_, ?_, ?_⟩
  · rw [List.range_eq_range']
    apply isChain_range _ _ NR_WP 0 (by omega) (by decide)
    intro j hj
    show (init_wp_pool_loop NR_WP 0 st0.wp_pool j).next = _
    rw [hspec j, if_pos (by omega)]
  · rw [List.append_nil]; exact List.nodup_range _
  · intro i; rw [List.append_nil]; exact List.mem_range
  · intro i hi
    show (init_wp_pool_loop NR_WP 0 st0.wp_pool i).NO = _
    rw [hspec i, if_pos (by omega)]

theorem poolInv_congr (st st1 : WpState) (fl al : List Nat)
    (hp : ∀ i, (st1.wp_pool i).next = (st.wp_pool i).next ∧ (st1.wp_pool i).NO = (st.wp_pool i).NO)
    (hh : st1.head = st.head) (hf : st1.free_ = st.free_) (h : PoolInv st fl al) :
    PoolInv st1 fl al := by
  obtain ⟨h1, h2, h3, h4, h5⟩ := h
  refine ⟨?_, ?_, h3, h4, fun i hi => by rw [(hp i).2]; exact h5 i hi⟩
  · rw [hf]; exact isChain_congr _ _ _ _ (fun i _ => (hp i).1) h1
  · rw [hh]; exact isChain_congr _ _ _ _ (fun i _ => (hp i).1) h2

theorem poolInv_new_wp (st : WpState) (r : Nat) (fl al : List Nat)
    (h : PoolInv st (r :: fl) al) :
    (new_wp st).1 = .ok r ∧ PoolInv (new_wp st).2 fl (r :: al) ∧
      (∀ i, ((new_wp st).2.wp_pool i).NO = (st.wp_pool i).NO ∧
        ((new_wp st).2.wp_pool i).alarm_time = (st.wp_pool i).alarm_time ∧
        ((new_wp st).2.wp_pool i).expression = (st.wp_pool i).expression ∧
        ((new_wp st).2.wp_pool i).last_val = (st.wp_pool i).last_val) := by
  obtain ⟨h1, h2, h3, h4, h5⟩ := h
  obtain ⟨hf, hfl⟩ := h1
  have hnd : ∀ j ∈ fl ++ al, j ≠ r := by
    intro j hj hjr
    subst hjr
    simp only [List.cons_append, List.nodup_cons] at h3
    exact h3.1 hj
  have hres : new_wp st = (.ok r,
      ⟨Function.update st.wp_pool r ((st.wp_pool r).setNext st.head), some r,
        (st.wp_pool r).next⟩) := by
    simp only [new_wp, hf]
  rw [hres]
  refine ⟨rfl, ⟨?_, ⟨rfl, ?_⟩, ?_, ?_, ?_⟩, ?_⟩
  · apply isChain_congr st.wp_pool _ _ _ _ hfl
    intro i hi
    show (Function.update st.wp_pool r _ i).next = _
    rw [Function.update_noteq (hnd i (List.mem_append_left _ hi))]
  · show IsChain _ (Function.update st.wp_pool r _ r).next al
    rw [Function.update_same]
    apply isChain_congr st.wp_pool _ _ _ _ h2
    intro i hi
    show (Function.update st.wp_pool r _ i).next = _
    rw [Function.update_noteq (hnd i (List.mem_append_right _ hi))]
  · have : (fl ++ r :: al).Perm (r :: fl ++ al) := by
      exact List.perm_middle
    exact (List.Perm.nodup_iff this).2 h3
  · intro i
    rw [← h4 i]
    simp only [List.mem_append, List.mem_cons]
    tauto
  · intro i hi
    show (Function.update st.wp_pool r _ i).NO = _
    by_cases hir : i = r
    · subst hir; simp only [Function.update_same, WP.setNext]; exact h5 i hi
    · rw [Function.update_noteq hir]; exact h5 i hi
  · intro i
    show (Function.update st.wp_pool r _ i).NO = _ ∧ (Function.update st.wp_pool r _ i).alarm_time = _
      ∧ (Function.update st.wp_pool r _ i).expression = _ ∧
      (Function.update st.wp_pool r _ i).last_val = _
    by_cases hir : i = r
    · subst hir; simp [WP.setNext]
    · rw [Function.update_noteq hir]
      simp

theorem new_wp_exhausted (st : WpState) (al : List Nat) (h : PoolInv st [] al) :
    new_wp st = (.error .assertFail, st) := by
  obtain ⟨h1, _⟩ := h
  simp only [IsChain] at h1
  simp only [new_wp, h1]

theorem free_wp_loop_found (st : WpState) (no : Int) (w : Nat) :
    ∀ (r1 : List Nat) (wp : Option Nat) (prev fuel : Nat),
    IsSeg st.wp_pool wp r1 (some w) → (∀ x ∈ r1, (st.wp_pool x).NO ≠ no) →
    (st.wp_pool w).NO = no → r1.length < fuel →
    free_wp_loop no fuel st wp prev =
      (.ok .freed, unlinked st ((prev :: r1).getLast (List.cons_ne_nil _ _)) w) := by
  intro r1
  induction r1 with
  | nil =>
    intro wp prev fuel hseg _ hw hf
    simp only [IsSeg] at hseg
    cases fuel with
    | zero => simp at hf
    | succ fuel =>
      simp only [free_wp_loop, hseg, hw, if_true, List.getLast_singleton]
      rfl
  | cons x r1 ih =>
    intro wp prev fuel hseg hne hw hf
    obtain ⟨h1, h2⟩ := hseg
    cases fuel with
    | zero => simp at hf
    | succ fuel =>
      have hx := hne x (List.mem_cons_self _ _)
      simp only [free_wp_loop, h1, hx, if_false]
      rw [ih _ x fuel h2 (fun y hy => hne y (List.mem_cons_of_mem _ hy)) hw
        (by simp only [List.length_cons] at hf; omega)]
      rw [List.getLast_cons_cons]

theorem free_wp_loop_missing (st : WpState) (no : Int) :
    ∀ (rest : List Nat) (wp : Option Nat) (prev fuel : Nat),
    IsSeg st.wp_pool wp rest none → (∀ x ∈ rest, (st.wp_pool x).NO ≠ no) →
    rest.length < fuel → free_wp_loop no fuel st wp prev = (.ok .wrongNO, st) := by
  intro rest
  induction rest with
  | nil =>
    intro wp prev fuel hseg _ hf
    simp only [IsSeg] at hseg
    cases fuel with
    | zero => simp at hf
    | succ fuel => simp only [free_wp_loop, hseg]
  | cons x rest ih =>
    intro wp prev fuel hseg hne hf
    obtain ⟨h1, h2⟩ := hseg
    cases fuel with
    | zero => simp at hf
    | succ fuel =>
      have hx := hne x (List.mem_cons_self _ _)
      simp only [free_wp_loop, h1, hx, if_false]
      exact ih _ x fuel h2 (fun y hy => hne y (List.mem_cons_of_mem _ hy))
        (by simp only [List.length_cons] at hf; omega)

theorem isSeg_relink (pool pool1 : Nat → WP) (w : Nat) (q : Option Nat) :
    ∀ (a : List Nat) (ha : a ≠ []) (p : Option Nat), IsSeg pool p a (some w) →
    a.Nodup → (∀ i ∈ a, i ≠ a.getLast ha → (pool1 i).next = (pool i).next) →
    (pool1 (a.getLast ha)).next = q → IsSeg pool1 p a q := by
  intro a
  induction a with
  | nil => intro ha; exact absurd rfl ha
  | cons x a ih =>
    intro ha p hseg hnd hc hlast
    obtain ⟨h1, h2⟩ := hseg
    cases a with
    | nil =>
      simp only [List.getLast_singleton] at hlast
      exact ⟨h1, hlast⟩
    | cons y a =>
      refine ⟨h1, ?_⟩
      have hxl : x ≠ (x :: y :: a).getLast ha := by
        rw [List.getLast_cons_cons]
        intro h
        have hm : x ∈ y :: a := by rw [h]; exact List.getLast_mem _
        exact (List.nodup_cons.1 hnd).1 hm
      rw [hc x (List.mem_cons_self _ _) hxl]
      apply ih (List.cons_ne_nil _ _) _ h2 (List.nodup_cons.1 hnd).2
      · intro i hi hil
        apply hc i (List.mem_cons_of_mem _ hi)
        rw [List.getLast_cons_cons]
        exact hil
      · rw [List.getLast_cons_cons] at hlast
        exact hlast

theorem unlinked_pool (st : WpState) (prev w : Nat) (hne : prev ≠ w) (i : Nat) :
    (unlinked st prev w).wp_pool i =
      if i = w then ⟨(st.wp_pool w).NO, st.free_, (st.wp_pool w).expression,
        (st.wp_pool w).last_val, 1⟩
      else if i = prev then (st.wp_pool prev).setNext (st.wp_pool w).next
      else st.wp_pool i := by
  simp only [unlinked]
  by_cases hi : i = w
  · subst hi
    simp [WP.setNext, WP.setAlarm, Function.update_noteq (Ne.symm hne)]
  · rw [Function.update_noteq hi, Function.update_noteq hi, if_neg hi]
    by_cases hp : i = prev
    · subst hp; simp
    · rw [Function.update_noteq hp, if_neg hp]

theorem poolInv_unlink (st : WpState) (fl a : List Nat) (w : Nat) (r2 : List Nat)
    (ha : a ≠ []) (h : PoolInv st fl (a ++ w :: r2)) :
    PoolInv (unlinked st (a.getLast ha) w) (w :: fl) (a ++ r2) := by
  obtain ⟨h1, h2, h3, h4, h5⟩ := h
  have hlm : a.getLast ha ∈ a := List.getLast_mem ha
  have hnd := h3
  rw [List.nodup_append] at hnd
  obtain ⟨hnfl, hnal, hdis⟩ := hnd
  rw [List.nodup_append] at hnal
  obtain ⟨hna, hnw, hdis2⟩ := hnal
  have hwa : w ∉ a := fun hm => hdis2 hm (List.mem_cons_self _ _) 
  have hwr : w ∉ r2 := (List.nodup_cons.1 hnw).1
  have hwf : w ∉ fl := fun hm =>
    hdis hm (List.mem_append_right _ (List.mem_cons_self _ _))
  have hpw : a.getLast ha ≠ w := fun h => hwa (h ▸ hlm)
  have hpf : a.getLast ha ∉ fl := fun hm => hdis hm (List.mem_append_left _ hlm)
  have hpr : a.getLast ha ∉ r2 := fun hm => hdis2 hlm (List.mem_cons_of_mem _ hm)
  have hpool := unlinked_pool st (a.getLast ha) w hpw
  have hsame : ∀ i, i ≠ w → i ≠ a.getLast ha →
      (unlinked st (a.getLast ha) w).wp_pool i = st.wp_pool i := by
    intro i hi1 hi2
    rw [hpool, if_neg hi1, if_neg hi2]
  refine ⟨⟨rfl, ?_⟩, ?_, ?_, ?_, ?_⟩
  · have : ((unlinked st (a.getLast ha) w).wp_pool w).next = st.free_ := by
      rw [hpool, if_pos rfl]
    rw [this]
    apply isChain_congr st.wp_pool _ _ _ _ h1
    intro i hi
    rw [hsame i (fun h => hwf (h ▸ hi)) (fun h => hpf (h ▸ hi))]
  · rw [isChain_iff_isSeg] at h2 ⊢
    rw [isSeg_append] at h2 ⊢
    obtain ⟨mid, hs1, hs2⟩ := h2
    obtain ⟨hmid, hs3⟩ := hs2
    subst hmid
    refine ⟨(st.wp_pool w).next, ?_, ?_⟩
    · apply isSeg_relink st.wp_pool _ w _ a ha _ hs1 hna
      · intro i hi hil
        rw [hsame i (fun h => hwa (h ▸ hi)) hil]
      · rw [hpool, if_neg hpw, if_pos rfl]
        rfl
    · apply isSeg_congr st.wp_pool _ _ _ _ _ hs3
      intro i hi
      rw [hsame i (fun h => hwr (h ▸ hi)) (fun h => hpr (h ▸ hi))]
  · have hperm : (w :: fl ++ (a ++ r2)).Perm (fl ++ (a ++ w :: r2)) := by
      have e1 : fl ++ (a ++ w :: r2) = (fl ++ a) ++ w :: r2 := by simp
      have e2 : w :: fl ++ (a ++ r2) = w :: ((fl ++ a) ++ r2) := by simp
      rw [e1, e2]
      exact List.perm_middle.symm
    exact (List.Perm.nodup_iff hperm).2 h3
  · intro i
    rw [← h4 i]
    simp only [List.mem_append, List.mem_cons]
    tauto
  · intro i hi
    rw [hpool]
    by_cases hiw : i = w
    · subst hiw; rw [if_pos rfl]; exact h5 i hi
    · rw [if_neg hiw]
      by_cases hip : i = a.getLast ha
      · rw [if_pos hip, ← hip]; exact h5 i hi
      · rw [if_neg hip]; exact h5 i hi

theorem poolInv_free_head (st : WpState) (fl : List Nat) (h : Nat) (rest : List Nat)
    (hinv : PoolInv st fl (h :: rest)) :
    PoolInv
      ⟨Function.update (Function.update st.wp_pool h ((st.wp_pool h).setAlarm 1)) h
          ((Function.update st.wp_pool h ((st.wp_pool h).setAlarm 1) h).setNext st.free_),
        (st.wp_pool h).next, some h⟩ (h :: fl) rest := by
  obtain ⟨h1, h2, h3, h4, h5⟩ := hinv
  obtain ⟨_, hrest⟩ := h2
  have hnd := h3
  rw [List.nodup_append] at hnd
  obtain ⟨_, hnal, hdis⟩ := hnd
  have hhr : h ∉ rest := (List.nodup_cons.1 hnal).1
  have hhf : h ∉ fl := fun hm => hdis hm (List.mem_cons_self _ _)
  refine ⟨⟨rfl, ?_⟩, ?_, ?_, ?_, ?_⟩
  · simp only [Function.update_same, WP.setNext]
    apply isChain_congr st.wp_pool _ _ _ _ h1
    intro i hi
    have : i ≠ h := fun e => hhf (e ▸ hi)
    rw [Function.update_noteq this, Function.update_noteq this]
  · apply isChain_congr st.wp_pool _ _ _ _ hrest
    intro i hi
    have : i ≠ h := fun e => hhr (e ▸ hi)
    simp only []
    rw [Function.update_noteq this, Function.update_noteq this]
  · have hperm : (h :: fl ++ rest).Perm (fl ++ h :: rest) := List.perm_middle.symm
    exact (List.Perm.nodup_iff hperm).2 h3
  · intro i
    rw [← h4 i]
    simp only [List.mem_append, List.mem_cons]
    tauto
  · intro i hi
    simp only []
    by_cases hih : i = h
    · subst hih; simp only [Function.update_same, WP.setNext, WP.setAlarm]; exact h5 i hi
    · rw [Function.update_noteq hih, Function.update_noteq hih]; exact h5 i hi

theorem poolInv_length (st : WpState) (fl al : List Nat) (h : PoolInv st fl al) :
    fl.length + al.length = NR_WP := by
  obtain ⟨_, _, h3, h4, _⟩ := h
  have hperm : (fl ++ al).Perm (List.range NR_WP) :=
    (List.perm_ext_iff_of_nodup h3 (List.nodup_range _)).2
      (fun i => by rw [h4 i, List.mem_range])
  have := hperm.length_eq
  simpa using this

theorem poolInv_NO (st : WpState) (fl al : List Nat) (h : PoolInv st fl al) (w : Nat)
    (hw : w ∈ al) : (st.wp_pool w).NO = (w : Int) :=
  h.2.2.2.2 w ((h.2.2.2.1 w).1 (List.mem_append_right _ hw))

theorem free_wp_found (st : WpState) (fl al : List Nat) (w : Nat) (no : Int)
    (h : PoolInv st fl al) (hw : w ∈ al) (hno : (w : Int) = no) :
    (free_wp st no).1 = .ok .freed ∧ PoolInv (free_wp st no).2 (w :: fl) (al.erase w) := by
  have hlen := poolInv_length st fl al h
  have hN : NR_WP = 32 := rfl
  cases al with
  | nil => simp at hw
  | cons hd rest =>
    have hhead : st.head = some hd := h.2.1.1
    have hNOhd := poolInv_NO st fl _ h hd (List.mem_cons_self _ _)
    by_cases hhd : (hd : Int) = no
    · have hwhd : w = hd := by
        have : (w : Int) = (hd : Int) := by rw [hno, hhd]
        exact_mod_cast this
      subst hwhd
      have hres : free_wp st no = (.ok .freed,
          ⟨Function.update (Function.update st.wp_pool w ((st.wp_pool w).setAlarm 1)) w
            ((Function.update st.wp_pool w ((st.wp_pool w).setAlarm 1) w).setNext st.free_),
          (st.wp_pool w).next, some w⟩) := by
        simp only [free_wp, hhead, hNOhd, hhd, if_true]
      rw [hres, List.erase_cons_head]
      exact ⟨rfl, poolInv_free_head st fl w rest h⟩
    · have hwne : w ≠ hd := fun e => hhd (e ▸ hno)
      have hwr : w ∈ rest := by
        rcases List.mem_cons.1 hw with e | e
        · exact absurd e hwne
        · exact e
      obtain ⟨r1, r2, hsplit⟩ := List.append_of_mem hwr
      subst hsplit
      have hnd := h.2.2.1
      rw [List.nodup_append] at hnd
      obtain ⟨_, hnal, _⟩ := hnd
      have hnal2 := (List.nodup_cons.1 hnal).2
      rw [List.nodup_append] at hnal2
      obtain ⟨_, _, hdis⟩ := hnal2
      have hwr1 : w ∉ r1 := fun hm => hdis hm (List.mem_cons_self _ _)
      have hchain := h.2.1.2
      rw [isChain_iff_isSeg, isSeg_append] at hchain
      obtain ⟨mid, hs1, hs2⟩ := hchain
      obtain ⟨hmid, _⟩ := hs2
      subst hmid
      have hNOw := poolInv_NO st fl _ h w hw
      have hr1 : ∀ x ∈ r1, (st.wp_pool x).NO ≠ no := by
        intro x hx
        rw [poolInv_NO st fl _ h x
          (List.mem_cons_of_mem _ (List.mem_append_left _ hx)), ← hno]
        intro e
        have : x = w := by exact_mod_cast e
        exact hwr1 (this ▸ hx)
      have hloop := free_wp_loop_found st no w r1 (st.wp_pool hd).next hd NR_WP hs1 hr1
        (by rw [hNOw]; exact hno)
        (by simp only [List.length_cons, List.length_append] at hlen; omega)
      have hres : free_wp st no = (.ok .freed,
          unlinked st ((hd :: r1).getLast (List.cons_ne_nil _ _)) w) := by
        simp only [free_wp, hhead, hNOhd, hhd, if_false]
        exact hloop
      rw [hres]
      have herase : (hd :: (r1 ++ w :: r2)).erase w = (hd :: r1) ++ r2 := by
        rw [List.erase_cons_tail (by simpa using Ne.symm hwne)]
        rw [List.erase_append_right _ hwr1, List.erase_cons_head]
        rfl
      rw [herase]
      exact ⟨rfl, poolInv_unlink st fl (hd :: r1) w r2 (List.cons_ne_nil _ _) h⟩

theorem free_wp_missing (st : WpState) (fl al : List Nat) (no : Int)
    (h : PoolInv st fl al) (hno : ∀ w ∈ al, (w : Int) ≠ no) :
    ((free_wp st no).1 = .ok .noWatchpoints ∨ (free_wp st no).1 = .ok .wrongNO) ∧
      (free_wp st no).2 = st := by
  have hlen := poolInv_length st fl al h
  have hN : NR_WP = 32 := rfl
  cases al with
  | nil =>
    have hhead : st.head = none := h.2.1
    simp only [free_wp, hhead, true_or, and_self]
  | cons hd rest =>
    have hhead : st.head = some hd := h.2.1.1
    have hNOhd := poolInv_NO st fl _ h hd (List.mem_cons_self _ _)
    have hhd := hno hd (List.mem_cons_self _ _)
    have hchain := h.2.1.2
    rw [isChain_iff_isSeg] at hchain
    have hrest : ∀ x ∈ rest, (st.wp_pool x).NO ≠ no := by
      intro x hx
      rw [poolInv_NO st fl _ h x (List.mem_cons_of_mem _ hx)]
      exact hno x (List.mem_cons_of_mem _ hx)
    have hloop := free_wp_loop_missing st no rest (st.wp_pool hd).next hd NR_WP hchain hrest
      (by simp only [List.length_cons] at hlen; omega)
    have hres : free_wp st no = (.ok .wrongNO, st) := by
      simp only [free_wp, hhead, hNOhd, hhd, if_false]
      exact hloop
    rw [hres]
    exact ⟨Or.inr rfl, rfl⟩

theorem checkwp_loop_pool (m : Machine) : ∀ (fuel : Nat) (es : ExprState) (a : Bool)
    (st : WpState) (wp : Option Nat),
    (checkwp_loop m fuel es a st wp).2 = st ∨
      ∃ w, (checkwp_loop m fuel es a st wp).2 = decremented st w := by
  intro fuel
  induction fuel with
  | zero => intro es a st wp; exact Or.inl rfl
  | succ fuel ih =>
    intro es a st wp
    cases wp with
    | none => exact Or.inl rfl
    | some w =>
      simp only [checkwp_loop]
      cases expr m es (st.wp_pool w).expression a with
      | error f => exact Or.inl rfl
      | ok out =>
        simp only []
        split
        · exact Or.inr ⟨w, rfl⟩
        · exact ih _ _ _ _

theorem poolInv_decremented (st : WpState) (fl al : List Nat) (w : Nat)
    (h : PoolInv st fl al) : PoolInv (decremented st w) fl al := by
  refine poolInv_congr st _ fl al ?_ rfl rfl h
  intro i
  simp only [decremented]
  by_cases hi : i = w
  · subst hi; simp [WP.setAlarm]
  · rw [Function.update_noteq hi]; simp

theorem poolInv_store (st : WpState) (fl al : List Nat) (i : Nat) (e : List Char) (v : Nat)
    (h : PoolInv st fl al) : PoolInv (store_wp st i e v) fl al := by
  refine poolInv_congr st _ fl al ?_ rfl rfl h
  intro j
  simp only [store_wp]
  by_cases hj : j = i
  · subst hj; simp
  · rw [Function.update_noteq hj]; simp

theorem reachable_inv (st : WpState) (h : Reachable st) : ∃ fl al, PoolInv st fl al := by
  induction h with
  | init st0 => exact ⟨_, _, poolInv_init st0⟩
  | alloc st _ ih =>
    obtain ⟨fl, al, hinv⟩ := ih
    cases fl with
    | nil =>
      rw [new_wp_exhausted st al hinv]
      exact ⟨[], al, hinv⟩
    | cons r fl => exact ⟨fl, r :: al, (poolInv_new_wp st r fl al hinv).2.1⟩
  | release st no _ ih =>
    obtain ⟨fl, al, hinv⟩ := ih
    by_cases hex : ∃ w ∈ al, (w : Int) = no
    · obtain ⟨w, hw, hno⟩ := hex
      exact ⟨_, _, (free_wp_found st fl al w no hinv hw hno).2⟩
    · have hno : ∀ w ∈ al, (w : Int) ≠ no := fun w hw e => hex ⟨w, hw, e⟩
      rw [(free_wp_missing st fl al no hinv hno).2]
      exact ⟨fl, al, hinv⟩
  | check m es st _ ih =>
    obtain ⟨fl, al, hinv⟩ := ih
    rcases checkwp_loop_pool m (NR_WP + 1) es true st st.head with h | ⟨w, h⟩
    · rw [checkwp, h]; exact ⟨fl, al, hinv⟩
    · rw [checkwp, h]; exact ⟨fl, al, poolInv_decremented st fl al w hinv⟩
  | store st i e v _ ih =>
    obtain ⟨fl, al, hinv⟩ := ih
    exact ⟨fl, al, poolInv_store st fl al i e v hinv⟩

/-! ## C7: the pool invariant -/

/-- C7: in every state reachable from `init_wp_pool` by calls of `new_wp`,
`free_wp` and `checkwp` (and by the caller's stores into a slot's expression
and value), the free list and the active list are chains through the pool
that are duplicate-free and disjoint and together hold exactly the 32 slots;
their lengths sum to 32. -/
theorem C7_pool_partition (st : WpState) (h : Reachable st) :
    ∃ fl al, IsChain st.wp_pool st.free_ fl ∧ IsChain st.wp_pool st.head al ∧
      fl.Nodup ∧ al.Nodup ∧ (∀ i, ¬ (i ∈ fl ∧ i ∈ al)) ∧
      (∀ i, i < NR_WP ↔ (i ∈ fl ∨ i ∈ al)) ∧ fl.length + al.length = NR_WP := by
  obtain ⟨fl, al, hinv⟩ := reachable_inv st h
  have hlen := poolInv_length st fl al hinv
  obtain ⟨h1, h2, h3, h4, _⟩ := hinv
  rw [List.nodup_append] at h3
  refine ⟨fl, al, h1, h2, h3.1, h3.2.1, fun i hi => h3.2.2 hi.1 hi.2, fun i => ?_, hlen⟩
  rw [← h4 i, List.mem_append]

/-- C7, witness: the state after one allocation, one check and one release
on a fresh pool is reachable, and the invariant holds in it. -/
theorem C7_pool_partition_witness :
    Reachable cycled_pool ∧
    ∃ fl al, IsChain cycled_pool.wp_pool cycled_pool.free_ fl ∧
      IsChain cycled_pool.wp_pool cycled_pool.head al ∧
      fl.Nodup ∧ al.Nodup ∧ (∀ i, ¬ (i ∈ fl ∧ i ∈ al)) ∧
      (∀ i, i < NR_WP ↔ (i ∈ fl ∨ i ∈ al)) ∧ fl.length + al.length = NR_WP :=
  ⟨Reachable.release _ 0 (Reachable.check _ _ _ (Reachable.alloc _ (Reachable.init _))),
   C7_pool_partition cycled_pool
    (Reachable.release _ 0 (Reachable.check _ _ _ (Reachable.alloc _ (Reachable.init _))))⟩

/-! ## C8: exhausting the pool -/

theorem alloc_n_spec : ∀ (pre : List Nat) (st : WpState) (fl al : List Nat),
    PoolInv st (pre ++ fl) al →
    (alloc_n pre.length st).1 = .ok pre ∧
      PoolInv (alloc_n pre.length st).2 fl (pre.reverse ++ al) := by
  intro pre
  induction pre with
  | nil => intro st fl al h; exact ⟨rfl, h⟩
  | cons r pre ih =>
    intro st fl al h
    obtain ⟨h1, h2, _⟩ := poolInv_new_wp st r (pre ++ fl) al h
    have hnew : new_wp st = (.ok r, (new_wp st).2) := Prod.ext h1 rfl
    obtain ⟨h3, h4⟩ := ih (new_wp st).2 fl (r :: al) h2
    have hrec : alloc_n pre.length (new_wp st).2 =
        (.ok pre, (alloc_n pre.length (new_wp st).2).2) := Prod.ext h3 rfl
    have hres : alloc_n (r :: pre).length st =
        (.ok (r :: pre), (alloc_n pre.length (new_wp st).2).2) := by
      simp only [List.length_cons, alloc_n]
      rw [hnew]
      simp only []
      rw [hrec]
    rw [hres]
    refine ⟨rfl, ?_⟩
    simp only [List.reverse_cons, List.append_assoc, List.singleton_append]
    exact h4

/-- C8 (as amended): from a freshly initialised pool, 32 consecutive calls of
`new_wp` all return, the slots 0, 1, ..., 31 in this order, each carrying its
own index as id, so the ids are pairwise distinct; a 33rd call does not
return: it prints "there is no free wp" and stops the program on `assert(0)`,
having changed nothing in the pool; and after `free_wp(k)` on the full pool,
for any id `k` below 32, the next `new_wp` returns the slot with id `k`. -/
theorem C8_pool_exhaustion (st0 : WpState) :
    ∃ st32, alloc_n NR_WP (init_wp_pool st0) = (.ok (List.range NR_WP), st32) ∧
      (List.range NR_WP).Nodup ∧
      (∀ r, r < NR_WP → (st32.wp_pool r).NO = (r : Int)) ∧
      new_wp st32 = (.error .assertFail, st32) ∧
      ∀ k, k < NR_WP →
        (free_wp st32 (k : Int)).1 = .ok .freed ∧
        (new_wp (free_wp st32 (k : Int)).2).1 = .ok k ∧
        ((new_wp (free_wp st32 (k : Int)).2).2.wp_pool k).NO = (k : Int) := by
  have hinit := poolInv_init st0
  have h0 : PoolInv (init_wp_pool st0) (List.range NR_WP ++ []) [] := by
    rw [List.append_nil]; exact hinit
  obtain ⟨h1, h2⟩ := alloc_n_spec (List.range NR_WP) (init_wp_pool st0) [] [] h0
  rw [List.length_range] at h1 h2
  rw [List.append_nil] at h2
  refine ⟨(alloc_n NR_WP (init_wp_pool st0)).2, Prod.ext h1 rfl, List.nodup_range _,
    h2.2.2.2.2, new_wp_exhausted _ _ h2, ?_⟩
  intro k hk
  have hmem : k ∈ (List.range NR_WP).reverse := by
    rw [List.mem_reverse, List.mem_range]; exact hk
  obtain ⟨h3, h4⟩ := free_wp_found _ [] _ k (k : Int) h2 hmem rfl
  obtain ⟨h5, h6, _⟩ := poolInv_new_wp _ k [] _ h4
  exact ⟨h3, h5, h6.2.2.2.2 k hk⟩

/-- C8, counterexample: on a fresh pool the first 32 calls of `new_wp` return
the slots 0 to 31; the 33rd does not fail with a result the caller could
test: it runs into `assert(0)` and the program stops there, so no release
and no further allocation follow it. -/
theorem C8_counterexample_abort :
    (alloc_n NR_WP (init_wp_pool WpState.zero)).1 = .ok (List.range NR_WP) ∧
    faultOf (new_wp (alloc_n NR_WP (init_wp_pool WpState.zero)).2).1 =
      some Fault.assertFail ∧
    ∀ r, (new_wp (alloc_n NR_WP (init_wp_pool WpState.zero)).2).1 ≠ .ok r := by
  have h : (new_wp (alloc_n NR_WP (init_wp_pool WpState.zero)).2).1 = .error .assertFail := rfl
  refine ⟨rfl, by rw [h]; rfl, ?_⟩
  intro r hr
  rw [h] at hr
  cases hr

/-! ## C9: releasing a watchpoint -/

/-- C9: in every reachable pool state, with free list `fl` and active list
`al`, and for every id: `free_wp(id)` releases a slot exactly when some active
slot has that id; then the active list is the old one with that slot removed,
the others in their order, and the free list is the old one with that slot
in front; when no active slot has the id (also when the active list is
empty) it only reports the failure ("there is no watchpoints to delete" or
"the given NO is wrong") and changes nothing. -/
theorem C9_free_wp (st : WpState) (h : Reachable st) (no : Int) :
    ∃ fl al, IsChain st.wp_pool st.free_ fl ∧ IsChain st.wp_pool st.head al ∧
      ((free_wp st no).1 = .ok .freed ↔ ∃ w ∈ al, (st.wp_pool w).NO = no) ∧
      (∀ w ∈ al, (st.wp_pool w).NO = no →
        IsChain (free_wp st no).2.wp_pool (free_wp st no).2.head (al.erase w) ∧
        IsChain (free_wp st no).2.wp_pool (free_wp st no).2.free_ (w :: fl)) ∧
      ((¬ ∃ w ∈ al, (st.wp_pool w).NO = no) →
        ((free_wp st no).1 = .ok .noWatchpoints ∨ (free_wp st no).1 = .ok .wrongNO) ∧
        (free_wp st no).2 = st) := by
  obtain ⟨fl, al, hinv⟩ := reachable_inv st h
  refine ⟨fl, al, hinv.1, hinv.2.1, ?_, ?_, ?_⟩
  · constructor
    · intro hfreed
      by_contra hex
      have hno : ∀ w ∈ al, (w : Int) ≠ no := by
        intro w hw e
        exact hex ⟨w, hw, by rw [poolInv_NO st fl al hinv w hw]; exact e⟩
      rcases (free_wp_missing st fl al no hinv hno).1 with h1 | h1 <;>
        (rw [h1] at hfreed; simp at hfreed)
    · rintro ⟨w, hw, hNO⟩
      rw [poolInv_NO st fl al hinv w hw] at hNO
      exact (free_wp_found st fl al w no hinv hw hNO).1
  · intro w hw hNO
    rw [poolInv_NO st fl al hinv w hw] at hNO
    have := (free_wp_found st fl al w no hinv hw hNO).2
    exact ⟨this.2.1, this.1⟩
  · intro hex
    have hno : ∀ w ∈ al, (w : Int) ≠ no := by
      intro w hw e
      exact hex ⟨w, hw, by rw [poolInv_NO st fl al hinv w hw]; exact e⟩
    exact free_wp_missing st fl al no hinv hno

/-- C9, witness: the pool after two allocations is reachable, and the
statement holds there for the id 0. -/
theorem C9_free_wp_witness :
    Reachable two_active ∧
    ∃ fl al, IsChain two_active.wp_pool two_active.free_ fl ∧
      IsChain two_active.wp_pool two_active.head al ∧
      ((free_wp two_active 0).1 = .ok .freed ↔ ∃ w ∈ al, (two_active.wp_pool w).NO = 0) ∧
      (∀ w ∈ al, (two_active.wp_pool w).NO = 0 →
        IsChain (free_wp two_active 0).2.wp_pool (free_wp two_active 0).2.head (al.erase w) ∧
        IsChain (free_wp two_active 0).2.wp_pool (free_wp two_active 0).2.free_ (w :: fl)) ∧
      ((¬ ∃ w ∈ al, (two_active.wp_pool w).NO = 0) →
        ((free_wp two_active 0).1 = .ok .noWatchpoints ∨
          (free_wp two_active 0).1 = .ok .wrongNO) ∧
        (free_wp two_active 0).2 = two_active) :=
  ⟨Reachable.alloc _ (Reachable.alloc _ (Reachable.init _)),
   C9_free_wp two_active (Reachable.alloc _ (Reachable.alloc _ (Reachable.init _))) 0⟩

/-! ## C10: the check loop -/

theorem tokenAt_ok (tokens : Int → Token) (i : Int) (t : Token)
    (h : tokenAt tokens i = .ok t) : inTokens i ∧ t = tokens i := by
  unfold tokenAt at h
  split at h
  · rename_i hb
    simp only [Except.ok.injEq] at h
    exact ⟨hb, h.symm⟩
  · simp at h

theorem tokenAt_fault (tokens : Int → Token) (i : Int) (f : Fault)
    (h : tokenAt tokens i = .error f) : f = .outOfBounds := by
  unfold tokenAt at h
  split at h
  · simp at h
  · simp at h; exact h.symm

theorem depth_loop_total (tokens : Int → Token) (q : Int) : ∀ (fuel : Nat) (i d : Int),
    (q + 1 - i).toNat < fuel → depth_loop tokens q fuel i d ≠ .error .outOfFuel := by
  intro fuel
  induction fuel with
  | zero => intro i d h; omega
  | succ fuel ih =>
    intro i d hf
    simp only [depth_loop]
    split
    · cases hta : tokenAt tokens i with
      | error f =>
        rw [tokenAt_fault tokens i f hta]
        simp
      | ok t =>
        simp only []
        split_ifs <;> first | exact ih _ _ (by omega) | simp
    · simp

theorem check_parentheses_total (tokens : Int → Token) (p q : Int) :
    check_parentheses tokens p q ≠ .error .outOfFuel := by
  unfold check_parentheses
  cases hp : tokenAt tokens p with
  | error f => rw [tokenAt_fault tokens p f hp]; simp
  | ok tp =>
    simp only []
    split
    · cases hq : tokenAt tokens q with
      | error f => rw [tokenAt_fault tokens q f hq]; simp
      | ok tq =>
        simp only []
        split
        · rw [check_parentheses_loop_eq tokens q _ p _ 0 (le_refl _) (fun k h1 h2 => by omega)]
          exact depth_loop_total tokens q _ p 0 (by omega)
        · simp
    · simp

theorem check_parentheses_oob (tokens : Int → Token) (i t : Int) (hi : inTokens i)
    (hlb : (tokens i).type = TK_LB) (ht : ¬ inTokens t) :
    check_parentheses tokens i t = .error .outOfBounds := by
  simp only [check_parentheses, tokenAt, hi, if_true, hlb, ht, if_false]

theorem find_RB_total (tokens : Int → Token) (i : Int) (hi : inTokens i)
    (hlb : (tokens i).type = TK_LB) : ∀ (fuel : Nat) (t : Int), i < t →
    (65 - t).toNat < fuel → find_RB tokens i fuel t ≠ .error .outOfFuel := by
  intro fuel
  induction fuel with
  | zero => intro t _ h; omega
  | succ fuel ih =>
    intro t hit hf
    simp only [find_RB]
    cases hcp : check_parentheses tokens i t with
    | error f =>
      simp only []
      intro h
      simp only [Except.error.injEq] at h
      exact check_parentheses_total tokens i t (by rw [hcp, h])
    | ok b =>
      cases b with
      | true => simp
      | false =>
        simp only []
        have ht : inTokens t := by
          by_contra hnt
          rw [check_parentheses_oob tokens i t hi hlb hnt] at hcp
          simp at hcp
        exact ih (t + 1) (by omega) (by have := ht.2; omega)

theorem op_idx_loop_total (tokens : Int → Token) (q : Int) :
    ∀ (fuel : Nat) (i idx0 idx1 : Int), (q + 1 - i).toNat < fuel →
    op_idx_loop tokens q fuel i idx0 idx1 ≠ .error .outOfFuel := by
  intro fuel
  induction fuel with
  | zero => intro i idx0 idx1 h; omega
  | succ fuel ih =>
    intro i idx0 idx1 hf
    simp only [op_idx_loop]
    split
    · cases hta : tokenAt tokens i with
      | error f => rw [tokenAt_fault tokens i f hta]; simp
      | ok t =>
        obtain ⟨hb, ht⟩ := tokenAt_ok tokens i t hta
        simp only []
        split
        · rename_i hlb
          cases hfr : find_RB tokens i 65 (i + 1) with
          | error f =>
            simp only []
            intro h
            simp only [Except.error.injEq] at h
            exact find_RB_total tokens i hb (by rw [← ht]; exact hlb) 65 (i + 1) (by omega)
              (by have := hb.1; omega) (by rw [hfr, h])
          | ok r =>
            simp only []
            have := find_RB_ge tokens i _ _ _ hfr
            exact ih _ _ _ (by omega)
        · split_ifs <;> exact ih _ _ _ (by omega)
    · simp

theorem op_idx_loop_range (tokens : Int → Token) (q : Int) :
    ∀ (fuel : Nat) (i idx0 idx1 r : Int), op_idx_loop tokens q fuel i idx0 idx1 = .ok r →
    r = idx0 ∨ (i ≤ r ∧ r ≤ q) := by
  intro fuel
  induction fuel with
  | zero => intro i idx0 idx1 r h; simp [op_idx_loop] at h
  | succ fuel ih =>
    intro i idx0 idx1 r h
    simp only [op_idx_loop] at h
    split at h
    · rename_i hiq
      cases hta : tokenAt tokens i with
      | error f => simp [hta] at h
      | ok t =>
        simp only [hta] at h
        split at h
        · cases hfr : find_RB tokens i 65 (i + 1) with
          | error f => simp [hfr] at h
          | ok t1 =>
            simp only [hfr] at h
            have hge := find_RB_ge tokens i _ _ _ hfr
            rcases ih _ _ _ _ h with h1 | h1
            · exact Or.inl h1
            · exact Or.inr ⟨by omega, h1.2⟩
        · split_ifs at h <;>
            (rcases ih _ _ _ _ h with h1 | h1
             · first | exact Or.inl h1 | exact Or.inr ⟨by omega, by omega⟩
             · exact Or.inr ⟨by omega, h1.2⟩)
    · simp only [Except.ok.injEq] at h
      exact Or.inl h.symm

theorem op_idx_total (tokens : Int → Token) (p q : Int) :
    op_idx tokens p q ≠ .error .outOfFuel :=
  op_idx_loop_total tokens q _ p p 2 (by omega)

theorem op_idx_range (tokens : Int → Token) (p q r : Int) (hpq : p ≤ q)
    (h : op_idx tokens p q = .ok r) : p ≤ r ∧ r ≤ q := by
  rcases op_idx_loop_range tokens q _ p p 2 r h with h1 | h1
  · omega
  · exact h1

theorem eval_total (m : Machine) (tokens : Int → Token) : ∀ (fuel : Nat) (p q : Int),
    (q - p).toNat < fuel → eval m tokens fuel p q ≠ .error .outOfFuel := by
  intro fuel
  induction fuel with
  | zero => intro p q h; omega
  | succ fuel ih =>
    intro p q hf
    simp only [eval]
    split
    · simp
    · split
      · cases hta : tokenAt tokens p with
        | error f => rw [tokenAt_fault tokens p f hta]; simp
        | ok t =>
          simp only []
          split_ifs
          · simp
          · cases m.isa_reg_str2val t.str <;> simp
          · simp
          · simp
      · cases hcp : check_parentheses tokens p q with
        | error f =>
          simp only []
          intro h
          simp only [Except.error.injEq] at h
          exact check_parentheses_total tokens p q (by rw [hcp, h])
        | ok b =>
          cases b with
          | true => exact ih _ _ (by omega)
          | false =>
            simp only []
            cases hta : tokenAt tokens p with
            | error f => rw [tokenAt_fault tokens p f hta]; simp
            | ok tp =>
              simp only []
              split
              · cases hta1 : tokenAt tokens (p + 1) with
                | error f => rw [tokenAt_fault tokens _ f hta1]; simp
                | ok t1 => simp
              · cases hop : op_idx tokens p q with
                | error f =>
                  simp only []
                  intro h
                  simp only [Except.error.injEq] at h
                  exact op_idx_total tokens p q (by rw [hop, h])
                | ok op =>
                  simp only []
                  have hr := op_idx_range tokens p q op (by omega) hop
                  cases hv1 : eval m tokens fuel p (op - 1) with
                  | error f =>
                    simp only []
                    intro h
                    simp only [Except.error.injEq] at h
                    exact ih p (op - 1) (by omega) (by rw [hv1, h])
                  | ok val1 =>
                    simp only []
                    cases hv2 : eval m tokens fuel (op + 1) q with
                    | error f =>
                      simp only []
                      intro h
                      simp only [Except.error.injEq] at h
                      exact ih (op + 1) q (by omega) (by rw [hv2, h])
                    | ok val2 =>
                      simp only []
                      cases hto : tokenAt tokens op with
                      | error f => rw [tokenAt_fault tokens _ f hto]; simp
                      | ok top =>
                        simp only []
                        split_ifs <;> simp

theorem mark_deref_total (nr : Int) : ∀ (fuel : Nat) (i : Int) (tokens : Int → Token),
    (nr - i).toNat < fuel → mark_deref nr fuel i tokens ≠ .error .outOfFuel := by
  intro fuel
  induction fuel with
  | zero => intro i tokens h; omega
  | succ fuel ih =>
    intro i tokens hf
    simp only [mark_deref]
    split
    · cases hta : tokenAt tokens i with
      | error f => rw [tokenAt_fault tokens i f hta]; simp
      | ok t =>
        simp only []
        split
        · split
          · exact ih _ _ (by omega)
          · cases hta0 : tokenAt tokens (i - 1) with
            | error f => rw [tokenAt_fault tokens _ f hta0]; simp
            | ok t0 =>
              simp only []
              split <;> exact ih _ _ (by omega)
        · exact ih _ _ (by omega)
    · simp

theorem expr_split_total (m : Machine) (tokens : Int → Token) (nr : Int) :
    ∀ (fuel : Nat) (i : Int), 0 ≤ i → (nr - i).toNat < fuel →
    expr_split m tokens nr fuel i ≠ .error .outOfFuel := by
  intro fuel
  induction fuel with
  | zero => intro i _ h; omega
  | succ fuel ih =>
    intro i hi hf
    simp only [expr_split]
    split
    · cases hta : tokenAt tokens i with
      | error f => rw [tokenAt_fault tokens i f hta]; simp
      | ok t =>
        simp only []
        split
        · cases hv1 : eval m tokens (nr.toNat + 1) 0 (i - 1) with
          | error f =>
            simp only []
            intro h
            simp only [Except.error.injEq] at h
            exact eval_total m tokens (nr.toNat + 1) 0 (i - 1) (by omega) (by rw [hv1, h])
          | ok v1 =>
            simp only []
            cases hv2 : eval m tokens (nr.toNat + 1) (i + 1) (nr - 1) with
            | error f =>
              simp only []
              intro h
              simp only [Except.error.injEq] at h
              exact eval_total m tokens (nr.toNat + 1) (i + 1) (nr - 1) (by omega) (by rw [hv2, h])
            | ok v2 =>
              simp only []
              split_ifs <;> simp
        · exact ih _ (by omega) (by omega)
    · exact eval_total m tokens (nr.toNat + 1) 0 (nr - 1) (by omega)

theorem expr_total (m : Machine) (st : ExprState) (e : List Char) (success : Bool) :
    expr m st e success ≠ .error .outOfFuel := by
  unfold expr
  cases hmt : make_token st e with
  | error f =>
    have := make_token_loop_fault (e.length + 1) e 0 ⟨st.tokens, 0⟩ f (by omega) hmt
    rw [this]
    simp
  | ok lx =>
    simp only []
    split
    · simp
    · cases hmd : mark_deref lx.st.nr_token (lx.st.nr_token.toNat + 1) 0 lx.st.tokens with
      | error f =>
        simp only []
        intro h
        simp only [Except.error.injEq] at h
        exact mark_deref_total lx.st.nr_token (lx.st.nr_token.toNat + 1) 0 lx.st.tokens (by omega)
          (by rw [hmd, h])
      | ok tokens =>
        simp only []
        cases hsp : expr_split m tokens lx.st.nr_token (lx.st.nr_token.toNat + 1) 0 with
        | error f =>
          simp only []
          intro h
          simp only [Except.error.injEq] at h
          exact expr_split_total m tokens lx.st.nr_token (lx.st.nr_token.toNat + 1) 0 (le_refl _)
            (by omega) (by rw [hsp, h])
        | ok v => simp

theorem checkwp_loop_total (m : Machine) (st : WpState) :
    ∀ (al : List Nat) (wp : Option Nat) (fuel : Nat) (es : ExprState) (a : Bool),
    IsChain st.wp_pool wp al → al.length < fuel →
    (checkwp_loop m fuel es a st wp).1 ≠ .error .outOfFuel := by
  intro al
  induction al with
  | nil =>
    intro wp fuel es a hc hf
    simp only [IsChain] at hc
    cases fuel with
    | zero => simp at hf
    | succ fuel => simp [checkwp_loop, hc]
  | cons w al ih =>
    intro wp fuel es a hc hf
    obtain ⟨h1, h2⟩ := hc
    cases fuel with
    | zero => simp at hf
    | succ fuel =>
      simp only [checkwp_loop, h1]
      cases hex : expr m es (st.wp_pool w).expression a with
      | error f =>
        simp only []
        intro h
        simp only [Except.error.injEq] at h
        exact expr_total m es _ a (by rw [hex, h])
      | ok out =>
        simp only []
        split
        · simp
        · exact ih _ fuel _ _ h2 (by simp only [List.length_cons] at hf; omega)

theorem checkwp_total (m : Machine) (es : ExprState) (st : WpState) (h : Reachable st) :
    (checkwp m es st).1 ≠ .error .outOfFuel := by
  obtain ⟨fl, al, hinv⟩ := reachable_inv st h
  have hlen := poolInv_length st fl al hinv
  exact checkwp_loop_total m st al st.head (NR_WP + 1) es true hinv.2.1 (by omega)

theorem free_wp_total (st : WpState) (no : Int) (h : Reachable st) :
    (free_wp st no).1 ≠ .error .outOfFuel := by
  obtain ⟨fl, al, hinv⟩ := reachable_inv st h
  by_cases hex : ∃ w ∈ al, (w : Int) = no
  · obtain ⟨w, hw, hno⟩ := hex
    rw [(free_wp_found st fl al w no hinv hw hno).1]
    simp
  · have hno : ∀ w ∈ al, (w : Int) ≠ no := fun w hw e => hex ⟨w, hw, e⟩
    rcases (free_wp_missing st fl al no hinv hno).1 with h1 | h1 <;> (rw [h1]; simp)

/-! ## Allocation order, listing and released slots -/

theorem wp_display_loop_chain (pool : Nat → WP) : ∀ (al : List Nat) (wp : Option Nat)
    (fuel : Nat), IsChain pool wp al → al.length < fuel →
    wp_display_loop pool fuel wp = .ok (al.map (fun w => ((pool w).NO, (pool w).expression))) := by
  intro al
  induction al with
  | nil =>
    intro wp fuel h hf
    cases fuel with
    | zero => simp at hf
    | succ fuel =>
      have : wp = none := h
      subst this
      rfl
  | cons w al ih =>
    intro wp fuel h hf
    cases fuel with
    | zero => simp at hf
    | succ fuel =>
      obtain ⟨hw, hrest⟩ := h
      subst hw
      simp only [wp_display_loop, List.map_cons]
      rw [ih _ fuel hrest (by simpa using hf)]

theorem unlinked_fields (st : WpState) (prev w i : Nat) :
    ((unlinked st prev w).wp_pool i).NO = (st.wp_pool i).NO ∧
    ((unlinked st prev w).wp_pool i).expression = (st.wp_pool i).expression ∧
    ((unlinked st prev w).wp_pool i).last_val = (st.wp_pool i).last_val ∧
    ((unlinked st prev w).wp_pool i).alarm_time =
      if i = w then 1 else (st.wp_pool i).alarm_time := by
  simp only [unlinked]
  by_cases hi : i = w
  · subst hi
    by_cases hp : i = prev
    · subst hp; simp [WP.setNext, WP.setAlarm]
    · simp [WP.setNext, WP.setAlarm, Function.update_noteq hp]
  · rw [Function.update_noteq hi, Function.update_noteq hi]
    by_cases hp : i = prev
    · subst hp; simp [WP.setNext, hi]
    · simp [Function.update_noteq hp, hi]

theorem free_wp_loop_effect (no : Int) : ∀ (fuel : Nat) (st : WpState) (wp : Option Nat)
    (prev : Nat),
    ((free_wp_loop no fuel st wp prev).1 ≠ .ok .freed ∧ (free_wp_loop no fuel st wp prev).2 = st) ∨
    ∃ p w, (st.wp_pool w).NO = no ∧
      free_wp_loop no fuel st wp prev = (.ok .freed, unlinked st p w) := by
  intro fuel
  induction fuel with
  | zero => intro st wp prev; left; simp [free_wp_loop]
  | succ fuel ih =>
    intro st wp prev
    cases wp with
    | none => left; simp [free_wp_loop]
    | some w =>
      simp only [free_wp_loop]
      by_cases h : (st.wp_pool w).NO = no
      · right
        refine ⟨prev, w, h, ?_⟩
        simp only [h, if_true, unlinked]
      · simp only [h, if_false]
        exact ih _ _ _

/-- What `free_wp` does to the fields of the slots: either nothing was
released and the pool is unchanged, or one slot `w` whose number is `no` was
pushed on the free list; its budget is 1, and no number, expression text or
last value of any slot has changed. -/
theorem free_wp_effect (st : WpState) (no : Int) :
    ((free_wp st no).1 ≠ .ok .freed ∧ (free_wp st no).2 = st) ∨
    ∃ w, (st.wp_pool w).NO = no ∧ (free_wp st no).1 = .ok .freed ∧
      (free_wp st no).2.free_ = some w ∧
      ∀ i, ((free_wp st no).2.wp_pool i).NO = (st.wp_pool i).NO ∧
        ((free_wp st no).2.wp_pool i).expression = (st.wp_pool i).expression ∧
        ((free_wp st no).2.wp_pool i).last_val = (st.wp_pool i).last_val ∧
        ((free_wp st no).2.wp_pool i).alarm_time =
          if i = w then 1 else (st.wp_pool i).alarm_time := by
  unfold free_wp
  cases hh : st.head with
  | none => left; simp
  | some h =>
    simp only []
    by_cases hno : (st.wp_pool h).NO = no
    · right
      refine ⟨h, hno, ?_, ?_, ?_⟩
      · simp [hno]
      · simp [hno]
      · intro i
        simp only [hno, if_true]
        by_cases hi : i = h
        · subst hi; simp [WP.setNext, WP.setAlarm]
        · simp [Function.update_noteq hi, hi]
    · simp only [hno, if_false]
      rcases free_wp_loop_effect no NR_WP st (st.wp_pool h).next h with hl | ⟨p, w, hw, hl⟩
      · left; exact hl
      · right
        rw [hl]
        exact ⟨w, hw, rfl, rfl, fun i => unlinked_fields st p w i⟩

theorem checkwp_loop_chain (m : Machine) (st : WpState) : ∀ (fuel : Nat) (es : ExprState)
    (a : Bool) (wp : Option Nat) (al : List Nat), IsChain st.wp_pool wp al →
    (checkwp_loop m fuel es a st wp).2 = st ∨
      ∃ w ∈ al, (checkwp_loop m fuel es a st wp).2 = decremented st w := by
  intro fuel
  induction fuel with
  | zero => intro es a wp al _; exact Or.inl rfl
  | succ fuel ih =>
    intro es a wp al hc
    cases wp with
    | none => exact Or.inl rfl
    | some w =>
      cases al with
      | nil => simp [IsChain] at hc
      | cons x al =>
        obtain ⟨hx, hrest⟩ := hc
        have hx : w = x := Option.some.inj hx
        subst hx
        simp only [checkwp_loop]
        cases expr m es (st.wp_pool w).expression a with
        | error f => exact Or.inl rfl
        | ok out =>
          simp only []
          split
          · exact Or.inr ⟨w, List.mem_cons_self _ _, rfl⟩
          · rcases ih out.st out.success _ al hrest with h | ⟨v, hv, h⟩
            · exact Or.inl h
            · exact Or.inr ⟨v, List.mem_cons_of_mem _ hv, h⟩

theorem init_alarm (st0 : WpState) (i : Nat) (hi : i < NR_WP) :
    ((init_wp_pool st0).wp_pool i).alarm_time = 1 := by
  simp only [init_wp_pool]
  rw [init_wp_pool_loop_spec]
  simp [hi]

/-- The pool invariant together with the budget of the free slots: in every
reachable state each slot of the free list has `alarm_time = 1`. -/
theorem reachable_fresh (st : WpState) (h : Reachable st) :
    ∃ fl al, PoolInv st fl al ∧ ∀ i ∈ fl, (st.wp_pool i).alarm_time = 1 := by
  induction h with
  | init st0 =>
    refine ⟨_, _, poolInv_init st0, ?_⟩
    intro i hi
    exact init_alarm st0 i (List.mem_range.1 hi)
  | alloc st _ ih =>
    obtain ⟨fl, al, hinv, hal⟩ := ih
    cases fl with
    | nil =>
      rw [new_wp_exhausted st al hinv]
      exact ⟨[], al, hinv, hal⟩
    | cons r fl =>
      have hn := poolInv_new_wp st r fl al hinv
      refine ⟨fl, r :: al, hn.2.1, ?_⟩
      intro i hi
      rw [(hn.2.2 i).2.1]
      exact hal i (List.mem_cons_of_mem _ hi)
  | release st no _ ih =>
    obtain ⟨fl, al, hinv, hal⟩ := ih
    by_cases hex : ∃ w ∈ al, (w : Int) = no
    · obtain ⟨w, hw, hno⟩ := hex
      have hf := free_wp_found st fl al w no hinv hw hno
      refine ⟨_, _, hf.2, ?_⟩
      rcases free_wp_effect st no with ⟨hne, _⟩ | ⟨w1, _, _, hfree, hfld⟩
      · exact absurd hf.1 hne
      · have hw1 : w1 = w := by
          have := hf.2.1.1
          rw [hfree] at this
          exact Option.some.inj this
        subst hw1
        intro i hi
        rw [(hfld i).2.2.2]
        by_cases hiw : i = w1
        · simp [hiw]
        · simp only [hiw, if_false]
          rcases List.mem_cons.1 hi with e | e
          · exact absurd e hiw
          · exact hal i e
    · have hno : ∀ w ∈ al, (w : Int) ≠ no := fun w hw e => hex ⟨w, hw, e⟩
      rw [(free_wp_missing st fl al no hinv hno).2]
      exact ⟨fl, al, hinv, hal⟩
  | check m es st _ ih =>
    obtain ⟨fl, al, hinv, hal⟩ := ih
    rcases checkwp_loop_chain m st (NR_WP + 1) es true st.head al hinv.2.1 with h | ⟨w, hw, h⟩
    · rw [checkwp, h]; exact ⟨fl, al, hinv, hal⟩
    · rw [checkwp, h]
      refine ⟨fl, al, poolInv_decremented st fl al w hinv, ?_⟩
      intro i hi
      have hne : i ≠ w := by
        intro e
        subst e
        have hnd := hinv.2.2.1
        rw [List.nodup_append] at hnd
        exact hnd.2.2 hi hw
      simp only [decremented, Function.update_noteq hne]
      exact hal i hi
  | store st i e v _ ih =>
    obtain ⟨fl, al, hinv, hal⟩ := ih
    refine ⟨fl, al, poolInv_store st fl al i e v hinv, ?_⟩
    intro j hj
    simp only [store_wp]
    by_cases hji : j = i
    · subst hji; simp; exact hal j hj
    · rw [Function.update_noteq hji]; exact hal j hj

/-- C11: in every reachable pool state, `new_wp` succeeds exactly when the
free list is not empty; the slot it returns was on the free list (its head)
and was not active; afterwards the active list is that slot followed by the
previously active slots in their old order, the free list is the old one
without the slot, the slot has `alarm_time = 1`, and `wp_display` lists the
new slot first and then the old listing. -/
theorem C11_new_wp_front (st : WpState) (h : Reachable st) :
    ∃ fl al, IsChain st.wp_pool st.free_ fl ∧ IsChain st.wp_pool st.head al ∧
      ((∃ r, (new_wp st).1 = .ok r) ↔ fl ≠ []) ∧
      wp_display st = .ok (al.map (fun w => ((st.wp_pool w).NO, (st.wp_pool w).expression))) ∧
      ∀ r, (new_wp st).1 = .ok r →
        r ∈ fl ∧ r ∉ al ∧
        IsChain (new_wp st).2.wp_pool (new_wp st).2.head (r :: al) ∧
        IsChain (new_wp st).2.wp_pool (new_wp st).2.free_ (fl.erase r) ∧
        ((new_wp st).2.wp_pool r).alarm_time = 1 ∧
        ((new_wp st).2.wp_pool r).NO = (r : Int) ∧
        wp_display (new_wp st).2 =
          .ok ((((r : Int), (st.wp_pool r).expression)) ::
            al.map (fun w => ((st.wp_pool w).NO, (st.wp_pool w).expression))) := by
  obtain ⟨fl, al, hinv, hal⟩ := reachable_fresh st h
  have hlen := poolInv_length st fl al hinv
  have hN : NR_WP = 32 := rfl
  refine ⟨fl, al, hinv.1, hinv.2.1, ?_, ?_, ?_⟩
  · cases fl with
    | nil =>
      rw [new_wp_exhausted st al hinv]
      simp
    | cons r fl =>
      rw [(poolInv_new_wp st r fl al hinv).1]
      simp
  · exact wp_display_loop_chain st.wp_pool al st.head (NR_WP + 1) hinv.2.1 (by omega)
  · intro r hr
    cases fl with
    | nil =>
      rw [new_wp_exhausted st al hinv] at hr
      simp at hr
    | cons r1 fl =>
      have hn := poolInv_new_wp st r1 fl al hinv
      rw [hn.1] at hr
      have hr1 : r1 = r := by injection hr
      subst hr1
      have hnd := hinv.2.2.1
      rw [List.nodup_append] at hnd
      have hlen2 := poolInv_length _ fl (r1 :: al) hn.2.1
      have hr32 : r1 < NR_WP := (hinv.2.2.2.1 r1).1 (by simp)
      refine ⟨List.mem_cons_self _ _, fun hm => hnd.2.2 (List.mem_cons_self _ _) hm,
        hn.2.1.2.1, ?_, ?_, ?_, ?_⟩
      · rw [List.erase_cons_head]; exact hn.2.1.1
      · rw [(hn.2.2 r1).2.1]; exact hal r1 (List.mem_cons_self _ _)
      · rw [(hn.2.2 r1).1]; exact hinv.2.2.2.2 r1 hr32
      · rw [wp_display, wp_display_loop_chain _ (r1 :: al) _ (NR_WP + 1) hn.2.1.2.1
          (by simp only [List.length_cons] at hlen2 ⊢; omega)]
        simp only [List.map_cons]
        congr 1
        congr 1
        · congr 1
          · rw [(hn.2.2 r1).1]; exact hinv.2.2.2.2 r1 hr32
          · exact (hn.2.2 r1).2.2.1
        · apply List.map_congr_left
          intro w _
          rw [(hn.2.2 w).1, (hn.2.2 w).2.2.1]

/-- C11, witness: after two allocations on a fresh pool (slots 0 and 1, the
active list is 1, 0) the third allocation returns slot 2 with budget 1 and
the listing starts with it. -/
theorem C11_new_wp_front_witness :
    Reachable two_active ∧ (new_wp two_active).1 = .ok 2 ∧
    ((new_wp two_active).2.wp_pool 2).alarm_time = 1 ∧
    wp_display (new_wp two_active).2 = .ok [(2, []), (1, []), (0, [])] ∧
    ∃ fl al, IsChain two_active.wp_pool two_active.free_ fl ∧
      IsChain two_active.wp_pool two_active.head al ∧
      ((∃ r, (new_wp two_active).1 = .ok r) ↔ fl ≠ []) ∧
      wp_display two_active =
        .ok (al.map (fun w => ((two_active.wp_pool w).NO, (two_active.wp_pool w).expression))) ∧
      ∀ r, (new_wp two_active).1 = .ok r →
        r ∈ fl ∧ r ∉ al ∧
        IsChain (new_wp two_active).2.wp_pool (new_wp two_active).2.head (r :: al) ∧
        IsChain (new_wp two_active).2.wp_pool (new_wp two_active).2.free_ (fl.erase r) ∧
        ((new_wp two_active).2.wp_pool r).alarm_time = 1 ∧
        ((new_wp two_active).2.wp_pool r).NO = (r : Int) ∧
        wp_display (new_wp two_active).2 =
          .ok ((((r : Int), (two_active.wp_pool r).expression)) ::
            al.map (fun w => ((two_active.wp_pool w).NO, (two_active.wp_pool w).expression))) :=
  ⟨Reachable.alloc _ (Reachable.alloc _ (Reachable.init _)), rfl, by decide, rfl,
    C11_new_wp_front two_active (Reachable.alloc _ (Reachable.alloc _ (Reachable.init _)))⟩

/-- C12 (as amended): in every reachable pool state and for every active
slot `w`, `free_wp` of its number releases it: afterwards the slot heads the
free list, keeps its number and has `alarm_time = 1`, while its expression
text and its last value are what they were before the call. -/
theorem C12_free_wp_resets_budget_only (st : WpState) (h : Reachable st) :
    ∃ fl al, IsChain st.wp_pool st.free_ fl ∧ IsChain st.wp_pool st.head al ∧
      ∀ w ∈ al,
        (free_wp st (w : Int)).1 = .ok .freed ∧
        (free_wp st (w : Int)).2.free_ = some w ∧
        ((free_wp st (w : Int)).2.wp_pool w).NO = (w : Int) ∧
        ((free_wp st (w : Int)).2.wp_pool w).alarm_time = 1 ∧
        ((free_wp st (w : Int)).2.wp_pool w).expression = (st.wp_pool w).expression ∧
        ((free_wp st (w : Int)).2.wp_pool w).last_val = (st.wp_pool w).last_val := by
  obtain ⟨fl, al, hinv⟩ := reachable_inv st h
  refine ⟨fl, al, hinv.1, hinv.2.1, ?_⟩
  intro w hw
  have hf := free_wp_found st fl al w (w : Int) hinv hw rfl
  have hfree : (free_wp st (w : Int)).2.free_ = some w := hf.2.1.1
  rcases free_wp_effect st (w : Int) with ⟨hne, _⟩ | ⟨w1, _, _, hfree1, hfld⟩
  · exact absurd hf.1 hne
  · have hw1 : w1 = w := by
      rw [hfree] at hfree1
      exact (Option.some.inj hfree1).symm
    subst hw1
    refine ⟨hf.1, hfree, ?_, ?_, (hfld w1).2.1, (hfld w1).2.2.1⟩
    · rw [(hfld w1).1]; exact poolInv_NO st fl al hinv w1 hw
    · rw [(hfld w1).2.2.2]; simp

/-- C12, witness: the pool with slot 0 active on `1+2` and last value 3 is
reachable, and releasing id 0 leaves the text and the value in the slot. -/
theorem C12_free_wp_resets_budget_only_witness :
    Reachable watch_three ∧
    ∃ fl al, IsChain watch_three.wp_pool watch_three.free_ fl ∧
      IsChain watch_three.wp_pool watch_three.head al ∧
      ∀ w ∈ al,
        (free_wp watch_three (w : Int)).1 = .ok .freed ∧
        (free_wp watch_three (w : Int)).2.free_ = some w ∧
        ((free_wp watch_three (w : Int)).2.wp_pool w).NO = (w : Int) ∧
        ((free_wp watch_three (w : Int)).2.wp_pool w).alarm_time = 1 ∧
        ((free_wp watch_three (w : Int)).2.wp_pool w).expression =
          (watch_three.wp_pool w).expression ∧
        ((free_wp watch_three (w : Int)).2.wp_pool w).last_val =
          (watch_three.wp_pool w).last_val :=
  ⟨Reachable.store _ _ _ _ (Reachable.alloc _ (Reachable.init _)),
    C12_free_wp_resets_budget_only watch_three
      (Reachable.store _ _ _ _ (Reachable.alloc _ (Reachable.init _)))⟩

/-- C12, counterexample: slot 0 is active with the text `1+2` and the last
value 3 (allocated on a fresh pool and filled in by the caller); after
`free_wp(0)` the slot is on the free list with its number and budget 1, but
its expression text is still `1+2`, not empty, and its last value still 3,
not 0. -/
theorem C12_counterexample_fields_kept :
    Reachable watch_three ∧ IsChain watch_three.wp_pool watch_three.head [0] ∧
    (free_wp watch_three 0).1 = .ok .freed ∧
    (free_wp watch_three 0).2.free_ = some 0 ∧
    (free_wp watch_three 0).2.head = none ∧
    ((free_wp watch_three 0).2.wp_pool 0).NO = 0 ∧
    ((free_wp watch_three 0).2.wp_pool 0).alarm_time = 1 ∧
    ((free_wp watch_three 0).2.wp_pool 0).expression = ['1', '+', '2'] ∧
    ((free_wp watch_three 0).2.wp_pool 0).expression ≠ [] ∧
    ((free_wp watch_three 0).2.wp_pool 0).last_val = 3 ∧
    ((free_wp watch_three 0).2.wp_pool 0).last_val ≠ 0 := by
  refine ⟨Reachable.store _ _ _ _ (Reachable.alloc _ (Reachable.init _)), ?_, rfl, rfl, rfl,
    by decide, by decide, by decide, by decide, by decide, by decide⟩
  exact ⟨rfl, rfl⟩

/-! ## Lexer overruns and stale token text -/

theorem make_token_loop_step_fault (f : Nat) (c : Char) (cs : List Char) (position : Int)
    (st : ExprState) (ty : Int) (n : Nat) (e : Fault) (hc : c.toNat ≠ 0)
    (hfm : (first_match rules (c :: cs)).map (fun rn => (rn.1.token_type, rn.2)) = some (ty, n))
    (hrec : record_token st ty (c :: cs) n = .error e) (hf : 0 < f) :
    make_token_loop f (c :: cs) position st = .error e := by
  cases f with
  | zero => omega
  | succ f =>
    cases hfm1 : first_match rules (c :: cs) with
    | none => simp [hfm1] at hfm
    | some rn =>
      obtain ⟨r, k⟩ := rn
      simp only [hfm1, Option.map_some', Option.some.injEq, Prod.mk.injEq] at hfm
      obtain ⟨rfl, rfl⟩ := hfm
      simp only [make_token_loop, hc, if_false, hfm1, hrec]

theorem lex_token_full (t : Token) (h : TokOK t) (rest : List Char)
    (hstop : isLit t → StopsLit rest) (st : ExprState) (hnr : ¬ inTokens st.nr_token)
    (f : Nat) (position : Int) (hf : 0 < f) :
    make_token_loop f (tokText t ++ rest) position st = .error .outOfBounds := by
  have hne := tokText_ne_nil t h
  have hhead := tokText_head t h
  cases htt : tokText t with
  | nil => exact absurd htt hne
  | cons c cs =>
    rw [htt] at hhead
    have hc := (hhead c (by simp)).1
    rcases h with h | h | h
    · have hfm := first_match_op t rest h
      rw [htt] at hfm
      have hrec : record_token st t.type (c :: cs ++ rest) (c :: cs).length =
          .error .outOfBounds := by
        simp only [record_token, h, if_true, hnr, if_false]
      exact make_token_loop_step_fault f c (cs ++ rest) position st t.type _ _ hc hfm hrec hf
    · obtain ⟨h1, h2, h3, h4⟩ := h
      have hts : t.str = c :: cs := by simpa [tokText, h1] using htt
      rw [hts] at h3
      have hfm := first_match_dec c cs rest h3 (hstop (Or.inl h1))
      have hrec : record_token st t.type (c :: cs ++ rest) (cs.length + 1) =
          .error .outOfBounds := by
        simp [record_token, h1, hnr]
      exact make_token_loop_step_fault f c (cs ++ rest) position st t.type _ _ hc
        (by rw [h1]; exact hfm) hrec hf
    · obtain ⟨h1, h4, x, s, h2, hx, hs, h3⟩ := h
      have hts : c :: cs = '0' :: x :: s := by
        rw [← h2]; simpa [tokText, h1] using htt.symm
      have hfm := first_match_hex x s rest hx hs h3 (hstop (Or.inr h1))
      have hrec : record_token st t.type ('0' :: x :: s ++ rest) (s.length + 2) =
          .error .outOfBounds := by
        simp [record_token, h1, hnr]
      rw [hts]
      exact make_token_loop_step_fault f '0' (x :: s ++ rest) position st t.type _ _
        (by decide) (by rw [h1]; simpa using hfm) (by simpa using hrec) hf

/-- A text of more tokens than the array has room for: the scan records the
tokens up to index 63 and stores the next one past the end of `tokens`. -/
theorem lex_spell_overrun : ∀ (ts : List Token) (gaps : List Nat) (st : ExprState) (f : Nat)
    (position : Int), Lexable ts → 0 ≤ st.nr_token → st.nr_token ≤ 64 →
    64 < st.nr_token + ts.length → (spell gaps ts).length < f →
    make_token_loop f (spell gaps ts) position st = .error .outOfBounds := by
  intro ts
  induction ts with
  | nil =>
    intro gaps st f position _ _ h1 h2 _
    simp only [List.length_nil] at h2
    push_cast at h2
    omega
  | cons t ts ih =>
    intro gaps st f position hlex hnr hle hlen hf
    obtain ⟨htok, hadj, hlex1⟩ := hlex
    simp only [List.length_cons] at hlen
    push_cast at hlen
    simp only [spell] at hf ⊢
    have hf1 : (tokText t ++ spell gaps.tail ts).length < f := by
      simp only [List.length_append] at hf ⊢; omega
    rw [lex_spaces (gaps.headD 0) _ (spell_head_ne_space t htok _) st f position hf]
    by_cases h64 : st.nr_token = 64
    · exact lex_token_full t htok _
        (fun hl => stopsLit_spell t ts gaps.tail ⟨htok, hadj, hlex1⟩ hl) st
        (by rw [h64]; decide) f _ (by omega)
    · obtain ⟨str, _, hstep⟩ := lex_token t htok (spell gaps.tail ts)
        (fun hl => stopsLit_spell t ts gaps.tail ⟨htok, hadj, hlex1⟩ hl) st
        ⟨hnr, by omega⟩ f (position + (gaps.headD 0 : Nat)) hf1
      rw [hstep]
      exact ih gaps.tail _ f _ hlex1 (by simp only; omega) (by simp only; omega)
        (by simp only; omega) (by simp only [List.length_append] at hf1; omega)

theorem lexable_plus_run : ∀ n : Nat, Lexable (List.replicate n ⟨TK_PLUS, []⟩) := by
  intro n
  induction n with
  | zero => trivial
  | succ n ih =>
    refine ⟨Or.inl (Or.inl rfl), ?_, ih⟩
    intro t1 _ h
    rcases h.1 with h1 | h1 <;> exact absurd h1 (by decide)

theorem isDec_toNat {c : Char} (h : isDec c = true) : c.toNat ≠ 0 := by
  simp only [isDec, decide_eq_true_eq] at h; omega

/-- C13: `make_token` stores outside its fixed buffers. For every earlier
content of the token array:
(1) a text of more than 64 tokens (any spacing) makes it store past
`tokens[64]`;
(2) a text that starts with a decimal literal of 32 or more digits makes it
store past `str[32]`;
(3) so does a text that starts with a hex literal of 32 or more characters;
(4) so does a register name of 32 or more characters after the sigil.
No such input is rejected or truncated. -/
theorem C13_make_token_overrun (st : ExprState) :
    (∀ (ts : List Token) (gaps : List Nat), Lexable ts → 64 < ts.length →
      make_token st (spell gaps ts) = .error .outOfBounds) ∧
    (∀ (c : Char) (s rest : List Char), (∀ d ∈ c :: s, isDec d = true) → StopsLit rest →
      32 ≤ (c :: s).length → make_token st (c :: s ++ rest) = .error .outOfBounds) ∧
    (∀ (x : Char) (s rest : List Char), (x = 'x' ∨ x = 'X') → s ≠ [] →
      (∀ d ∈ s, isHex d = true) → StopsLit rest → 32 ≤ ('0' :: x :: s).length →
      make_token st ('0' :: x :: s ++ rest) = .error .outOfBounds) ∧
    (∀ (c : Char) (name : List Char), (∀ d ∈ c :: name, isLowerAlnum d = true) →
      32 ≤ (c :: name).length → make_token st ('$' :: c :: name) = .error .outOfBounds) := by
  refine ⟨?_, ?_, ?_, ?_⟩
  · intro ts gaps hlex hlen
    exact lex_spell_overrun ts gaps ⟨st.tokens, 0⟩ _ 0 hlex (le_refl _)
      (by show (0 : Int) ≤ 64; decide) (by simp only; omega) (by omega)
  · intro c s rest hs hr hlen
    have hfm := first_match_dec c s rest hs hr
    have hrec : record_token ⟨st.tokens, 0⟩ TK_NUM (c :: s ++ rest) (s.length + 1) =
        .error .outOfBounds := by
      simp only [List.length_cons] at hlen
      have : ¬ (s.length + 1 < 32) := by omega
      simp [record_token, this]
    exact make_token_loop_step_fault _ c (s ++ rest) 0 _ TK_NUM _ _
      (isDec_toNat (hs c (List.mem_cons_self _ _))) hfm hrec (by omega)
  · intro x s rest hx hne hs hr hlen
    have hfm := first_match_hex x s rest hx hne hs hr
    have hrec : record_token ⟨st.tokens, 0⟩ TK_HEX ('0' :: x :: s ++ rest) (s.length + 2) =
        .error .outOfBounds := by
      simp only [List.length_cons] at hlen
      have : ¬ (s.length + 2 < 32) := by omega
      simp [record_token, this]
    exact make_token_loop_step_fault _ '0' (x :: s ++ rest) 0 _ TK_HEX _ _
      (by decide) (by simpa using hfm) (by simpa using hrec) (by omega)
  · intro c name hs hlen
    have hfm := first_match_reg c name hs
    have hrec : record_token ⟨st.tokens, 0⟩ TK_REG ('$' :: c :: name) (name.length + 2) =
        .error .outOfBounds := by
      simp only [List.length_cons] at hlen
      simp only [record_token]
      simp
      intro _
      omega
    exact make_token_loop_step_fault _ '$' (c :: name) 0 _ TK_REG _ _
      (by decide) hfm hrec (by omega)

/-- C13, witness: the text of 65 plus signs and the 32-digit literal
`00000000000000000000000000000001` both leave the buffers, on the token
array of a fresh program. -/
theorem C13_make_token_overrun_witness :
    (spell [] (List.replicate 65 ⟨TK_PLUS, []⟩) = plus_run ∧
      make_token ExprState.init (spell [] (List.replicate 65 ⟨TK_PLUS, []⟩)) =
        .error .outOfBounds) ∧
    (literal_32.length = 32 ∧ make_token ExprState.init literal_32 = .error .outOfBounds) := by
  have h := C13_make_token_overrun ExprState.init
  refine ⟨⟨by decide, h.1 _ [] ?_ (by decide)⟩, ⟨by decide, ?_⟩⟩
  · exact lexable_plus_run 65
  · have := h.2.1 '0' (List.replicate 30 '0' ++ ['1']) [] (by decide) stopsLit_nil (by decide)
    simpa [literal_32] using this

/-! ## C6: texts of more than 64 tokens -/

theorem spell_plus_run : ∀ n : Nat,
    spell [] (List.replicate n ⟨TK_PLUS, []⟩) = List.replicate n '+' := by
  intro n
  induction n with
  | zero => rfl
  | succ n ih =>
    show List.replicate 0 ' ' ++ (['+'] ++ spell [] (List.replicate n ⟨TK_PLUS, []⟩)) = _
    rw [ih]
    rfl

/-- A text of more than 64 plus signs: a rule matches at every offset, and
`make_token` stores past `tokens[64]`. -/
theorem plus_text_overrun (st : ExprState) (n : Nat) (h : 64 < n) :
    (∀ p, ¬ NoRuleAt (List.replicate n '+') p) ∧
    make_token st (List.replicate n '+') = .error .outOfBounds := by
  constructor
  · rintro p ⟨c, cs, h1, _, h3⟩
    have hc : c = '+' := by
      have hmem : c ∈ List.replicate n '+' :=
        List.mem_of_mem_drop (by rw [h1]; exact List.mem_cons_self _ _)
      exact List.eq_of_mem_replicate hmem
    subst hc
    have := first_match_plus cs
    rw [h3] at this
    simp at this
  · rw [← spell_plus_run n]
    exact lex_spell_overrun _ [] ⟨st.tokens, 0⟩ _ 0 (lexable_plus_run n) (le_refl _)
      (by show (0 : Int) ≤ 64; decide)
      (by simp only [List.length_replicate]; omega) (by omega)

/-- C6, counterexample: in a text of 66 plus signs, of 1000 and of
10 000 000 a rule matches at every offset, yet `make_token` does not return
true: after `tokens[63]` each further token is stored past the end of the
array, 36 bytes further on every time (over some 70 bytes, 33 kilobytes and
360 megabytes for the three texts). -/
theorem C6_counterexample_token_overrun :
    ((∀ p, ¬ NoRuleAt (List.replicate 66 '+') p) ∧
      lexOf (make_token ExprState.init (List.replicate 66 '+')) = none ∧
      make_token ExprState.init (List.replicate 66 '+') = .error .outOfBounds) ∧
    ((∀ p, ¬ NoRuleAt (List.replicate 1000 '+') p) ∧
      lexOf (make_token ExprState.init (List.replicate 1000 '+')) = none ∧
      make_token ExprState.init (List.replicate 1000 '+') = .error .outOfBounds) ∧
    ((∀ p, ¬ NoRuleAt (List.replicate 10000000 '+') p) ∧
      lexOf (make_token ExprState.init (List.replicate 10000000 '+')) = none ∧
      make_token ExprState.init (List.replicate 10000000 '+') = .error .outOfBounds) := by
  have h1 := plus_text_overrun ExprState.init 66 (by decide)
  have h2 := plus_text_overrun ExprState.init 1000 (by decide)
  have h3 := plus_text_overrun ExprState.init 10000000 (by decide)
  refine ⟨⟨h1.1, ?_, h1.2⟩, ⟨h2.1, ?_, h2.2⟩, ⟨h3.1, ?_, h3.2⟩⟩
  · rw [h1.2]; rfl
  · rw [h2.2]; rfl
  · rw [h3.2]; rfl

/-! ## C14: token text that survives a call -/

/-- C14: the second call reads text left by the first. After `expr("(0x100)")`
has returned 256, entry 1 of the token array still holds the text `0x100`;
`expr("*)")` then records `*` and `)` without touching that text, takes the
`*` for a dereference and reads its operand from `tokens[1].str`: it returns
the memory word at 0x100. On the token array of a fresh program the same
text returns the memory word at 0. On the example machine these are 42
and 0. -/
theorem C14_stale_token_text (m : Machine) :
    ∃ out1, expr m ExprState.init "(0x100)".toList true = .ok out1 ∧ out1.value = 256 ∧
      (out1.st.tokens 1).str = "0x100".toList ∧
      valueOf (expr m out1.st "*)".toList true) = some (m.paddr_read 256 4 % WORD) ∧
      valueOf (expr m ExprState.init "*)".toList true) = some (m.paddr_read 0 4 % WORD) ∧
      valueOf (expr demoMachine out1.st "*)".toList true) = some 42 ∧
      valueOf (expr demoMachine ExprState.init "*)".toList true) = some 0 := by
  refine ⟨_, rfl, rfl, ?_, ?_, ?_, ?_, ?_⟩
  · decide
  · rfl
  · rfl
  · rfl
  · rfl

/-! ## C15: `memset` -/

theorem memset_loop_spec (byte : Nat) (c : Int) (n : Nat) (hn : (n : Int) ≤ INT_MAX) :
    ∀ (fuel : Nat) (i : Nat) (mem : Bytes), i ≤ n → n - i < fuel →
    ∃ mem1, memset_loop byte c n fuel (i : Int) mem = .ok mem1 ∧
      ∀ a, mem1 a = if byte + i ≤ a ∧ a < byte + n then toByte c else mem a := by
  intro fuel
  induction fuel with
  | zero => intro i mem _ hf; omega
  | succ fuel ih =>
    intro i mem hi hf
    simp only [memset_loop]
    by_cases hlt : (i : Int) < (n : Int)
    · have hlt1 : i < n := by exact_mod_cast hlt
      have hov : (i : Int) + 1 ≤ INT_MAX := by omega
      simp only [hlt, hov, if_true, Int.toNat_ofNat]
      obtain ⟨mem1, h1, h2⟩ := ih (i + 1)
        (Function.update mem (byte + i) (toByte c)) (by omega) (by omega)
      refine ⟨mem1, by exact_mod_cast h1, ?_⟩
      intro a
      rw [h2 a]
      by_cases ha : a = byte + i
      · subst ha
        have h3 : ¬ (byte + (i + 1) ≤ byte + i ∧ byte + i < byte + n) := by omega
        have h4 : byte + i ≤ byte + i ∧ byte + i < byte + n := by omega
        rw [if_neg h3, if_pos h4, Function.update_same]
      · rw [Function.update_noteq ha]
        by_cases hr : byte + (i + 1) ≤ a ∧ a < byte + n
        · have hr2 : byte + i ≤ a ∧ a < byte + n := by omega
          rw [if_pos hr, if_pos hr2]
        · have hr2 : ¬ (byte + i ≤ a ∧ a < byte + n) := by omega
          rw [if_neg hr, if_neg hr2]
    · have : i = n := by
        have : ¬ i < n := fun h => hlt (by exact_mod_cast h)
        omega
      subst this
      refine ⟨mem, by simp only [hlt, if_false], ?_⟩
      intro a
      have : ¬ (byte + i ≤ a ∧ a < byte + i) := by omega
      rw [if_neg this]

/-- C15: what klib `memset(s, c, n)` does, for every memory, pointer, value
and length up to `INT_MAX`: it returns `s`, the `n` bytes `s[0..n-1]` hold
the byte of `c`, the byte `s[n]` holds 0, whatever it held before, and
every other byte is unchanged. -/
theorem C15_memset_writes_past_end (mem : Bytes) (s : Nat) (c : Int) (n : Nat)
    (hn : (n : Int) ≤ INT_MAX) :
    ∃ mem1, memset mem s c n = .ok (mem1, s) ∧
      (∀ k, k < n → mem1 (s + k) = toByte c) ∧ mem1 (s + n) = 0 ∧
      ∀ a, (a < s ∨ s + n < a) → mem1 a = mem a := by
  obtain ⟨mem0, h1, h2⟩ := memset_loop_spec s c n hn (n + 1) 0 mem (Nat.zero_le _) (by omega)
  refine ⟨Function.update mem0 (s + n) 0, ?_, ?_, ?_, ?_⟩
  · simp only [memset]
    have h1 : memset_loop s c n (n + 1) 0 mem = .ok mem0 := by exact_mod_cast h1
    rw [h1]
  · intro k hk
    rw [Function.update_noteq (by omega), h2]
    have : s + 0 ≤ s + k ∧ s + k < s + n := by omega
    rw [if_pos this]
  · simp
  · intro a ha
    rw [Function.update_noteq (by omega), h2]
    have : ¬ (s + 0 ≤ a ∧ a < s + n) := by omega
    rw [if_neg this]

/-- C15, witness: `memset(s, 'A', 2)` at address 10 of a memory that holds
`B` (66) everywhere returns 10 and leaves `A A` at 10 and 11, the byte 0 at
address 12, where `B` stood, and `B` elsewhere. -/
theorem C15_memset_writes_past_end_witness :
    all_B 12 = 66 ∧
    ∃ mem1, memset all_B 10 65 2 = .ok (mem1, 10) ∧
      (∀ k, k < 2 → mem1 (10 + k) = toByte 65) ∧ mem1 (10 + 2) = 0 ∧
      ∀ a, (a < 10 ∨ 10 + 2 < a) → mem1 a = all_B a :=
  ⟨rfl, C15_memset_writes_past_end all_B 10 65 2 (by decide)⟩
/-! ## C17: the bracket matcher and the depth counter -/

theorem depth_loop_spec (tokens : Int → Token) (p : Int) (n : Nat) (q : Int)
    (hq : q = p + n - 1) (hin : ∀ j : Nat, j < n → inTokens (p + j))
    (hcap : ∀ k : Nat, k ≤ n →
      (∀ j : Nat, j < k → 1 ≤ j → depth_after tokens p j ≠ 0) → depth_after tokens p k ≤ 16) :
    ∀ (m k fuel : Nat), k + m = n → 1 ≤ k →
    (∀ j : Nat, j ≤ k → 1 ≤ j → 1 ≤ depth_after tokens p j) → m < fuel →
    depth_loop tokens q fuel (p + k) (depth_after tokens p k) =
      .ok (decide (depth_after tokens p n = 0 ∧
        ∀ j : Nat, j < n → 1 ≤ j → depth_after tokens p j ≠ 0)) := by
  intro m
  induction m with
  | zero =>
    intro k fuel hk h1 hpos hf
    have hkn : k = n := by omega
    subst hkn
    rw [depth_loop_done tokens q fuel _ _ (by omega) hf]
    have := hpos k (le_refl _) h1
    have hne : ¬ (depth_after tokens p k = 0 ∧
        ∀ j : Nat, j < k → 1 ≤ j → depth_after tokens p j ≠ 0) := by
      intro h; omega
    simp only [hne, decide_False]
  | succ m ih =>
    intro k fuel hk h1 hpos hf
    have hi : p + (k : Int) ≤ q := by omega
    have hb : inTokens (p + (k : Int)) := hin k (by omega)
    have hfu : (q + 1 - (p + (k : Int))).toNat < fuel := by omega
    have hd1 := hpos k (le_refl _) h1
    have hd16 := hcap k (by omega) (fun j hj hj1 => by have := hpos j (by omega) hj1; omega)
    have hstep : depth_after tokens p (k + 1) =
        depth_after tokens p k + bracket_delta (tokens (p + k)) := rfl
    have hcast : p + ((k + 1 : Nat) : Int) = p + (k : Int) + 1 := by push_cast; omega
    by_cases hlb : (tokens (p + (k : Int))).type = TK_LB
    · have hdl : bracket_delta (tokens (p + k)) = 1 := by simp [bracket_delta, hlb]
      have hnext : depth_after tokens p (k + 1) = depth_after tokens p k + 1 := by
        rw [hstep, hdl]
      have hc := hcap (k + 1) (by omega)
        (fun j hj hj1 => by have := hpos j (by omega) hj1; omega)
      rw [depth_loop_lb tokens q fuel _ _ hi hb hlb ⟨by omega, by omega⟩ hfu]
      have := ih (k + 1) fuel (by omega) (by omega) (fun j hj hj1 => by
        by_cases hjk : j ≤ k
        · exact hpos j hjk hj1
        · have : j = k + 1 := by omega
          subst this; omega) (by omega)
      rw [hcast, hnext] at this
      exact this
    · by_cases hrb : (tokens (p + (k : Int))).type = TK_RB
      · have hdl : bracket_delta (tokens (p + k)) = -1 := by simp [bracket_delta, hlb, hrb]
        have hnext : depth_after tokens p (k + 1) = depth_after tokens p k - 1 := by
          rw [hstep, hdl]; omega
        by_cases hone : depth_after tokens p k = 1
        · rw [hone, depth_loop_rb1 tokens q fuel _ hi hb hrb (by omega)]
          congr 1
          by_cases hkq : p + (k : Int) = q
          · have hkn : k + 1 = n := by omega
            subst hkn
            have : depth_after tokens p (k + 1) = 0 ∧
                ∀ j : Nat, j < k + 1 → 1 ≤ j → depth_after tokens p j ≠ 0 :=
              ⟨by omega, fun j hj hj1 => by have := hpos j (by omega) hj1; omega⟩
            simp only [hkq, decide_True]
            exact (decide_eq_true this).symm
          · have : ¬ (depth_after tokens p n = 0 ∧
                ∀ j : Nat, j < n → 1 ≤ j → depth_after tokens p j ≠ 0) := by
              intro h
              exact h.2 (k + 1) (by omega) (by omega) (by omega)
            simp only [hkq, this, decide_False]
        · rw [depth_loop_rb tokens q fuel _ _ hi hb hrb ⟨by omega, by omega⟩ hfu]
          have := ih (k + 1) fuel (by omega) (by omega) (fun j hj hj1 => by
            by_cases hjk : j ≤ k
            · exact hpos j hjk hj1
            · have : j = k + 1 := by omega
              subst this; omega) (by omega)
          rw [hcast, hnext] at this
          exact this
      · have hdl : bracket_delta (tokens (p + k)) = 0 := by simp [bracket_delta, hlb, hrb]
        have hnext : depth_after tokens p (k + 1) = depth_after tokens p k := by
          rw [hstep, hdl]; omega
        rw [depth_loop_other tokens q fuel _ _ hi hb hlb hrb hfu]
        have := ih (k + 1) fuel (by omega) (by omega) (fun j hj hj1 => by
          by_cases hjk : j ≤ k
          · exact hpos j hjk hj1
          · have : j = k + 1 := by omega
            subst this; omega) (by omega)
        rw [hcast, hnext] at this
        exact this

/-- The bracket matcher is the depth counter, as long as the counter fits
the array `match`. -/
theorem check_parentheses_spec (tokens : Int → Token) (p q : Int) (hp : inTokens p)
    (hq : inTokens q) (hcap : depth_fits tokens p q) :
    check_parentheses tokens p q =
      .ok (decide ((tokens p).type = TK_LB ∧ (tokens q).type = TK_RB ∧
        first_zero_at tokens p q)) := by
  unfold check_parentheses
  simp only [tokenAt, hp, hq, if_true]
  by_cases hlb : (tokens p).type = TK_LB
  swap
  · simp [hlb]
  by_cases hrb : (tokens q).type = TK_RB
  swap
  · simp [hlb, hrb]
  simp only [hlb, hrb, if_true, true_and]
  rw [check_parentheses_loop_eq tokens q _ p _ 0 (le_refl _) (fun k h1 h2 => by omega)]
  by_cases hpq : p ≤ q
  swap
  · rw [depth_loop_done tokens q _ _ _ (by omega) (by omega)]
    have : ¬ first_zero_at tokens p q := fun h => hpq h.1
    simp [this]
  obtain ⟨n, hn⟩ : ∃ n : Nat, (q + 1 - p).toNat = n := ⟨_, rfl⟩
  have hqn : q = p + n - 1 := by omega
  have hn1 : 1 ≤ n := by omega
  have h1 : depth_after tokens p 1 = 1 := by
    simp [depth_after, bracket_delta, hlb]
  rw [depth_loop_lb tokens q _ p 0 hpq hp hlb ⟨le_refl _, by decide⟩ (by omega)]
  have hin : ∀ j : Nat, j < n → inTokens (p + j) := by
    intro j hj
    have := hp.1
    have := hq.2
    exact ⟨by omega, by omega⟩
  have hcap1 : ∀ k : Nat, k ≤ n →
      (∀ j : Nat, j < k → 1 ≤ j → depth_after tokens p j ≠ 0) →
      depth_after tokens p k ≤ 16 := by
    intro k hk hz
    exact hcap k (by omega) hz
  have := depth_loop_spec tokens p n q hqn hin hcap1 (n - 1) 1 ((q + 1 - p).toNat + 1)
    (by omega) (le_refl _) (fun j hj hj1 => by
      have : j = 1 := by omega
      subst this; omega) (by omega)
  rw [h1] at this
  have hc : p + ((1 : Nat) : Int) = p + 1 := by push_cast; rfl
  rw [hc] at this
  rw [zero_add, this]
  congr 1
  simp only [first_zero_at, hpq, true_and, hn]

/-- C17 (as amended): for every token array and positions `p`, `q` inside it
such that the depth counter stays at most 16 while the scan runs,
`check_parentheses(p, q)` returns, and returns true iff the token at `p` is
an opening bracket, the token at `q` is a closing bracket, and the depth
counter scanned over `p..q` reaches zero for the first time exactly at `q`. -/
theorem C17_check_parentheses_depth (tokens : Int → Token) (p q : Int) (hp : inTokens p)
    (hq : inTokens q) (hcap : depth_fits tokens p q) :
    ∃ b, check_parentheses tokens p q = .ok b ∧
      (b = true ↔ ((tokens p).type = TK_LB ∧ (tokens q).type = TK_RB ∧
        first_zero_at tokens p q)) := by
  refine ⟨_, check_parentheses_spec tokens p q hp hq hcap, ?_⟩
  simp only [decide_eq_true_eq]

/-- C17, witness: on the tokens of 31 nested pairs around `1` the innermost
pair, at 30 and 32, is matched, and the pair 30, 33 is not. -/
theorem C17_check_parentheses_depth_witness :
    check_parentheses deep_tokens 30 32 = .ok true ∧
    check_parentheses deep_tokens 30 33 = .ok false ∧
    ∃ b, check_parentheses deep_tokens 30 32 = .ok b ∧
      (b = true ↔ ((deep_tokens 30).type = TK_LB ∧ (deep_tokens 32).type = TK_RB ∧
        first_zero_at deep_tokens 30 32)) :=
  ⟨rfl, rfl, C17_check_parentheses_depth deep_tokens 30 32 (by decide) (by decide) (by decide)⟩

set_option maxRecDepth 100000 in
/-- C17, counterexample. (1) On the 63 tokens of 31 nested pairs around `1`
the token at 0 is an opening bracket, the token at 62 a closing bracket and
the depth counter over 0..62 is zero for the first time at 62, yet
`check_parentheses(0, 62)` does not return true: the opening brackets 17 to
31 are stored at `match[16]` to `match[30]`, 15 entries past the array.
(2) On 63 opening brackets followed by one closing bracket the counter over
0..63 never returns to zero, yet `check_parentheses(0, 63)` does not return
false: it stores 47 entries past the array. -/
theorem C17_counterexample_deep_nesting :
    (inTokens 0 ∧ inTokens 62 ∧ (deep_tokens 0).type = TK_LB ∧
      (deep_tokens 62).type = TK_RB ∧ first_zero_at deep_tokens 0 62 ∧
      check_parentheses deep_tokens 0 62 ≠ .ok true ∧
      check_parentheses deep_tokens 0 62 = .error .outOfBounds) ∧
    (inTokens 0 ∧ inTokens 63 ∧ (open_tokens 0).type = TK_LB ∧
      (open_tokens 63).type = TK_RB ∧ ¬ first_zero_at open_tokens 0 63 ∧
      check_parentheses open_tokens 0 63 ≠ .ok false ∧
      check_parentheses open_tokens 0 63 = .error .outOfBounds) := by
  have h1 : check_parentheses deep_tokens 0 62 = .error .outOfBounds := rfl
  have h2 : check_parentheses open_tokens 0 63 = .error .outOfBounds := rfl
  refine ⟨⟨by decide, by decide, by decide, by decide, by decide, ?_, h1⟩,
    ⟨by decide, by decide, by decide, by decide, by decide, ?_, h2⟩⟩
  · rw [h1]; intro h; cases h
  · rw [h2]; intro h; cases h

/-! ## C16: the operator locator on balanced token ranges -/

theorem depth_after_add (tokens : Int → Token) (p : Int) (k : Nat) : ∀ x : Nat,
    depth_after tokens (p + k) x = depth_after tokens p (k + x) - depth_after tokens p k := by
  intro x
  induction x with
  | zero => simp [depth_after]
  | succ x ih =>
    have h1 : depth_after tokens (p + k) (x + 1) =
        depth_after tokens (p + k) x + bracket_delta (tokens (p + k + x)) := rfl
    have h2 : depth_after tokens p (k + (x + 1)) =
        depth_after tokens p (k + x) + bracket_delta (tokens (p + ((k + x : Nat) : Int))) := rfl
    have h3 : p + ((k + x : Nat) : Int) = p + k + x := by push_cast; omega
    rw [h1, h2, ih, h3]
    omega

theorem bracket_delta_cases (t : Token) :
    (t.type = TK_LB ∧ bracket_delta t = 1) ∨
    (t.type ≠ TK_LB ∧ t.type = TK_RB ∧ bracket_delta t = -1) ∨
    (t.type ≠ TK_LB ∧ t.type ≠ TK_RB ∧ bracket_delta t = 0) := by
  by_cases h1 : t.type = TK_LB
  · left; simp [bracket_delta, h1]
  · by_cases h2 : t.type = TK_RB
    · right; left; simp [bracket_delta, h1, h2]
    · right; right; simp [bracket_delta, h1, h2]

/-- In a balanced range an opening bracket at a top-level offset `k` has its
closing bracket at an offset `m` of the range: the counter is back at zero
after `m` for the first time. -/
theorem exists_match (tokens : Int → Token) (p : Int) (n k : Nat)
    (hbal : balanced tokens p n) (hk : k < n) (hd : depth_after tokens p k = 0)
    (hlb : (tokens (p + k)).type = TK_LB) :
    ∃ m : Nat, k < m ∧ m < n ∧ depth_after tokens p (m + 1) = 0 ∧
      ∀ j : Nat, k < j → j ≤ m → 1 ≤ depth_after tokens p j := by
  have h1 : depth_after tokens p (k + 1) = 1 := by
    show depth_after tokens p k + bracket_delta (tokens (p + k)) = 1
    rw [hd]; simp [bracket_delta, hlb]
  have hex : ∃ x : Nat, k < x ∧ depth_after tokens p x = 0 := ⟨n, hk, hbal.1⟩
  have hspec := Nat.find_spec hex
  have hmin : ∀ x : Nat, x < Nat.find hex → ¬ (k < x ∧ depth_after tokens p x = 0) :=
    fun x hx => Nat.find_min hex hx
  have hle : Nat.find hex ≤ n := Nat.find_min' hex ⟨hk, hbal.1⟩
  have hne : Nat.find hex ≠ k + 1 := by
    intro e
    rw [e] at hspec
    omega
  refine ⟨Nat.find hex - 1, by omega, by omega, ?_, ?_⟩
  · have : Nat.find hex - 1 + 1 = Nat.find hex := by omega
    rw [this]; exact hspec.2
  · intro j hj1 hj2
    have h0 := hbal.2 j (by omega)
    have hnz : depth_after tokens p j ≠ 0 := fun e => hmin j (by omega) ⟨hj1, e⟩
    omega

theorem find_RB_match (tokens : Int → Token) (p : Int) (n k m : Nat) (hp : 0 ≤ p)
    (hlen : p + n ≤ 64) (hcap : ∀ j : Nat, j ≤ n → depth_after tokens p j ≤ 16)
    (hd : depth_after tokens p k = 0) (hlb : (tokens (p + k)).type = TK_LB)
    (hkm : k < m) (hmn : m < n) (hz : depth_after tokens p (m + 1) = 0)
    (hpos : ∀ j : Nat, k < j → j ≤ m → 1 ≤ depth_after tokens p j) :
    ∀ (d t fuel : Nat), t + d = m → k < t → d < fuel →
    find_RB tokens (p + k) fuel (p + t) = .ok (p + m) := by
  have hspec : ∀ t : Nat, k < t → t ≤ m →
      check_parentheses tokens (p + k) (p + t) =
        .ok (decide ((tokens (p + k)).type = TK_LB ∧ (tokens (p + t)).type = TK_RB ∧
          first_zero_at tokens (p + k) (p + t))) := by
    intro t ht1 ht2
    apply check_parentheses_spec tokens (p + k) (p + t) ⟨by omega, by omega⟩
      ⟨by omega, by omega⟩
    intro x hx _
    rw [depth_after_add, hd, sub_zero]
    exact hcap (k + x) (by omega)
  intro d
  induction d with
  | zero =>
    intro t fuel ht hkt hf
    have htm : t = m := by omega
    subst htm
    cases fuel with
    | zero => omega
    | succ fuel =>
      have hm1 := hpos t hkt (le_refl _)
      have hstep : depth_after tokens p (t + 1) =
          depth_after tokens p t + bracket_delta (tokens (p + t)) := rfl
      have hrb : (tokens (p + t)).type = TK_RB := by
        rcases bracket_delta_cases (tokens (p + t)) with h | h | h
        · omega
        · exact h.2.1
        · omega
      have hfz : first_zero_at tokens (p + k) (p + t) := by
        have hn : (p + (t : Int) + 1 - (p + k)).toNat = t - k + 1 := by omega
        refine ⟨by omega, ?_, ?_⟩
        · rw [hn, depth_after_add, hd, sub_zero]
          have : k + (t - k + 1) = t + 1 := by omega
          rw [this]; exact hz
        · intro x hx hx1
          rw [hn] at hx
          rw [depth_after_add, hd, sub_zero]
          have := hpos (k + x) (by omega) (by omega)
          omega
      have hcp := hspec t hkt (le_refl _)
      have htrue : decide ((tokens (p + k)).type = TK_LB ∧ (tokens (p + t)).type = TK_RB ∧
          first_zero_at tokens (p + k) (p + t)) = true := decide_eq_true ⟨hlb, hrb, hfz⟩
      rw [htrue] at hcp
      simp only [find_RB, hcp]
  | succ d ih =>
    intro t fuel ht hkt hf
    cases fuel with
    | zero => omega
    | succ fuel =>
      have hnz : ¬ first_zero_at tokens (p + k) (p + t) := by
        intro h
        have hn : (p + (t : Int) + 1 - (p + k)).toNat = t - k + 1 := by omega
        have h2 := h.2.1
        rw [hn, depth_after_add, hd, sub_zero] at h2
        have : k + (t - k + 1) = t + 1 := by omega
        rw [this] at h2
        have := hpos (t + 1) (by omega) (by omega)
        omega
      have hcp := hspec t hkt (by omega)
      have hfalse : decide ((tokens (p + k)).type = TK_LB ∧ (tokens (p + t)).type = TK_RB ∧
          first_zero_at tokens (p + k) (p + t)) = false :=
        decide_eq_false (fun h => hnz h.2.2)
      rw [hfalse] at hcp
      simp only [find_RB, hcp]
      have := ih (t + 1) fuel (by omega) (by omega) (by omega)
      have hc : p + ((t + 1 : Nat) : Int) = p + t + 1 := by push_cast; omega
      rw [hc] at this
      exact this

theorem op_idx_loop_skip (tokens : Int → Token) (q : Int) (f : Nat) (i r idx0 idx1 : Int)
    (hi : i ≤ q) (hb : inTokens i) (hlb : (tokens i).type = TK_LB)
    (hfr : find_RB tokens i 65 (i + 1) = .ok r) (hir : i ≤ r)
    (hf : (q + 1 - i).toNat < f) :
    op_idx_loop tokens q f i idx0 idx1 = op_idx_loop tokens q f (r + 1) idx0 idx1 := by
  cases f with
  | zero => omega
  | succ f =>
    rw [op_idx_loop_fuel tokens q (f + 1) f (r + 1) _ _ (by omega) (by omega)]
    simp only [op_idx_loop, hi, if_true, tokenAt, hb, hlb, hfr]

theorem last_top_skip (tokens : Int → Token) (p : Int) (pred : Token → Bool) (k : Nat) :
    ∀ d : Nat, (∀ j : Nat, k ≤ j → j < k + d →
      ¬ (depth_after tokens p j = 0 ∧ pred (tokens (p + j)) = true)) →
    last_top tokens p pred (k + d) = last_top tokens p pred k := by
  intro d
  induction d with
  | zero => intro _; rfl
  | succ d ih =>
    intro h
    have h1 := h (k + d) (by omega) (by omega)
    show (if depth_after tokens p (k + d) = 0 ∧ pred (tokens (p + ((k + d : Nat) : Int))) = true
      then some (k + d) else last_top tokens p pred (k + d)) = _
    rw [if_neg h1]
    exact ih (fun j hj1 hj2 => h j hj1 (by omega))

theorem last_top_hit (tokens : Int → Token) (p : Int) (pred : Token → Bool) (k : Nat)
    (hd : depth_after tokens p k = 0) (hp : pred (tokens (p + k)) = true) :
    last_top tokens p pred (k + 1) = some k := by
  show (if depth_after tokens p k = 0 ∧ pred (tokens (p + k)) = true then some k
    else last_top tokens p pred k) = _
  rw [if_pos ⟨hd, hp⟩]

theorem last_top_miss (tokens : Int → Token) (p : Int) (pred : Token → Bool) (k : Nat)
    (h : pred (tokens (p + k)) = false) :
    last_top tokens p pred (k + 1) = last_top tokens p pred k := by
  show (if depth_after tokens p k = 0 ∧ pred (tokens (p + k)) = true then some k
    else last_top tokens p pred k) = _
  rw [if_neg (by rw [h]; simp)]

theorem last_top_root (tokens : Int → Token) (p : Int) (pred : Token → Bool) (n j : Nat)
    (hj : j < n) (hd : depth_after tokens p j = 0) (hp : pred (tokens (p + j)) = true)
    (hlast : ∀ k : Nat, k < n → j < k → depth_after tokens p k = 0 →
      pred (tokens (p + k)) = false) :
    last_top tokens p pred n = some j := by
  have hn : n = j + 1 + (n - j - 1) := by omega
  rw [hn, last_top_skip tokens p pred (j + 1) (n - j - 1), last_top_hit tokens p pred j hd hp]
  intro k hk1 hk2 hk
  have := hlast k (by omega) (by omega) hk.1
  rw [this] at hk
  exact absurd hk.2 (by decide)

theorem last_top_none (tokens : Int → Token) (p : Int) (pred : Token → Bool) (n : Nat)
    (h : ∀ k : Nat, k < n → depth_after tokens p k = 0 → pred (tokens (p + k)) = false) :
    last_top tokens p pred n = none := by
  have := last_top_skip tokens p pred 0 n (fun k _ hk2 hk => by
    have := h k (by omega) hk.1
    rw [this] at hk
    exact absurd hk.2 (by decide))
  rw [Nat.zero_add] at this
  rw [this]
  rfl

theorem scan_state_class (tokens : Int → Token) (p : Int) (k : Nat) :
    (scan_state tokens p k).2 = 1 ∨ (scan_state tokens p k).2 = 2 := by
  unfold scan_state
  cases last_top tokens p is_additive k with
  | some j => left; rfl
  | none =>
    cases last_top tokens p is_multiplicative k with
    | some j => right; rfl
    | none => right; rfl

/-- The scan of `op_idx` over a balanced range, from a top-level offset to
the end: it skips every bracketed span and ends with the state that the
right-most top-level operators determine. -/
theorem op_idx_loop_scan (tokens : Int → Token) (p : Int) (n : Nat) (q : Int)
    (hq : q = p + n - 1) (hp : 0 ≤ p) (hlen : p + n ≤ 64) (hbal : balanced tokens p n)
    (hcap : ∀ j : Nat, j ≤ n → depth_after tokens p j ≤ 16) :
    ∀ (m k fuel : Nat), k + m = n → depth_after tokens p k = 0 → m < fuel →
    op_idx_loop tokens q fuel (p + k) (scan_state tokens p k).1 (scan_state tokens p k).2 =
      .ok (scan_state tokens p n).1 := by
  intro m
  induction m using Nat.strong_induction_on with
  | _ m ih =>
    intro k fuel hk hd hf
    by_cases hm : m = 0
    · have : k = n := by omega
      subst this
      exact op_idx_loop_done tokens q fuel _ _ _ (by omega) (by omega)
    have hi : p + (k : Int) ≤ q := by omega
    have hb : inTokens (p + (k : Int)) := ⟨by omega, by omega⟩
    have hfu : (q + 1 - (p + (k : Int))).toNat < fuel := by omega
    have hstep : depth_after tokens p (k + 1) =
        depth_after tokens p k + bracket_delta (tokens (p + k)) := rfl
    have hcast : p + ((k + 1 : Nat) : Int) = p + (k : Int) + 1 := by push_cast; omega
    rcases bracket_delta_cases (tokens (p + k)) with ⟨hlb, _⟩ | ⟨_, hrb, hdl⟩ | ⟨hlb, hrb, hdl⟩
    · obtain ⟨mt, hkm, hmn, hz, hpos⟩ := exists_match tokens p n k hbal (by omega) hd hlb
      have hfr := find_RB_match tokens p n k mt hp hlen hcap hd hlb hkm hmn hz hpos
        (mt - (k + 1)) (k + 1) 65 (by omega) (by omega) (by omega)
      rw [hcast] at hfr
      rw [op_idx_loop_skip tokens q fuel _ (p + mt) _ _ hi hb hlb hfr (by omega) hfu]
      have hskip : ∀ pred : Token → Bool, pred (tokens (p + k)) = false →
          last_top tokens p pred (mt + 1) = last_top tokens p pred k := by
        intro pred h1
        have hmk : mt + 1 = k + (mt + 1 - k) := by omega
        rw [hmk]
        apply last_top_skip
        intro j hj1 hj2 hj
        by_cases hjk : j = k
        · subst hjk
          rw [h1] at hj
          exact absurd hj.2 (by decide)
        · have := hpos j (by omega) (by omega)
          omega
      have hs : scan_state tokens p (mt + 1) = scan_state tokens p k := by
        unfold scan_state
        rw [hskip is_additive (by simp [is_additive, hlb]),
          hskip is_multiplicative (by simp [is_multiplicative, hlb])]
      have := ih (n - (mt + 1)) (by omega) (mt + 1) fuel (by omega) hz (by omega)
      rw [hs] at this
      have hc2 : p + ((mt + 1 : Nat) : Int) = p + (mt : Int) + 1 := by push_cast; omega
      rw [hc2] at this
      exact this
    · have := hbal.2 (k + 1) (by omega)
      omega
    · have hd1 : depth_after tokens p (k + 1) = 0 := by omega
      have hrec := ih (m - 1) (by omega) (k + 1) fuel (by omega) hd1 (by omega)
      rw [hcast] at hrec
      by_cases hadd : is_additive (tokens (p + k)) = true
      · have hty : (tokens (p + k)).type = TK_PLUS ∨ (tokens (p + k)).type = TK_MINUS := by
          simpa [is_additive] using hadd
        have hs : scan_state tokens p (k + 1) = (p + k, 1) := by
          unfold scan_state
          rw [last_top_hit tokens p is_additive k hd hadd]
        have hcl := scan_state_class tokens p k
        have hge : (scan_state tokens p k).2 ≥ 1 := by omega
        rw [hs] at hrec
        rcases hty with hty | hty
        · rw [op_idx_loop_op tokens q fuel _ _ _ BinOp.add hi hb hty hfu]
          simp only [BinOp.additive, if_true, hge]
          exact hrec
        · rw [op_idx_loop_op tokens q fuel _ _ _ BinOp.sub hi hb hty hfu]
          simp only [BinOp.additive, if_true, hge]
          exact hrec
      · have hadd : is_additive (tokens (p + k)) = false := by simpa using hadd
        have hla := last_top_miss tokens p is_additive k hadd
        by_cases hmul : is_multiplicative (tokens (p + k)) = true
        · have hty : (tokens (p + k)).type = TK_MUL ∨ (tokens (p + k)).type = TK_DIV := by
            simpa [is_multiplicative] using hmul
          have hlm := last_top_hit tokens p is_multiplicative k hd hmul
          have hs : scan_state tokens p (k + 1) =
              if (scan_state tokens p k).2 = 2 then (p + k, 2) else scan_state tokens p k := by
            unfold scan_state
            rw [hla, hlm]
            cases last_top tokens p is_additive k with
            | some j => simp
            | none =>
              cases last_top tokens p is_multiplicative k with
              | some j => simp
              | none => simp
          rw [hs] at hrec
          rcases hty with hty | hty
          · rw [op_idx_loop_op tokens q fuel _ _ _ BinOp.mul hi hb hty hfu]
            simp only [BinOp.additive, Bool.false_eq_true, if_false]
            by_cases h2 : (scan_state tokens p k).2 = 2
            · simp only [h2, if_true] at hrec ⊢; exact hrec
            · simp only [h2, if_false] at hrec ⊢; exact hrec
          · rw [op_idx_loop_op tokens q fuel _ _ _ BinOp.div hi hb hty hfu]
            simp only [BinOp.additive, Bool.false_eq_true, if_false]
            by_cases h2 : (scan_state tokens p k).2 = 2
            · simp only [h2, if_true] at hrec ⊢; exact hrec
            · simp only [h2, if_false] at hrec ⊢; exact hrec
        · have hmul : is_multiplicative (tokens (p + k)) = false := by simpa using hmul
          have hlm := last_top_miss tokens p is_multiplicative k hmul
          have hs : scan_state tokens p (k + 1) = scan_state tokens p k := by
            unfold scan_state
            rw [hla, hlm]
          rw [hs] at hrec
          simp only [is_additive, decide_eq_false_iff_not, not_or] at hadd
          simp only [is_multiplicative, decide_eq_false_iff_not, not_or] at hmul
          rw [op_idx_loop_other tokens q fuel _ _ _ hi hb hlb hadd.1 hadd.2 hmul.1 hmul.2 hfu]
          exact hrec

/-- C16 (as amended): for every token array and every range of `n ≥ 1`
tokens from `p` inside it whose brackets are balanced and nested at most 16
deep, `op_idx(p, p+n-1)` returns, and what it returns is the root: the
right-most `+` or `-` outside all brackets if there is one, otherwise the
right-most `*` or `/` outside all brackets. The index returned is outside
every bracketed span. -/
theorem C16_op_idx_root (tokens : Int → Token) (p : Int) (n j : Nat) (hp : 0 ≤ p)
    (hlen : p + n ≤ 64) (hbal : balanced tokens p n)
    (hcap : ∀ k : Nat, k ≤ n → depth_after tokens p k ≤ 16)
    (hroot : is_root tokens p n j) :
    op_idx tokens p (p + n - 1) = .ok (p + j) ∧ depth_after tokens p j = 0 := by
  refine ⟨?_, hroot.2.1⟩
  have hn : 1 ≤ n := by have := hroot.1; omega
  have h0 : scan_state tokens p 0 = (p, 2) := rfl
  have hscan := op_idx_loop_scan tokens p n (p + n - 1) rfl hp hlen hbal hcap n 0
    ((p + n - 1 + 1 - p).toNat + 1) (by omega) rfl (by omega)
  rw [h0] at hscan
  have hc : p + ((0 : Nat) : Int) = p := by simp
  rw [hc] at hscan
  unfold op_idx
  rw [hscan]
  obtain ⟨hj, hd, hr | hr⟩ := hroot
  · have := last_top_root tokens p is_additive n j hj hd hr.1 hr.2
    simp only [scan_state, this]
  · have h1 := last_top_none tokens p is_additive n hr.2.1
    have h2 := last_top_root tokens p is_multiplicative n j hj hd hr.1 hr.2.2
    simp only [scan_state, h1, h2]

set_option maxRecDepth 100000 in
/-- C16, witness: in `2*(3+4)-5*6` the root is the `-` at index 7: it is the
right-most top-level additive operator, and `op_idx(0, 10)` returns 7, not
the `+` inside the brackets and not the `*` to its right. -/
theorem C16_op_idx_root_witness :
    balanced mixed_tokens 0 11 ∧ is_root mixed_tokens 0 11 7 ∧
    (mixed_tokens 7).type = TK_MINUS ∧
    op_idx mixed_tokens 0 (0 + (11 : Nat) - 1) = .ok (0 + (7 : Nat)) ∧
    depth_after mixed_tokens 0 7 = 0 :=
  ⟨by decide, by decide, by decide,
    C16_op_idx_root mixed_tokens 0 11 7 (by decide) (by decide) (by decide) (by decide)
      (by decide)⟩

set_option maxRecDepth 100000 in
/-- C16, counterexample: the 63 tokens of `1+(...(1)...)` with 30 nested
pairs are balanced and have no enclosing pair, and the `+` at index 1 is
their only top-level operator, so the root. `op_idx(0, 62)` does not return
1: looking for the bracket that closes the one at index 2 it stores the
opening brackets 17 to 30 at `match[16]` to `match[29]`, 14 entries past the
array. -/
theorem C16_counterexample_deep_operand :
    balanced deep_sum_tokens 0 63 ∧ is_root deep_sum_tokens 0 63 1 ∧
    check_parentheses deep_sum_tokens 0 62 = .ok false ∧
    op_idx deep_sum_tokens 0 62 ≠ .ok 1 ∧
    op_idx deep_sum_tokens 0 62 = .error .outOfBounds := by
  have h : op_idx deep_sum_tokens 0 62 = .error .outOfBounds := by rfl
  refine ⟨by decide, by decide, by rfl, ?_, h⟩
  rw [h]
  intro h2
  cases h2

/-! ## C18: the rewrite of `*` into a dereference -/

theorem mark_deref_rewrite (nr : Int) (f : Nat) (i : Int) (tokens : Int → Token)
    (hi : i < nr) (hb : inTokens i) (hm : (tokens i).type = TK_MUL)
    (hc : i = 0 ∨ deref_after (tokens (i - 1)) = true) (hf : (nr - i).toNat < f) :
    mark_deref nr f i tokens =
      mark_deref nr f (i + 1) (Function.update tokens i ⟨TK_DEREF, (tokens i).str⟩) := by
  cases f with
  | zero => omega
  | succ f =>
    rw [mark_deref_fuel nr (f + 1) f (i + 1) _ (by omega) (by omega)]
    by_cases hi0 : i = 0
    · subst hi0
      simp only [mark_deref, hi, if_true, tokenAt, hb, hm]
    · have hb1 : inTokens (i - 1) := ⟨by have := hb.1; omega, by have := hb.2; omega⟩
      have h2 : (tokens (i - 1)).type = TK_PLUS ∨ (tokens (i - 1)).type = TK_MINUS ∨
          (tokens (i - 1)).type = TK_MUL ∨ (tokens (i - 1)).type = TK_DIV ∨
          (tokens (i - 1)).type = TK_LB := by
        rcases hc with h | h
        · exact absurd h hi0
        · simpa [deref_after] using h
      simp only [mark_deref, hi, if_true, tokenAt, hb, hm, hi0, if_false, hb1, h2]

theorem mark_deref_keep (nr : Int) (f : Nat) (i : Int) (tokens : Int → Token)
    (hi : i < nr) (hb : inTokens i) (hi0 : i ≠ 0)
    (hc : deref_after (tokens (i - 1)) = false) (hf : (nr - i).toNat < f) :
    mark_deref nr f i tokens = mark_deref nr f (i + 1) tokens := by
  by_cases hm : (tokens i).type = TK_MUL
  · cases f with
    | zero => omega
    | succ f =>
      rw [mark_deref_fuel nr (f + 1) f (i + 1) _ (by omega) (by omega)]
      have hb1 : inTokens (i - 1) := ⟨by have := hb.1; omega, by have := hb.2; omega⟩
      have h2 : ¬ ((tokens (i - 1)).type = TK_PLUS ∨ (tokens (i - 1)).type = TK_MINUS ∨
          (tokens (i - 1)).type = TK_MUL ∨ (tokens (i - 1)).type = TK_DIV ∨
          (tokens (i - 1)).type = TK_LB) := by
        simpa [deref_after] using hc
      simp only [mark_deref, hi, if_true, tokenAt, hb, hm, hi0, if_false, hb1, h2]
  · exact mark_deref_other nr f i tokens hi hb hm hf

/-- The rewrite loop from index `i` on: it returns, no text changes, entries
outside `i..nr-1` are untouched, and an entry of the range becomes a
dereference exactly when it is a `*` at index 0 or a `*` behind an entry
whose type, after the loop, is `+`, `-`, `*`, `/` or `(`. -/
theorem mark_deref_spec (nr : Int) (h64 : nr ≤ 64) :
    ∀ (m : Nat) (i : Int) (cur : Int → Token) (fuel : Nat), 0 ≤ i → i + m = nr → m < fuel →
    ∃ out, mark_deref nr fuel i cur = .ok out ∧ (∀ j, (out j).str = (cur j).str) ∧
      (∀ j, (j < i ∨ nr ≤ j) → out j = cur j) ∧
      ∀ j, i ≤ j → j < nr →
        (out j).type =
          if (cur j).type = TK_MUL ∧ (j = 0 ∨ deref_after (out (j - 1)) = true) then TK_DEREF
          else (cur j).type := by
  intro m
  induction m with
  | zero =>
    intro i cur fuel hi hm hf
    refine ⟨cur, mark_deref_done nr fuel i cur (by omega) hf, fun _ => rfl, fun _ _ => rfl, ?_⟩
    intro j h1 h2
    omega
  | succ m ih =>
    intro i cur fuel hi hm hf
    have hlt : i < nr := by omega
    have hb : inTokens i := ⟨hi, by omega⟩
    have hfu : (nr - i).toNat < fuel := by omega
    by_cases hrw : (cur i).type = TK_MUL ∧ (i = 0 ∨ deref_after (cur (i - 1)) = true)
    · obtain ⟨out, h1, h2, h3, h4⟩ := ih (i + 1)
        (Function.update cur i ⟨TK_DEREF, (cur i).str⟩) fuel (by omega) (by omega) (by omega)
      have hupd : ∀ j, j ≠ i → Function.update cur i ⟨TK_DEREF, (cur i).str⟩ j = cur j :=
        fun j hj => Function.update_noteq hj _ _
      refine ⟨out, ?_, ?_, ?_, ?_⟩
      · rw [mark_deref_rewrite nr fuel i cur hlt hb hrw.1 hrw.2 hfu]; exact h1
      · intro j
        rw [h2 j]
        by_cases hj : j = i
        · subst hj; simp
        · rw [hupd j hj]
      · intro j hj
        rw [h3 j (by omega), hupd j (by omega)]
      · intro j hj1 hj2
        by_cases hj : j = i
        · subst hj
          have ho : out j = ⟨TK_DEREF, (cur j).str⟩ := by
            rw [h3 j (Or.inl (by omega))]; simp
          have hprev : j ≠ 0 → out (j - 1) = cur (j - 1) := by
            intro _
            rw [h3 (j - 1) (Or.inl (by omega)), hupd (j - 1) (by omega)]
          have hcond : (cur j).type = TK_MUL ∧ (j = 0 ∨ deref_after (out (j - 1)) = true) := by
            refine ⟨hrw.1, ?_⟩
            rcases hrw.2 with h | h
            · exact Or.inl h
            · by_cases hj0 : j = 0
              · exact Or.inl hj0
              · right; rw [hprev hj0]; exact h
          rw [if_pos hcond, ho]
        · rw [h4 j (by omega) hj2, hupd j hj]
    · obtain ⟨out, h1, h2, h3, h4⟩ := ih (i + 1) cur fuel (by omega) (by omega) (by omega)
      have hstep : mark_deref nr fuel i cur = mark_deref nr fuel (i + 1) cur := by
        by_cases hmul : (cur i).type = TK_MUL
        · have hc : ¬ (i = 0 ∨ deref_after (cur (i - 1)) = true) := fun h => hrw ⟨hmul, h⟩
          rw [not_or] at hc
          exact mark_deref_keep nr fuel i cur hlt hb hc.1 (by simpa using hc.2) hfu
        · exact mark_deref_other nr fuel i cur hlt hb hmul hfu
      refine ⟨out, by rw [hstep]; exact h1, h2, fun j hj => h3 j (by omega), ?_⟩
      intro j hj1 hj2
      by_cases hj : j = i
      · subst hj
        have ho : out j = cur j := h3 j (Or.inl (by omega))
        have hcond : ¬ ((cur j).type = TK_MUL ∧
            (j = 0 ∨ deref_after (out (j - 1)) = true)) := by
          intro h
          apply hrw
          refine ⟨h.1, ?_⟩
          rcases h.2 with h0 | h0
          · exact Or.inl h0
          · right
            rw [h3 (j - 1) (Or.inl (by omega))] at h0
            exact h0
        rw [if_neg hcond, ho]
      · exact h4 j (by omega) hj2

/-- C18: what the rewrite pass of `expr` does, for every token array and
every `nr_token` up to 64. The pass returns; it changes no token text and no
entry outside `0..nr_token-1`; a `*` becomes a dereference exactly when it
stands at index 0 or behind a token that is then `+`, `-`, `*`, `/` or `(`,
and every other token keeps its type. In particular a `*` behind `==`, `!=`,
`&&` or behind a dereference keeps the type multiply. -/
theorem C18_mark_deref_rule (tokens : Int → Token) (nr : Int) (h0 : 0 ≤ nr) (h64 : nr ≤ 64) :
    ∃ out, mark_deref nr (nr.toNat + 1) 0 tokens = .ok out ∧
      (∀ j, (out j).str = (tokens j).str) ∧
      (∀ j, (j < 0 ∨ nr ≤ j) → out j = tokens j) ∧
      (∀ j, 0 ≤ j → j < nr →
        (out j).type =
          if (tokens j).type = TK_MUL ∧ (j = 0 ∨ deref_after (out (j - 1)) = true)
          then TK_DEREF else (tokens j).type) ∧
      ∀ j, 1 ≤ j → j < nr → (tokens j).type = TK_MUL →
        ((out (j - 1)).type = TK_EQ ∨ (out (j - 1)).type = TK_NEQ ∨
          (out (j - 1)).type = TK_AND ∨ (out (j - 1)).type = TK_DEREF) →
        (out j).type = TK_MUL := by
  obtain ⟨out, h1, h2, h3, h4⟩ := mark_deref_spec nr h64 nr.toNat 0 tokens (nr.toNat + 1)
    (le_refl _) (by omega) (by omega)
  refine ⟨out, h1, h2, h3, h4, ?_⟩
  intro j hj1 hj2 hm hprev
  rw [h4 j (by omega) hj2]
  have hc : ¬ ((tokens j).type = TK_MUL ∧ (j = 0 ∨ deref_after (out (j - 1)) = true)) := by
    intro h
    rcases h.2 with h0 | h0
    · omega
    · simp only [deref_after, decide_eq_true_eq] at h0
      rcases hprev with h | h | h | h <;> (rw [h] at h0; revert h0; decide)
  rw [if_neg hc, hm]

/-- C18, witness: in `1==*0x100` the `*` behind `==` is still a multiply after
the pass, and in `**0x100` the second `*`, behind a dereference, is still a
multiply, on the explicit token arrays and on what `make_token` and the pass
leave for the two texts; `expr` then stops in `assert(0)` on both texts. -/
theorem C18_mark_deref_rule_witness :
    (∃ out, mark_deref 4 5 0 eq_star_tokens = .ok out ∧ (out 1).type = TK_EQ ∧
      (out 2).type = TK_MUL) ∧
    (∃ out, mark_deref 3 4 0 star_star_tokens = .ok out ∧ (out 0).type = TK_DEREF ∧
      (out 1).type = TK_MUL) ∧
    (rewritten "1==*0x100".toList 2).type = TK_MUL ∧
    (rewritten "**0x100".toList 1).type = TK_MUL ∧
    expr demoMachine ExprState.init "1==*0x100".toList true = .error .assertFail ∧
    expr demoMachine ExprState.init "**0x100".toList true = .error .assertFail ∧
    ∃ out, mark_deref 4 ((4 : Int).toNat + 1) 0 eq_star_tokens = .ok out ∧
      (∀ j, (out j).str = (eq_star_tokens j).str) ∧
      (∀ j, (j < 0 ∨ 4 ≤ j) → out j = eq_star_tokens j) ∧
      (∀ j, 0 ≤ j → j < 4 →
        (out j).type =
          if (eq_star_tokens j).type = TK_MUL ∧ (j = 0 ∨ deref_after (out (j - 1)) = true)
          then TK_DEREF else (eq_star_tokens j).type) ∧
      ∀ j, 1 ≤ j → j < 4 → (eq_star_tokens j).type = TK_MUL →
        ((out (j - 1)).type = TK_EQ ∨ (out (j - 1)).type = TK_NEQ ∨
          (out (j - 1)).type = TK_AND ∨ (out (j - 1)).type = TK_DEREF) →
        (out j).type = TK_MUL :=
  ⟨⟨_, rfl, by decide, by decide⟩, ⟨_, rfl, by decide, by decide⟩, by decide, by decide,
    rfl, rfl,
    C18_mark_deref_rule eq_star_tokens 4 (by decide) (by decide)⟩
/-! ## C19: where `expr` splits -/

theorem expr_split_skip (m : Machine) (tokens : Int → Token) (nr : Int) (h64 : nr ≤ 64)
    (fuel : Nat) (k : Nat) : ∀ d : Nat, (k : Int) + d ≤ nr → ((nr - k).toNat < fuel) →
    (∀ j : Nat, k ≤ j → j < k + d → is_cmp (tokens j) = false) →
    expr_split m tokens nr fuel k = expr_split m tokens nr fuel ((k + d : Nat) : Int) := by
  intro d
  induction d with
  | zero => intro _ _ _; rfl
  | succ d ih =>
    intro hle hf h
    rw [ih (by omega) hf (fun j hj1 hj2 => h j hj1 (by omega))]
    have hc := h (k + d) (by omega) (by omega)
    simp only [is_cmp, decide_eq_false_iff_not, not_or] at hc
    have hcast : (((k + (d + 1) : Nat)) : Int) = ((k + d : Nat) : Int) + 1 := by
      push_cast; omega
    rw [hcast]
    exact expr_split_other m tokens nr fuel _ (by push_cast; omega)
      ⟨by push_cast; omega, by push_cast; omega⟩ hc.1 hc.2.1 hc.2.2 (by push_cast; omega)

/-- C19 (as amended): the second loop of `expr`, for every token array and
every `nr_token` up to 64. At the left-most token that is `==`, `!=` or `&&`,
wherever it stands (brackets are not looked at), it evaluates the range to
its left and the range to its right and returns the comparison of the two
values; when no token of the sequence is `==`, `!=` or `&&` it passes the
full range to `eval`. -/
theorem C19_expr_split_leftmost (m : Machine) (tokens : Int → Token) (nr : Int)
    (h64 : nr ≤ 64) :
    (∀ (i : Nat) (c : CmpOp), (i : Int) < nr → (tokens i).type = c.type →
      (∀ j : Nat, j < i → is_cmp (tokens j) = false) →
      expr_split m tokens nr (nr.toNat + 1) 0 =
        match eval m tokens (nr.toNat + 1) 0 (i - 1) with
        | .error f => .error f
        | .ok a =>
          match eval m tokens (nr.toNat + 1) (i + 1) (nr - 1) with
          | .error f => .error f
          | .ok b => .ok (if c.holds a b then 1 else 0)) ∧
    ((∀ j : Nat, (j : Int) < nr → is_cmp (tokens j) = false) →
      expr_split m tokens nr (nr.toNat + 1) 0 = eval m tokens (nr.toNat + 1) 0 (nr - 1)) := by
  constructor
  · intro i c hi hty hbefore
    have h := expr_split_skip m tokens nr h64 (nr.toNat + 1) 0 i (by push_cast; omega)
      (by push_cast; omega) (fun j _ hj => hbefore j (by omega))
    have hc0 : ((0 : Nat) : Int) = 0 := rfl
    rw [hc0] at h
    rw [h]
    have hc : ((0 + i : Nat) : Int) = (i : Int) := by push_cast; omega
    rw [hc]
    exact expr_split_cmp m tokens nr (nr.toNat + 1) i c hi ⟨by omega, by omega⟩ hty (by omega)
  · intro hno
    by_cases hn : 0 ≤ nr
    · have h := expr_split_skip m tokens nr h64 (nr.toNat + 1) 0 nr.toNat (by push_cast; omega)
        (by push_cast; omega) (fun j _ hj => hno j (by omega))
      have hc0 : ((0 : Nat) : Int) = 0 := rfl
      rw [hc0] at h
      rw [h]
      exact expr_split_done m tokens nr (nr.toNat + 1) _ (by push_cast; omega) (by omega)
    · exact expr_split_done m tokens nr (nr.toNat + 1) 0 (by omega) (by omega)

/-- C19, witness: `1==1` splits at index 1, and `1+2`, which has no
comparison token, is passed whole to `eval`. -/
theorem C19_expr_split_leftmost_witness :
    (rewritten "1==1".toList 1).type = TK_EQ ∧
    expr_split demoMachine (rewritten "1==1".toList) 3 ((3 : Int).toNat + 1) 0 = .ok 1 ∧
    expr_split demoMachine (rewritten "1+2".toList) 3 ((3 : Int).toNat + 1) 0 =
      eval demoMachine (rewritten "1+2".toList) ((3 : Int).toNat + 1) 0 (3 - 1) :=
  ⟨by decide,
    (C19_expr_split_leftmost demoMachine (rewritten "1==1".toList) 3 (by decide)).1 1 CmpOp.eq
      (by decide) (by decide) (by decide),
    (C19_expr_split_leftmost demoMachine (rewritten "1+2".toList) 3 (by decide)).2 (by
      intro j hj
      have hj3 : j < 3 := by omega
      interval_cases j <;> decide)⟩

set_option maxRecDepth 100000 in
/-- C19, counterexample: in `*(==1+*)` the only `==` stands at index 2,
inside the bracket pair 1..6, so no occurrence is outside all brackets.
`expr` still splits there: it compares the value of `*(` (the memory word at
0) with the value of `1+*)` and returns 0, whereas `eval` on the full range
0..6 stops in `assert(0)`. -/
theorem C19_counterexample_nested_split :
    (rewritten "*(==1+*)".toList 1).type = TK_LB ∧
    (rewritten "*(==1+*)".toList 6).type = TK_RB ∧
    first_zero_at (rewritten "*(==1+*)".toList) 1 6 ∧
    (rewritten "*(==1+*)".toList 2).type = TK_EQ ∧
    (∀ j : Nat, j < 7 → is_cmp (rewritten "*(==1+*)".toList j) = true → j = 2) ∧
    eval demoMachine (rewritten "*(==1+*)".toList) 8 0 6 = .error .assertFail ∧
    eval demoMachine (rewritten "*(==1+*)".toList) 8 0 1 = .ok 0 ∧
    eval demoMachine (rewritten "*(==1+*)".toList) 8 3 6 = .ok 1 ∧
    valueOf (expr demoMachine ExprState.init "*(==1+*)".toList true) = some 0 := by
  refine ⟨by decide, by decide, by decide, by decide, by decide, rfl, rfl, rfl, rfl⟩
/-! ## C20: the caller's success flag -/

/-- C20: for every machine, token state, text and incoming flag, when
`make_token` succeeds on the text and `expr` returns, the flag the caller
reads afterwards is the flag it passed in: `expr` stores to it only where
`make_token` fails (the value false, with result 0) and never stores true.
The call never runs on for ever. -/
theorem C20_success_flag_kept (m : Machine) (st : ExprState) (e : List Char)
    (success : Bool) (lx : Lexed) (hlex : make_token st e = .ok lx) :
    (lx.ret = true → ∀ out, expr m st e success = .ok out → out.success = success) ∧
    (lx.ret = false → expr m st e success = .ok ⟨0, false, lx.st⟩) ∧
    expr m st e success ≠ .error .outOfFuel := by
  refine ⟨?_, ?_, expr_total m st e success⟩
  · intro hret out hout
    unfold expr at hout
    rw [hlex] at hout
    simp only [hret, Bool.true_eq_false, if_false] at hout
    cases hmd : mark_deref lx.st.nr_token (lx.st.nr_token.toNat + 1) 0 lx.st.tokens with
    | error f => rw [hmd] at hout; cases hout
    | ok tokens =>
      rw [hmd] at hout
      simp only [] at hout
      cases hsp : expr_split m tokens lx.st.nr_token (lx.st.nr_token.toNat + 1) 0 with
      | error f => rw [hsp] at hout; cases hout
      | ok v =>
        rw [hsp] at hout
        simp only [Except.ok.injEq] at hout
        rw [← hout]
  · intro hret
    unfold expr
    rw [hlex]
    simp only [hret, if_true]

/-- C20, witness: `1+2` tokenizes; called with the flag false, `expr`
returns 3 and the flag is still false; called with true it is still true. -/
theorem C20_success_flag_kept_witness :
    (∃ st1, expr demoMachine ExprState.init "1+2".toList false = .ok ⟨3, false, st1⟩) ∧
    (∃ st1, expr demoMachine ExprState.init "1+2".toList true = .ok ⟨3, true, st1⟩) ∧
    ∃ lx, make_token ExprState.init "1+2".toList = .ok lx ∧ lx.ret = true ∧
      ((lx.ret = true → ∀ out, expr demoMachine ExprState.init "1+2".toList false = .ok out →
          out.success = false) ∧
        (lx.ret = false →
          expr demoMachine ExprState.init "1+2".toList false = .ok ⟨0, false, lx.st⟩) ∧
        expr demoMachine ExprState.init "1+2".toList false ≠ .error .outOfFuel) :=
  ⟨⟨_, rfl⟩, ⟨_, rfl⟩, _, rfl, rfl,
    C20_success_flag_kept demoMachine ExprState.init "1+2".toList false _ rfl⟩

end Nemu
